import Mathlib

/-!
# Verification of the ccusageview Report Normalization, Aggregation & Statistics Engine

This file gives a shallow embedding, in Lean 4, of the core of the
`ccusageview` repository (format detection, canonical normalization, generic
grouping/merging, descriptive statistics, per-model pricing, and the
URL-fragment codec), and proves/refutes the frozen behavioural claims about
that code.

Modelling conventions, used throughout:

* JavaScript `number` values are modelled as exact rationals `ℚ` (or as field
  elements of an abstract linear ordered field where noted).  All arithmetic
  performed by the code is field arithmetic; IEEE-754 rounding is outside the
  scope of this embedding.
* JavaScript `Map`/`Set` objects are modelled as insertion-ordered association
  lists / duplicate-free lists, which is exactly the observable iteration
  semantics guaranteed by the language.
* `String.prototype.localeCompare` is locale-sensitive; every function whose
  source calls it is therefore parameterised by a comparison
  `cmp : String → String → Ordering` standing for `localeCompare` under the
  ambient runtime locale.
* `Array.prototype.toSorted` (a stable non-mutating sort) is modelled by
  `List.insertionSort`, which is stable.
* Environment-dependent date builtins (`new Date(...).getTime()`,
  `toLocaleString`) are likewise taken as parameters where they occur.
-/

namespace CCV

/-- `ModelBreakdown` from `src/types.ts`: per-model slice of an entry. -/
structure ModelBreakdown where
  modelName : String
  inputTokens : ℚ
  outputTokens : ℚ
  cacheCreationTokens : ℚ
  cacheReadTokens : ℚ
  cost : ℚ
deriving Repr, DecidableEq

/-- `NormalizedEntry` from `src/utils/normalize.ts`. -/
structure NormalizedEntry where
  label : String
  inputTokens : ℚ
  outputTokens : ℚ
  cacheCreationTokens : ℚ
  cacheReadTokens : ℚ
  totalTokens : ℚ
  cost : ℚ
  models : List String
  modelBreakdowns : Option (List ModelBreakdown) := none
deriving Repr, DecidableEq

/-- `NormalizedTotals` from `src/utils/normalize.ts`. -/
structure NormalizedTotals where
  inputTokens : ℚ
  outputTokens : ℚ
  cacheCreationTokens : ℚ
  cacheReadTokens : ℚ
  totalTokens : ℚ
  totalCost : ℚ
deriving Repr, DecidableEq

/-! ## Aggregator (`src/utils/aggregate.ts`)

`groupEntries` folds entries into a `Map<string, bucket>` (insertion-ordered),
then sorts the pairs with `localeCompare` and materialises them. -/

/-- Insertion-ordered set insertion: models `Set.prototype.add`. -/
def setAdd (s : List String) (m : String) : List String :=
  if m ∈ s then s else s ++ [m]

/-- In-place numeric accumulation of one breakdown record into another
(`for (const k of MB_NUMERIC_KEYS) existing[k] += mb[k]`); the `modelName`
of `existing` is kept. -/
def mbAccum (x mb : ModelBreakdown) : ModelBreakdown :=
  { x with
    inputTokens := x.inputTokens + mb.inputTokens
    outputTokens := x.outputTokens + mb.outputTokens
    cacheCreationTokens := x.cacheCreationTokens + mb.cacheCreationTokens
    cacheReadTokens := x.cacheReadTokens + mb.cacheReadTokens
    cost := x.cost + mb.cost }

/-- One step of `mergeBreakdowns`: a `Map<string, ModelBreakdown>` keyed by
`modelName` (insertion-ordered association list); an existing key is updated
in place, a fresh key is a spread-copy appended at the end. -/
def mmInsert : List ModelBreakdown → ModelBreakdown → List ModelBreakdown
  | [], mb => [mb]
  | x :: rest, mb =>
    if x.modelName = mb.modelName then mbAccum x mb :: rest
    else x :: mmInsert rest mb

/-- `mergeBreakdowns`' loop body over one entry's breakdown list. -/
def mergeMBList (mm : List ModelBreakdown) (bds : List ModelBreakdown) :
    List ModelBreakdown :=
  bds.foldl mmInsert mm

/-- The per-group accumulator of `groupEntries` (and of the inline loop of
`mergeNormalizedEntries` in `src/utils/merge.ts`, which has the identical
fields). -/
structure Bucket where
  inputTokens : ℚ := 0
  outputTokens : ℚ := 0
  cacheCreationTokens : ℚ := 0
  cacheReadTokens : ℚ := 0
  totalTokens : ℚ := 0
  cost : ℚ := 0
  models : List String := []
  modelMap : List ModelBreakdown := []
  hasBreakdowns : Bool := false
deriving Repr, DecidableEq

/-- Accumulate one entry into a bucket: the six numeric fields are summed,
`models` is set-unioned, and `modelBreakdowns` (when present, even empty)
sets `hasBreakdowns` and is merged into the model map. -/
def bucketAdd (b : Bucket) (e : NormalizedEntry) : Bucket :=
  { inputTokens := b.inputTokens + e.inputTokens
    outputTokens := b.outputTokens + e.outputTokens
    cacheCreationTokens := b.cacheCreationTokens + e.cacheCreationTokens
    cacheReadTokens := b.cacheReadTokens + e.cacheReadTokens
    totalTokens := b.totalTokens + e.totalTokens
    cost := b.cost + e.cost
    models := e.models.foldl setAdd b.models
    modelMap :=
      match e.modelBreakdowns with
      | none => b.modelMap
      | some bds => mergeMBList b.modelMap bds
    hasBreakdowns := b.hasBreakdowns || e.modelBreakdowns.isSome }

/-- Update the bucket for key `k` in the insertion-ordered map, creating a
fresh zero bucket at the end when the key is new (JS `Map.get`/`Map.set`). -/
def bumpKey : List (String × Bucket) → String → NormalizedEntry →
    List (String × Bucket)
  | [], k, e => [(k, bucketAdd {} e)]
  | (k', b) :: rest, k, e =>
    if k' = k then (k', bucketAdd b e) :: rest
    else (k', b) :: bumpKey rest k e

/-- One iteration of the `groupEntries` loop: entries whose key is `null`
are skipped. -/
def groupStep (keyFn : NormalizedEntry → Option String)
    (m : List (String × Bucket)) (e : NormalizedEntry) :
    List (String × Bucket) :=
  match keyFn e with
  | none => m
  | some k => bumpKey m k e

/-- Materialise one sorted `(key, bucket)` pair into a `NormalizedEntry`;
`modelBreakdowns` is absent iff no member carried breakdowns. -/
def finalizePair (p : String × Bucket) : NormalizedEntry :=
  { label := p.1
    inputTokens := p.2.inputTokens
    outputTokens := p.2.outputTokens
    cacheCreationTokens := p.2.cacheCreationTokens
    cacheReadTokens := p.2.cacheReadTokens
    totalTokens := p.2.totalTokens
    cost := p.2.cost
    models := p.2.models
    modelBreakdowns := if p.2.hasBreakdowns then some p.2.modelMap else none }

/-- The sort relation used for `.toSorted(([a], [b]) => a.localeCompare(b))`:
`a` may come before `b` iff the comparison does not say "greater". -/
def keyLE (cmp : String → String → Ordering) (p q : String × Bucket) : Prop :=
  cmp p.1 q.1 ≠ Ordering.gt

instance (cmp : String → String → Ordering) : DecidableRel (keyLE cmp) :=
  fun p q => by unfold keyLE; infer_instance

/-- `groupEntries` from `src/utils/aggregate.ts`, parameterised by the
ambient-locale comparison `cmp` (modelling `localeCompare`). -/
def groupEntries (cmp : String → String → Ordering)
    (keyFn : NormalizedEntry → Option String)
    (entries : List NormalizedEntry) : List NormalizedEntry :=
  ((entries.foldl (groupStep keyFn) []).insertionSort (keyLE cmp)).map finalizePair

/-- `mergeNormalizedEntries` from `src/utils/merge.ts`.  Zero arrays give the
empty list; one array is returned unchanged; otherwise the code runs, inline,
exactly the `groupEntries` accumulation keyed by `label` over all the arrays'
entries, in array order — embedded here through the shared core. -/
def mergeNormalizedEntries (cmp : String → String → Ordering) :
    List (List NormalizedEntry) → List NormalizedEntry
  | [] => []
  | [a] => a
  | arrays => groupEntries cmp (fun e => some e.label) arrays.flatten

/-- `sumEntries` from `src/utils/aggregate.ts`: the same numeric summation
without grouping; the accumulated `cost` is returned as `totalCost`. -/
def sumEntries (entries : List NormalizedEntry) : NormalizedTotals :=
  entries.foldl
    (fun t e =>
      { inputTokens := t.inputTokens + e.inputTokens
        outputTokens := t.outputTokens + e.outputTokens
        cacheCreationTokens := t.cacheCreationTokens + e.cacheCreationTokens
        cacheReadTokens := t.cacheReadTokens + e.cacheReadTokens
        totalTokens := t.totalTokens + e.totalTokens
        totalCost := t.totalCost + e.cost })
    ⟨0, 0, 0, 0, 0, 0⟩

/-- `aggregateModelBreakdowns` from `src/utils/aggregate.ts`: merge every
entry's breakdown records by model name, insertion order, entries without
breakdowns ignored. -/
def aggregateModelBreakdowns (entries : List NormalizedEntry) :
    List ModelBreakdown :=
  entries.foldl
    (fun mm e =>
      match e.modelBreakdowns with
      | none => mm
      | some bds => mergeMBList mm bds)
    []

/-! ## Monthly roll-up (`src/utils/normalize.ts`, `aggregateToMonthly`) -/

/-- JS `s.slice(0, n)`: the first `n` characters (scalar-value model,
kernel-reducible). -/
def strTake (s : String) (n : Nat) : String :=
  ⟨s.data.take n⟩

/-- `/^\d{4}-\d{2}$/.test s` (JS `\d` is ASCII `0-9`). -/
def isYearMonth (s : String) : Bool :=
  match s.data with
  | [a, b, c, d, dash, e, f] =>
    a.isDigit && b.isDigit && c.isDigit && d.isDigit &&
      (dash == '-') && e.isDigit && f.isDigit
  | _ => false

/-- The grouping key of `aggregateToMonthly`: the first seven characters of
the label when they have the shape `YYYY-MM`, otherwise `null`. -/
def monthKeyFn (e : NormalizedEntry) : Option String :=
  let month := strTake e.label 7
  if isYearMonth month then some month else none

/-- `aggregateToMonthly` from `src/utils/normalize.ts`: delegates to
`groupEntries` with the month key. -/
def aggregateToMonthly (cmp : String → String → Ordering)
    (dailyEntries : List NormalizedEntry) : List NormalizedEntry :=
  groupEntries cmp monthKeyFn dailyEntries

/-! ## Characterisation of the grouping fold -/

/-- Lookup in the insertion-ordered bucket map (JS `Map.get`). -/
def findB : List (String × Bucket) → String → Option Bucket
  | [], _ => none
  | (k', b) :: rest, k => if k' = k then some b else findB rest k

/-- The entry-level counterpart of the sort relation: labels compare
not-greater under the ambient-locale comparison. -/
def entryLE (cmp : String → String → Ordering) (a b : NormalizedEntry) : Prop :=
  cmp a.label b.label ≠ Ordering.gt

/-- Sum of one numeric field over the entries carrying a given label. -/
def sumOf (f : NormalizedEntry → ℚ) (L : String)
    (es : List NormalizedEntry) : ℚ :=
  ((es.filter (fun e => e.label = L)).map f).sum

/-- Code-point comparison of two characters. -/
def charCmp (a b : Char) : Ordering :=
  if a.toNat < b.toNat then Ordering.lt
  else if b.toNat < a.toNat then Ordering.gt
  else Ordering.eq

/-- Lexicographic code-point comparison of character lists. -/
def strCmpList : List Char → List Char → Ordering
  | [], [] => Ordering.eq
  | [], _ :: _ => Ordering.lt
  | _ :: _, [] => Ordering.gt
  | a :: s, b :: t =>
    match charCmp a b with
    | Ordering.eq => strCmpList s t
    | Ordering.lt => Ordering.lt
    | Ordering.gt => Ordering.gt

/-- A concrete locale-independent code-point collation, usable as one
possible interpretation of `localeCompare`. -/
def cmpCode (s t : String) : Ordering :=
  strCmpList s.data t.data

/-! ## Sample data for witnesses -/

def sampleA : NormalizedEntry :=
  { label := "2025-07-01", inputTokens := 100, outputTokens := 50
    cacheCreationTokens := 10, cacheReadTokens := 200, totalTokens := 360
    cost := 1/2, models := ["m"], modelBreakdowns := none }

def sampleB : NormalizedEntry :=
  { label := "2025-07-02", inputTokens := 1, outputTokens := 2
    cacheCreationTokens := 3, cacheReadTokens := 4, totalTokens := 10
    cost := 1, models := ["n"], modelBreakdowns := none }

/-- An entry whose label has a valid `YYYY-MM` seven-character prefix but does
not match the full `YYYY-MM-DD` pattern. -/
def sampleOddLabel : NormalizedEntry :=
  { label := "2025-07x", inputTokens := 1, outputTokens := 0
    cacheCreationTokens := 0, cacheReadTokens := 0, totalTokens := 1
    cost := 0, models := [], modelBreakdowns := none }

/-! ## C4: monthly roll-up inclusion criterion -/

/-- Written from the claim's words, for comparison with the code: a label
matching `^\d{4}-\d{2}-\d{2}$`. -/
def specDayLabel (s : String) : Bool :=
  match s.data with
  | [a, b, c, d, dash1, e, f, dash2, g, h] =>
    a.isDigit && b.isDigit && c.isDigit && d.isDigit && (dash1 == '-') &&
      e.isDigit && f.isDigit && (dash2 == '-') && g.isDigit && h.isDigit
  | _ => false

/-! ## C5: locale-dependence of the output order

The sort comparator in both `groupEntries` and `mergeNormalizedEntries` is
`a.localeCompare(b)` with no explicit locale, so the order of the output
depends on the runtime's default locale.  Two concrete collations, both
realistic `localeCompare` behaviours, witness the difference: in an
English-style collation `"ä"` sorts with `"a"`, before `"z"`; in a
Swedish-style collation `"ä"` sorts after `"z"`. -/

/-- English-style collation key: `ä` collates like `a`. -/
def enKey (c : Char) : Char := if c = 'ä' then 'a' else c

/-- Swedish-style collation key: `ä` collates after `z` (mapped to a
code point above `z`). -/
def svKey (c : Char) : Char := if c = 'ä' then '\x7c' else c

def cmpEn (s t : String) : Ordering :=
  cmpCode (String.mk (s.data.map enKey)) (String.mk (t.data.map enKey))

def cmpSv (s t : String) : Ordering :=
  cmpCode (String.mk (s.data.map svKey)) (String.mk (t.data.map svKey))

def sampleUmlaut : NormalizedEntry :=
  { label := "ä", inputTokens := 1, outputTokens := 0
    cacheCreationTokens := 0, cacheReadTokens := 0, totalTokens := 1
    cost := 0, models := [], modelBreakdowns := none }

def sampleZed : NormalizedEntry :=
  { label := "z", inputTokens := 2, outputTokens := 0
    cacheCreationTokens := 0, cacheReadTokens := 0, totalTokens := 2
    cost := 0, models := [], modelBreakdowns := none }

/-! ## Statistics engine (`percentile` and `computeStats`,
`src/utils/statistics.ts`)

`percentile` is the PERCENTILE.INC linear-interpolation method over a
pre-sorted ascending array.  It is stated polymorphically over a linear
ordered field with floor (instantiated at `ℚ` for executable witnesses and
at `ℝ` as the idealisation of JS doubles). -/

def percentile {α : Type} [LinearOrderedField α] [FloorRing α]
    (sorted : List α) (p : α) : α :=
  if sorted.length = 0 then 0
  else if sorted.length = 1 then sorted.headD 0
  else
    sorted.getD (⌊p * ((sorted.length : α) - 1)⌋).toNat 0 +
      (p * ((sorted.length : α) - 1) - (⌊p * ((sorted.length : α) - 1)⌋ : α)) *
        (sorted.getD (⌈p * ((sorted.length : α) - 1)⌉).toNat 0 -
          sorted.getD (⌊p * ((sorted.length : α) - 1)⌋).toNat 0)

/-! ## `computeStats`

`DescriptiveStats` mirrors the TS interface; the two fields that the code can
set to `NaN` are modelled as `Option` (with `none` for NaN).  `Math.sqrt` is
abstracted as a parameter `sqrt` (instantiated with `Real.sqrt` below); the
statements only ever need `sqrt 0 = 0`.  The locals of the source function
(`sorted`, `sum`, `mean`, `sumSqDiff`, `variance`, …) are named top-level
definitions so that field projections stay readable. -/

structure DescriptiveStats (α : Type) where
  count : Nat
  min : α
  max : α
  sum : α
  mean : α
  median : α
  standardDeviation : α
  coefficientOfVariation : Option α
  skewness : Option α
  p25 : α
  p75 : α
  p90 : α
  p95 : α
  p99 : α
  iqr : α
deriving Repr, DecidableEq

-- (definitions of the statistics section)

section Stats

variable {α : Type} [LinearOrderedField α] [FloorRing α] [DecidableEq α]
variable [DecidableRel ((· ≤ ·) : α → α → Prop)]

/-- `values.toSorted((a, b) => a - b)`: a stable ascending numeric sort. -/
def jsSorted (values : List α) : List α :=
  values.insertionSort (· ≤ ·)

/-- `sorted.reduce((s, v) => s + v, 0)`. -/
def statSum (values : List α) : α :=
  (jsSorted values).foldl (· + ·) 0

/-- The local `mean = sum / n`. -/
def statMean (values : List α) : α :=
  statSum values / values.length

/-- The local `sumSqDiff` accumulation loop. -/
def statSumSq (values : List α) : α :=
  (jsSorted values).foldl
    (fun s v => s + (v - statMean values) * (v - statMean values)) 0

/-- The local `variance = n > 1 ? sumSqDiff / (n - 1) : 0`. -/
def statVariance (values : List α) : α :=
  if 1 < values.length then statSumSq values / ((values.length : α) - 1) else 0

/-- The local `standardDeviation = Math.sqrt(variance)`. -/
def statSD (sqrt : α → α) (values : List α) : α :=
  sqrt (statVariance values)

/-- The local `sumCubeDiff` loop and the skewness formula
`(n / ((n-1)(n-2))) * sumCubeDiff`. -/
def statSkew (sqrt : α → α) (values : List α) : α :=
  ((values.length : α) /
      (((values.length : α) - 1) * ((values.length : α) - 2))) *
    (jsSorted values).foldl
      (fun s v =>
        s + ((v - statMean values) / statSD sqrt values) *
            ((v - statMean values) / statSD sqrt values) *
            ((v - statMean values) / statSD sqrt values)) 0

/-- `computeStats` from `src/utils/statistics.ts`, with `Math.sqrt`
abstracted as `sqrt`. -/
def computeStatsWith (sqrt : α → α) (values : List α) : DescriptiveStats α :=
  if values.length = 0 then
    { count := 0, min := 0, max := 0, sum := 0, mean := 0, median := 0
      standardDeviation := 0, coefficientOfVariation := none, skewness := none
      p25 := 0, p75 := 0, p90 := 0, p95 := 0, p99 := 0, iqr := 0 }
  else
    { count := values.length
      min := (jsSorted values).headD 0
      max := (jsSorted values).getD (values.length - 1) 0
      sum := statSum values
      mean := statMean values
      median := percentile (jsSorted values) (1/2)
      standardDeviation := statSD sqrt values
      coefficientOfVariation :=
        if statMean values ≠ 0 then
          some (statSD sqrt values / statMean values)
        else none
      skewness :=
        if values.length < 3 ∨ statSD sqrt values = 0 then none
        else some (statSkew sqrt values)
      p25 := percentile (jsSorted values) (1/4)
      p75 := percentile (jsSorted values) (3/4)
      p90 := percentile (jsSorted values) (9/10)
      p95 := percentile (jsSorted values) (19/20)
      p99 := percentile (jsSorted values) (99/100)
      iqr := percentile (jsSorted values) (3/4) -
        percentile (jsSorted values) (1/4) }

/-- The spec-side mean formula. -/
def listMean (values : List α) : α :=
  values.sum / values.length

end Stats

/-- The source's `computeStats`: the runtime's `Math.sqrt` is the real
square root. -/
noncomputable def computeStats (values : List ℝ) : DescriptiveStats ℝ :=
  computeStatsWith Real.sqrt values

/-- A concrete square-root stand-in over `ℚ` for executable witnesses; only
`wSqrt 0 = 0` matters for the claims. -/
def wSqrt (q : ℚ) : ℚ :=
  if q = 0 then 0 else 1

/-! ## Pricing engine (`src/utils/pricing.ts`) -/

/-- Per-million-token prices (USD). -/
structure TokenPricing where
  input : ℚ
  output : ℚ
  cacheWrite : ℚ
  cacheRead : ℚ
deriving Repr, DecidableEq

/-- The static family→price table `PRICING_MAP` (insertion order kept). -/
def PRICING_MAP : List (String × TokenPricing) :=
  [("opus-4-6", ⟨5, 25, 25/4, 1/2⟩),
   ("opus-4-5", ⟨5, 25, 25/4, 1/2⟩),
   ("opus-4-1", ⟨15, 75, 75/4, 3/2⟩),
   ("opus-4", ⟨15, 75, 75/4, 3/2⟩),
   ("sonnet-4-5", ⟨3, 15, 15/4, 3/10⟩),
   ("sonnet-4", ⟨3, 15, 15/4, 3/10⟩),
   ("sonnet-3-7", ⟨3, 15, 15/4, 3/10⟩),
   ("3-7-sonnet", ⟨3, 15, 15/4, 3/10⟩),
   ("sonnet-3-5", ⟨3, 15, 15/4, 3/10⟩),
   ("3-5-sonnet", ⟨3, 15, 15/4, 3/10⟩),
   ("haiku-4-5", ⟨1, 5, 5/4, 1/10⟩),
   ("haiku-3-5", ⟨4/5, 4, 1, 2/25⟩),
   ("3-5-haiku", ⟨4/5, 4, 1, 2/25⟩),
   ("opus-3", ⟨15, 75, 75/4, 3/2⟩),
   ("3-opus", ⟨15, 75, 75/4, 3/2⟩),
   ("sonnet-3", ⟨3, 15, 15/4, 3/10⟩),
   ("3-sonnet", ⟨3, 15, 15/4, 3/10⟩),
   ("haiku-3", ⟨1/4, 5/4, 3/10, 3/100⟩),
   ("3-haiku", ⟨1/4, 5/4, 3/10, 3/100⟩)]

/-- `Map.get` over the price table. -/
def lookupPricing : List (String × TokenPricing) → String → Option TokenPricing
  | [], _ => none
  | (k, v) :: rest, key => if k = key then some v else lookupPricing rest key

/-- `extractFamilyKey`: `modelName.match(/^claude-(.+)-\d{8}$/)` keeps the
middle group, otherwise the whole name.  The anchored fixed-width suffix
makes the match conditions exact: the name starts with `claude-`, its 9th
character from the end is `-`, its last 8 characters are ASCII digits, and
the (necessarily unique) middle group is nonempty and free of the four line
terminators that JS `.` does not match. -/
def extractFamilyKey (modelName : String) : String :=
  let cs := modelName.data
  let n := cs.length
  if 17 ≤ n ∧ cs.take 7 = "claude-".data ∧
      cs.getD (n - 9) ' ' = '-' ∧
      (cs.drop (n - 8)).all Char.isDigit ∧
      ((cs.drop 7).take (n - 16)).all
        (fun c => c ≠ '\n' ∧ c ≠ '\r' ∧ c ≠ ' ' ∧ c ≠ ' ')
  then String.mk ((cs.drop 7).take (n - 16))
  else modelName

def getTokenPricing (modelName : String) : Option TokenPricing :=
  lookupPricing PRICING_MAP (extractFamilyKey modelName)

structure CostByTokenType where
  inputCost : ℚ
  outputCost : ℚ
  cacheWriteCost : ℚ
  cacheReadCost : ℚ
deriving Repr, DecidableEq

/-- One iteration of the breakdown loop of `calculateCostByTokenType`:
an unpriced model is skipped, a priced one adds
`tokens × price / 1_000_000` per category and sets `hasAnyPricing`. -/
def breakdownStep (a : CostByTokenType × Bool) (mb : ModelBreakdown) :
    CostByTokenType × Bool :=
  match getTokenPricing mb.modelName with
  | none => a
  | some pricing =>
    ({ inputCost := a.1.inputCost + mb.inputTokens * pricing.input / 1000000
       outputCost := a.1.outputCost + mb.outputTokens * pricing.output / 1000000
       cacheWriteCost :=
         a.1.cacheWriteCost + mb.cacheCreationTokens * pricing.cacheWrite / 1000000
       cacheReadCost :=
         a.1.cacheReadCost + mb.cacheReadTokens * pricing.cacheRead / 1000000 },
     true)

/-- The breakdown branch: `null` iff no breakdown had known pricing. -/
def breakdownCost (bds : List ModelBreakdown) : Option CostByTokenType :=
  let acc := bds.foldl breakdownStep (⟨0, 0, 0, 0⟩, false)
  if acc.2 then some acc.1 else none

/-- The no-breakdowns branch: priced only when the entry lists exactly one
model with known pricing. -/
def costFromModels (entry : NormalizedEntry) : Option CostByTokenType :=
  match entry.models with
  | [m] =>
    (getTokenPricing m).map fun pricing =>
      { inputCost := entry.inputTokens * pricing.input / 1000000
        outputCost := entry.outputTokens * pricing.output / 1000000
        cacheWriteCost := entry.cacheCreationTokens * pricing.cacheWrite / 1000000
        cacheReadCost := entry.cacheReadTokens * pricing.cacheRead / 1000000 }
  | _ => none

/-- `calculateCostByTokenType` from `src/utils/pricing.ts`: the breakdown
branch runs only when `modelBreakdowns` is present *and nonempty*. -/
def calculateCostByTokenType (entry : NormalizedEntry) :
    Option CostByTokenType :=
  match entry.modelBreakdowns with
  | some bds => if 0 < bds.length then breakdownCost bds else costFromModels entry
  | none => costFromModels entry

/-- The per-category contribution of one breakdown record (0 when its model
has no known pricing). -/
def mbContribution (sel : TokenPricing → ℚ) (tok : ModelBreakdown → ℚ)
    (mb : ModelBreakdown) : ℚ :=
  match getTokenPricing mb.modelName with
  | none => 0
  | some pricing => tok mb * sel pricing / 1000000

def sampleMB : ModelBreakdown :=
  { modelName := "claude-opus-4-20250514", inputTokens := 1000000
    outputTokens := 0, cacheCreationTokens := 0, cacheReadTokens := 0
    cost := 15 }

def samplePricedEntry : NormalizedEntry :=
  { label := "2025-07-01", inputTokens := 1000000, outputTokens := 0
    cacheCreationTokens := 0, cacheReadTokens := 0, totalTokens := 1000000
    cost := 15, models := ["claude-opus-4-20250514"]
    modelBreakdowns := some [sampleMB] }

/-! ## Typed reports and the Normalizer (`src/types.ts`,
`src/utils/normalize.ts`) -/

/-- `Totals` from `src/types.ts`. -/
structure Totals where
  inputTokens : ℚ
  outputTokens : ℚ
  cacheCreationTokens : ℚ
  cacheReadTokens : ℚ
  totalTokens : ℚ
  totalCost : ℚ
deriving Repr, DecidableEq

/-- `TimeEntry` from `src/types.ts` (daily/weekly/monthly records). -/
structure TimeEntry where
  date : Option String := none
  week : Option String := none
  month : Option String := none
  inputTokens : ℚ
  outputTokens : ℚ
  cacheCreationTokens : ℚ
  cacheReadTokens : ℚ
  totalTokens : ℚ
  totalCost : ℚ
  modelsUsed : List String
  modelBreakdowns : List ModelBreakdown
deriving Repr, DecidableEq

/-- `SessionEntry` from `src/types.ts`. -/
structure SessionEntry where
  sessionId : String
  inputTokens : ℚ
  outputTokens : ℚ
  cacheCreationTokens : ℚ
  cacheReadTokens : ℚ
  totalTokens : ℚ
  totalCost : ℚ
  lastActivity : String
  modelsUsed : List String
  modelBreakdowns : List ModelBreakdown
  projectPath : String
deriving Repr, DecidableEq

/-- `BlockTokenCounts` from `src/types.ts` (note the different field names). -/
structure BlockTokenCounts where
  inputTokens : ℚ
  outputTokens : ℚ
  cacheCreationInputTokens : ℚ
  cacheReadInputTokens : ℚ
deriving Repr, DecidableEq

/-- `BlockEntry` from `src/types.ts`. -/
structure BlockEntry where
  id : String
  startTime : String
  endTime : String
  actualEndTime : Option String
  isActive : Bool
  isGap : Bool
  entries : ℚ
  tokenCounts : BlockTokenCounts
  totalTokens : ℚ
  costUSD : ℚ
  models : List String
  burnRate : Option ℚ
  projection : Option ℚ
deriving Repr, DecidableEq

/-- `ReportData`: the tagged union of the five report kinds.  The blocks
report's `totals` is `Record<string, unknown>` in TS; it is modelled as an
opaque key/value list, which the code never reads. -/
inductive ReportData where
  | daily (daily : List TimeEntry) (totals : Totals)
  | weekly (weekly : List TimeEntry) (totals : Totals)
  | monthly (monthly : List TimeEntry) (totals : Totals)
  | session (sessions : List SessionEntry) (totals : Totals)
  | blocks (blocks : List BlockEntry) (totals : List (String × String))
deriving Repr, DecidableEq

/-- The environment-dependent builtins used by `normalizeEntries`:
`new Date(s).getTime()` for the session sort and the `toLocaleString`
"Mon D, HH:MM" formatting of block start times. -/
structure NormEnv where
  dateVal : String → ℚ
  fmtBlock : String → String

/-- JS `s.slice(-n)`: the last `n` characters. -/
def strTakeRight (s : String) (n : Nat) : String :=
  ⟨s.data.drop (s.data.length - n)⟩

/-- The session label: project path when present and not the sentinel
`"Unknown Project"`, else the last 20 characters of the session id. -/
def sessionLabel (e : SessionEntry) : String :=
  let project := if e.projectPath ≠ "Unknown Project" then e.projectPath else ""
  if project ≠ "" then project else strTakeRight e.sessionId 20

def timeEntryToNormalized (label : Option String) (e : TimeEntry) :
    NormalizedEntry :=
  { label := label.getD ""
    inputTokens := e.inputTokens
    outputTokens := e.outputTokens
    cacheCreationTokens := e.cacheCreationTokens
    cacheReadTokens := e.cacheReadTokens
    totalTokens := e.totalTokens
    cost := e.totalCost
    models := e.modelsUsed
    modelBreakdowns := some e.modelBreakdowns }

def sessionToNormalized (e : SessionEntry) : NormalizedEntry :=
  { label := sessionLabel e
    inputTokens := e.inputTokens
    outputTokens := e.outputTokens
    cacheCreationTokens := e.cacheCreationTokens
    cacheReadTokens := e.cacheReadTokens
    totalTokens := e.totalTokens
    cost := e.totalCost
    models := e.modelsUsed
    modelBreakdowns := some e.modelBreakdowns }

def blockToNormalized (env : NormEnv) (e : BlockEntry) : NormalizedEntry :=
  { label := env.fmtBlock e.startTime
    inputTokens := e.tokenCounts.inputTokens
    outputTokens := e.tokenCounts.outputTokens
    cacheCreationTokens := e.tokenCounts.cacheCreationInputTokens
    cacheReadTokens := e.tokenCounts.cacheReadInputTokens
    totalTokens := e.totalTokens
    cost := e.costUSD
    models := e.models
    modelBreakdowns := none }

/-- `normalizeEntries` from `src/utils/normalize.ts`: the exhaustive match
over the five report kinds.  Sessions are stably sorted ascending by
last-activity time; gap blocks are dropped; blocks get no breakdowns. -/
def normalizeEntries (env : NormEnv) : ReportData → List NormalizedEntry
  | ReportData.daily d _ => d.map fun e => timeEntryToNormalized e.date e
  | ReportData.weekly w _ => w.map fun e => timeEntryToNormalized e.week e
  | ReportData.monthly m _ => m.map fun e => timeEntryToNormalized e.month e
  | ReportData.session ss _ =>
    (ss.insertionSort
      (fun a b => env.dateVal a.lastActivity ≤ env.dateVal b.lastActivity)).map
      sessionToNormalized
  | ReportData.blocks bs _ =>
    (bs.filter (fun e => !e.isGap)).map (blockToNormalized env)

/-- `normalizeTotals` from `src/utils/normalize.ts`: every kind except
blocks copies the report's own totals; blocks recompute from the non-gap
entries (`entries.reduce((s, e) => s + …, 0)` per field). -/
def normalizeTotals : ReportData → NormalizedTotals
  | ReportData.daily _ t | ReportData.weekly _ t | ReportData.monthly _ t
  | ReportData.session _ t =>
    { inputTokens := t.inputTokens
      outputTokens := t.outputTokens
      cacheCreationTokens := t.cacheCreationTokens
      cacheReadTokens := t.cacheReadTokens
      totalTokens := t.totalTokens
      totalCost := t.totalCost }
  | ReportData.blocks bs _ =>
    let entries := bs.filter (fun e => !e.isGap)
    { inputTokens :=
        entries.foldl (fun s e => s + e.tokenCounts.inputTokens) 0
      outputTokens :=
        entries.foldl (fun s e => s + e.tokenCounts.outputTokens) 0
      cacheCreationTokens :=
        entries.foldl (fun s e => s + e.tokenCounts.cacheCreationInputTokens) 0
      cacheReadTokens :=
        entries.foldl (fun s e => s + e.tokenCounts.cacheReadInputTokens) 0
      totalTokens := entries.foldl (fun s e => s + e.totalTokens) 0
      totalCost := entries.foldl (fun s e => s + e.costUSD) 0 }

/-- A concrete environment for witnesses: dates all at time 0, block labels
the raw start-time string. -/
def sampleEnv : NormEnv :=
  { dateVal := fun _ => 0, fmtBlock := fun s => s }

def sampleBlock (idx : String) (gap : Bool) (tok : ℚ) : BlockEntry :=
  { id := idx, startTime := idx, endTime := idx, actualEndTime := none
    isActive := false, isGap := gap, entries := 1
    tokenCounts :=
      { inputTokens := tok, outputTokens := 0
        cacheCreationInputTokens := 0, cacheReadInputTokens := 0 }
    totalTokens := tok, costUSD := 0, models := [], burnRate := none
    projection := none }

/-! ## Heap model for the frame/immutability claim

The only in-place writes anywhere in the Aggregator/Merger are the
`existing[k] += mb[k]` updates inside `mergeBreakdowns` — performed on
records that were first spread-copied (`{ ...mb }`) into the bucket's own
map.  To state "the inputs are never mutated" meaningfully, the
`ModelBreakdown` records are given identities: they live in a heap (a list
indexed by natural numbers), entries hold references, `{ ...mb }` allocates
a fresh cell at the end of the heap, and `existing[k] += …` is a `List.set`
on the bucket-owned cell.  The frame theorems say every pre-existing heap
cell — in particular every record reachable from the input entries — is
unchanged after the call. -/

instance : Inhabited ModelBreakdown :=
  ⟨⟨"", 0, 0, 0, 0, 0⟩⟩

/-- A `NormalizedEntry` whose breakdown records are heap references. -/
structure HEntry where
  label : String
  models : List String
  modelBreakdowns : Option (List Nat)
deriving Repr, DecidableEq

/-- Read a heap cell (JS object dereference). -/
def hGet (h : List ModelBreakdown) (r : Nat) : ModelBreakdown :=
  h.getD r default

def lookupIdx : List (String × Nat) → String → Option Nat
  | [], _ => none
  | (k, v) :: rest, key => if k = key then some v else lookupIdx rest key

/-- One iteration of `mergeBreakdowns` on the heap: an existing same-named
record (bucket-owned) is updated in place; otherwise a spread-copy is
allocated at the end of the heap and its index recorded in the bucket map. -/
def hMergeStep (st : List ModelBreakdown × List (String × Nat)) (r : Nat) :
    List ModelBreakdown × List (String × Nat) :=
  match lookupIdx st.2 (hGet st.1 r).modelName with
  | some e => (st.1.set e (mbAccum (hGet st.1 e) (hGet st.1 r)), st.2)
  | none =>
    (st.1 ++ [hGet st.1 r], st.2 ++ [((hGet st.1 r).modelName, st.1.length)])

/-- `mergeBreakdowns` on the heap (`undefined` breakdowns are a no-op). -/
def hMergeBreakdowns (h : List ModelBreakdown) (mm : List (String × Nat))
    (refs : Option (List Nat)) : List ModelBreakdown × List (String × Nat) :=
  match refs with
  | none => (h, mm)
  | some rs => rs.foldl hMergeStep (h, mm)

def lookupMM : List (String × List (String × Nat)) → String →
    Option (List (String × Nat))
  | [], _ => none
  | (k, v) :: rest, key => if k = key then some v else lookupMM rest key

def setMM : List (String × List (String × Nat)) → String →
    List (String × Nat) → List (String × List (String × Nat))
  | [], k, v => [(k, v)]
  | (k', v') :: rest, k, v =>
    if k' = k then (k', v) :: rest else (k', v') :: setMM rest k v

/-- The heap-relevant part of one `groupEntries` iteration: the entry's
breakdown references are merged into its group's bucket map (a fresh bucket
map is empty). -/
def hGroupStep (keyFn : HEntry → Option String)
    (st : List ModelBreakdown × List (String × List (String × Nat)))
    (e : HEntry) :
    List ModelBreakdown × List (String × List (String × Nat)) :=
  match keyFn e with
  | none => st
  | some k =>
    let mm := (lookupMM st.2 k).getD []
    let r := hMergeBreakdowns st.1 mm e.modelBreakdowns
    (r.1, setMM st.2 k r.2)

/-- `groupEntries` on the heap (the sorted materialisation allocates only
fresh entries and performs no heap writes, so the fold is the whole story
for the heap). -/
def hGroupEntries (keyFn : HEntry → Option String)
    (h : List ModelBreakdown) (es : List HEntry) :
    List ModelBreakdown × List (String × List (String × Nat)) :=
  es.foldl (hGroupStep keyFn) (h, [])

/-- `mergeNormalizedEntries` on the heap: the 0- and 1-array cases return
without touching the heap; otherwise the inline accumulation keyed by label
runs over the flattened arrays. -/
def hMergeNormalizedEntries (h : List ModelBreakdown) :
    List (List HEntry) →
      List ModelBreakdown × List (String × List (String × Nat))
  | [] => (h, [])
  | [_] => (h, [])
  | arrays => hGroupEntries (fun e => some e.label) h arrays.flatten

/-- `aggregateModelBreakdowns` on the heap: one global model map. -/
def hAggregateModelBreakdowns (h : List ModelBreakdown) (es : List HEntry) :
    List ModelBreakdown × List (String × Nat) :=
  es.foldl (fun st e => hMergeBreakdowns st.1 st.2 e.modelBreakdowns) (h, [])

/-- `computeStats` on a heap of numeric arrays: `values.toSorted` is a copy,
so the heap is returned untouched. -/
def computeStatsHeap {α : Type} [LinearOrderedField α] [FloorRing α]
    [DecidableEq α] [DecidableRel ((· ≤ ·) : α → α → Prop)]
    (sqrt : α → α) (heap : List (List α)) (r : Nat) :
    List (List α) × DescriptiveStats α :=
  (heap, computeStatsWith sqrt (heap.getD r []))

/-- Invariant of the breakdown-merge state: the bucket map only references
cells at or above the watermark `n`, and the heap is at least that long. -/
def MMFresh (n : Nat) (mm : List (String × Nat)) : Prop :=
  ∀ p ∈ mm, n ≤ p.2

/-- Invariant for the whole bucket map of `hGroupEntries`. -/
def MFresh (n : Nat) (m : List (String × List (String × Nat))) : Prop :=
  ∀ p ∈ m, MMFresh n p.2

/-! ## A JSON model (for the Codec and the input pipeline)

`JSON.parse` / `JSON.stringify` are modelled syntactically.  JSON numbers
are kept as (normalised) numerals rather than IEEE doubles: the integer
part is a `Nat` (the grammar forbids leading zeros), the fraction keeps its
digits verbatim (type-level nonempty), and the exponent keeps its sign and
value.  Strings are scalar-value character lists (JS lone surrogates are
rejected by the model parser).  Objects are insertion-ordered key/value
lists; a duplicate key overwrites the value in place, keeping the first
position — exactly `JSON.parse`'s behaviour. -/

/-- A JSON numeral. -/
structure JNum where
  neg : Bool
  ip : Nat
  frac : Option (Fin 10 × List (Fin 10))
  exp : Option (Bool × Nat)
deriving Repr, DecidableEq

inductive Json where
  | null
  | bool (b : Bool)
  | num (m : JNum)
  | str (s : List Char)
  | arr (xs : List Json)
  | obj (kvs : List (List Char × Json))

/-- JSON interchange whitespace. -/
def jsonWS (c : Char) : Bool :=
  c == ' ' || c == '\t' || c == '\n' || c == '\r'

def skipWS (cs : List Char) : List Char :=
  cs.dropWhile jsonWS

def digitChar (d : Fin 10) : Char :=
  Char.ofNat (48 + d.val)

def dfin (c : Char) : Fin 10 :=
  ⟨(c.toNat - 48) % 10, Nat.mod_lt _ (by omega)⟩

def digitsVal (ds : List Char) : Nat :=
  ds.foldl (fun a c => a * 10 + (c.toNat - 48)) 0

def natToDigitsAux : Nat → Nat → List Char
  | 0, _ => []
  | fuel + 1, n =>
    if n < 10 then [Char.ofNat (48 + n)]
    else Char.ofNat (48 + n % 10) :: natToDigitsAux fuel (n / 10)

/-- Decimal digits of `n`, least significant first (`n + 1` is always
enough fuel since the argument at least halves each step). -/
def natToDigitsRev (n : Nat) : List Char :=
  natToDigitsAux (n + 1) n

def natToDigits (n : Nat) : List Char :=
  (natToDigitsRev n).reverse

/-- Lowercase hex digit. -/
def hexDigit (n : Nat) : Char :=
  if n < 10 then Char.ofNat (48 + n) else Char.ofNat (87 + n)

def hexVal (c : Char) : Option Nat :=
  if 48 ≤ c.toNat ∧ c.toNat ≤ 57 then some (c.toNat - 48)
  else if 97 ≤ c.toNat ∧ c.toNat ≤ 102 then some (c.toNat - 87)
  else if 65 ≤ c.toNat ∧ c.toNat ≤ 70 then some (c.toNat - 55)
  else none

/-- `JSON.stringify`'s escaping of one string character. -/
def escChar (c : Char) : List Char :=
  if c = '"' then ['\\', '"']
  else if c = '\\' then ['\\', '\\']
  else if c = '\x08' then ['\\', 'b']
  else if c = '\x0c' then ['\\', 'f']
  else if c = '\n' then ['\\', 'n']
  else if c = '\r' then ['\\', 'r']
  else if c = '\t' then ['\\', 't']
  else if c.toNat < 32 then
    ['\\', 'u', '0', '0', hexDigit (c.toNat / 16), hexDigit (c.toNat % 16)]
  else [c]

def escString (s : List Char) : List Char :=
  (s.map escChar).flatten

def printNum (m : JNum) : List Char :=
  (if m.neg then ['-'] else []) ++ natToDigits m.ip ++
    (match m.frac with
      | none => []
      | some (f, fs) => '.' :: (f :: fs).map digitChar) ++
    (match m.exp with
      | none => []
      | some (b, n) => 'e' :: ((if b then ['-'] else []) ++ natToDigits n))

mutual

/-- Minified `JSON.stringify`. -/
def printJson : Json → List Char
  | Json.null => ['n', 'u', 'l', 'l']
  | Json.bool true => ['t', 'r', 'u', 'e']
  | Json.bool false => ['f', 'a', 'l', 's', 'e']
  | Json.num m => printNum m
  | Json.str s => '"' :: (escString s ++ ['"'])
  | Json.arr xs => '[' :: (printItems xs ++ [']'])
  | Json.obj kvs => '\x7b' :: (printMembers kvs ++ ['\x7d'])

def printItems : List Json → List Char
  | [] => []
  | [x] => printJson x
  | x :: y :: xs => printJson x ++ ',' :: printItems (y :: xs)

def printMembers : List (List Char × Json) → List Char
  | [] => []
  | [(k, v)] => '"' :: (escString k ++ '"' :: ':' :: printJson v)
  | (k, v) :: p :: rest =>
    ('"' :: (escString k ++ '"' :: ':' :: printJson v)) ++
      ',' :: printMembers (p :: rest)

end

/-- Object insertion with `JSON.parse`'s duplicate-key semantics: a repeated
key overwrites the value in place (first position kept). -/
def objInsert (kvs : List (List Char × Json)) (k : List Char) (v : Json) :
    List (List Char × Json) :=
  match kvs with
  | [] => [(k, v)]
  | (k', v') :: rest =>
    if k' = k then (k', v) :: rest else (k', v') :: objInsert rest k v

/-- Sign handling of a JSON numeral. -/
def splitSign (cs : List Char) : Bool × List Char :=
  match cs with
  | [] => (false, [])
  | c :: r => if c = '-' then (true, r) else (false, cs)

/-- Exponent sign handling (`+`, `-`, or none). -/
def splitExpSign (cs : List Char) : Bool × List Char :=
  match cs with
  | [] => (false, [])
  | c :: r =>
    if c = '+' then (false, r)
    else if c = '-' then (true, r)
    else (false, cs)

/-- Optional-exponent tail of a numeral. -/
def parseNumTail (neg : Bool) (ip : Nat)
    (frac : Option (Fin 10 × List (Fin 10))) (cs : List Char) :
    Option (JNum × List Char) :=
  match cs with
  | [] => some (⟨neg, ip, frac, none⟩, [])
  | c :: cs1 =>
    if c = 'e' ∨ c = 'E' then
      match (splitExpSign cs1).2.takeWhile Char.isDigit with
      | [] => none
      | _ :: _ =>
        some (⟨neg, ip, frac,
          some ((splitExpSign cs1).1,
            digitsVal ((splitExpSign cs1).2.takeWhile Char.isDigit))⟩,
          (splitExpSign cs1).2.dropWhile Char.isDigit)
    else some (⟨neg, ip, frac, none⟩, cs)

/-- Numeral parsing (no recursion): sign, integer part without leading
zeros, optional nonempty fraction, optional exponent. -/
def parseNumber (cs : List Char) : Option (JNum × List Char) :=
  match (splitSign cs).2.takeWhile Char.isDigit with
  | [] => none
  | d0 :: drest =>
    if d0 = '0' ∧ drest ≠ [] then none
    else
      match (splitSign cs).2.dropWhile Char.isDigit with
      | '.' :: cs3 =>
        match cs3.takeWhile Char.isDigit with
        | [] => none
        | f0 :: frest =>
          parseNumTail (splitSign cs).1 (digitsVal (d0 :: drest))
            (some (dfin f0, frest.map dfin)) (cs3.dropWhile Char.isDigit)
      | cs2 => parseNumTail (splitSign cs).1 (digitsVal (d0 :: drest)) none cs2

mutual

/-- String-body parsing after the opening quote; raw control characters
are rejected. -/
def parseStringBody : Nat → List Char → Option (List Char × List Char)
  | 0, _ => none
  | _ + 1, [] => none
  | fuel + 1, c :: cs =>
    if c = '"' then some ([], cs)
    else if c = '\\' then parseEsc fuel cs
    else if c.toNat < 32 then none
    else (parseStringBody fuel cs).map (fun p => (c :: p.1, p.2))

/-- One escape sequence: JS named escapes and `\uXXXX` (surrogate pairs
combined; lone surrogates rejected by the model). -/
def parseEsc : Nat → List Char → Option (List Char × List Char)
  | 0, _ => none
  | _ + 1, [] => none
  | fuel + 1, e :: r =>
    if e = '"' then (parseStringBody fuel r).map (fun p => ('"' :: p.1, p.2))
    else if e = '\\' then
      (parseStringBody fuel r).map (fun p => ('\\' :: p.1, p.2))
    else if e = '/' then (parseStringBody fuel r).map (fun p => ('/' :: p.1, p.2))
    else if e = 'b' then
      (parseStringBody fuel r).map (fun p => ('\x08' :: p.1, p.2))
    else if e = 'f' then
      (parseStringBody fuel r).map (fun p => ('\x0c' :: p.1, p.2))
    else if e = 'n' then
      (parseStringBody fuel r).map (fun p => ('\n' :: p.1, p.2))
    else if e = 'r' then
      (parseStringBody fuel r).map (fun p => ('\r' :: p.1, p.2))
    else if e = 't' then
      (parseStringBody fuel r).map (fun p => ('\t' :: p.1, p.2))
    else if e = 'u' then
      match r with
      | a :: b :: c :: d :: r1 =>
        match hexVal a, hexVal b, hexVal c, hexVal d with
        | some ha, some hb, some hc, some hd =>
          let val := ((ha * 16 + hb) * 16 + hc) * 16 + hd
          if 0xd800 ≤ val ∧ val ≤ 0xdbff then
            match r1 with
            | s1 :: u1 :: a2 :: b2 :: c2 :: d2 :: r2 =>
              if s1 = '\\' ∧ u1 = 'u' then
                match hexVal a2, hexVal b2, hexVal c2, hexVal d2 with
                | some ga, some gb, some gc, some gd =>
                  let lo := ((ga * 16 + gb) * 16 + gc) * 16 + gd
                  if 0xdc00 ≤ lo ∧ lo ≤ 0xdfff then
                    (parseStringBody fuel r2).map (fun p =>
                      (Char.ofNat (0x10000 + (val - 0xd800) * 0x400 +
                        (lo - 0xdc00)) :: p.1, p.2))
                  else none
                | _, _, _, _ => none
              else none
            | _ => none
          else if 0xdc00 ≤ val ∧ val ≤ 0xdfff then none
          else
            (parseStringBody fuel r1).map (fun p =>
              (Char.ofNat val :: p.1, p.2))
        | _, _, _, _ => none
      | _ => none
    else none

end

mutual

def parseValue : Nat → List Char → Option (Json × List Char)
  | 0, _ => none
  | _ + 1, [] => none
  | fuel + 1, c :: rest =>
    if c = 'n' then
      match rest with
      | 'u' :: 'l' :: 'l' :: r => some (Json.null, r)
      | _ => none
    else if c = 't' then
      match rest with
      | 'r' :: 'u' :: 'e' :: r => some (Json.bool true, r)
      | _ => none
    else if c = 'f' then
      match rest with
      | 'a' :: 'l' :: 's' :: 'e' :: r => some (Json.bool false, r)
      | _ => none
    else if c = '"' then
      (parseStringBody fuel rest).map (fun p => (Json.str p.1, p.2))
    else if c = '[' then parseArrBody fuel (skipWS rest)
    else if c = '\x7b' then parseObjBody fuel (skipWS rest)
    else (parseNumber (c :: rest)).map (fun p => (Json.num p.1, p.2))

def parseArrBody : Nat → List Char → Option (Json × List Char)
  | 0, _ => none
  | _ + 1, [] => none
  | fuel + 1, c :: r =>
    if c = ']' then some (Json.arr [], r)
    else parseItems fuel (c :: r) []

def parseObjBody : Nat → List Char → Option (Json × List Char)
  | 0, _ => none
  | _ + 1, [] => none
  | fuel + 1, c :: r =>
    if c = '\x7d' then some (Json.obj [], r)
    else parseMembers fuel (c :: r) []

def parseItems : Nat → List Char → List Json → Option (Json × List Char)
  | 0, _, _ => none
  | fuel + 1, cs, acc =>
    match parseValue fuel cs with
    | none => none
    | some (v, rest) =>
      match skipWS rest with
      | ',' :: rest2 => parseItems fuel (skipWS rest2) (acc ++ [v])
      | ']' :: rest2 => some (Json.arr (acc ++ [v]), rest2)
      | _ => none

def parseMembers : Nat → List Char → List (List Char × Json) →
    Option (Json × List Char)
  | 0, _, _ => none
  | fuel + 1, cs, acc =>
    match cs with
    | '"' :: cs1 =>
      match parseStringBody fuel cs1 with
      | none => none
      | some (k, rest1) =>
        match skipWS rest1 with
        | ':' :: rest2 =>
          match parseValue fuel (skipWS rest2) with
          | none => none
          | some (v, rest3) =>
            match skipWS rest3 with
            | ',' :: rest4 => parseMembers fuel (skipWS rest4) (objInsert acc k v)
            | '\x7d' :: rest4 => some (Json.obj (objInsert acc k v), rest4)
            | _ => none
        | _ => none
    | _ => none

end

/-- `JSON.parse`: parse one value surrounded by whitespace, demand end of
input.  The fuel `2·length + 4` is an upper bound on the recursion depth of
any parse of the input (each nested level and each element consumes at
least one character and costs at most two fuel). -/
def jsonParse (s : String) : Option Json :=
  match parseValue (2 * s.data.length + 4) (skipWS s.data) with
  | some (v, rest) => if skipWS rest = [] then some v else none
  | none => none

/-- Minified `JSON.stringify` at the string level. -/
def jsonStringify (v : Json) : String :=
  ⟨printJson v⟩

/-- Characters that may legally follow a printed value inside a larger
printed document (or end of input). -/
def delimHead : List Char → Bool
  | [] => true
  | c :: _ => (c == ',') || (c == ']') || (c == '\x7d')

/-! ### Well-formed values and parse sizes -/

/-- No duplicate object keys. -/
def nodupKeysB : List (List Char) → Bool
  | [] => true
  | k :: ks => decide (k ∉ ks) && nodupKeysB ks

mutual

/-- A JSON value all of whose objects have pairwise distinct keys (an
invariant of everything `JSON.parse` produces). -/
def jwf : Json → Bool
  | Json.null => true
  | Json.bool _ => true
  | Json.num _ => true
  | Json.str _ => true
  | Json.arr xs => jwfList xs
  | Json.obj kvs => nodupKeysB (kvs.map Prod.fst) && jwfMembers kvs

def jwfList : List Json → Bool
  | [] => true
  | v :: vs => jwf v && jwfList vs

def jwfMembers : List (List Char × Json) → Bool
  | [] => true
  | (_, v) :: rest => jwf v && jwfMembers rest

end

mutual

/-- Fuel needed by `parseValue` to parse the printed form of a value. -/
def jsize : Json → Nat
  | Json.null => 1
  | Json.bool _ => 1
  | Json.num _ => 1
  | Json.str s => 2 * s.length + 2
  | Json.arr xs => isize xs + 2
  | Json.obj kvs => msize kvs + 2

def isize : List Json → Nat
  | [] => 0
  | v :: vs => jsize v + isize vs + 1

def msize : List (List Char × Json) → Nat
  | [] => 0
  | (k, v) :: rest => 2 * k.length + jsize v + msize rest + 2

end

/-! ## The Codec (compression.ts)

`encodePayload` / `decodePayload` / `buildHash` / `loadFromHash` sit on top
of lz-string's `compressToEncodedURIComponent` /
`decompressFromEncodedURIComponent`.  The library is external to the
repository; per the spec it is a reversible compact encoding — an injective
text→token function with a paired inverse — so it is modelled as an
abstract codec carrying exactly that contract (round-trip exactness, and a
nonempty token for a nonempty input). -/

structure LZCodec where
  comp : String → String
  decomp : String → Option String
  round : ∀ s, decomp (comp s) = some s
  comp_ne : ∀ s, s ≠ "" → comp s ≠ ""

/-- `encodePayload`: `JSON.parse`, re-serialize minified, then compress.
A JSON parse failure (an exception in the source) is `none`. -/
def encodePayload (lz : LZCodec) (jsonString : String) : Option String :=
  match jsonParse jsonString with
  | none => none
  | some parsed => some (lz.comp (jsonStringify parsed))

/-- `decodePayload`: decompress (the library returns `null` on garbage). -/
def decodePayload (lz : LZCodec) (encoded : String) : Option String :=
  lz.decomp encoded

/-- `buildHash`: `HASH_PREFIX + encodePayload(jsonString)` with
`HASH_PREFIX = "#data="`. -/
def buildHash (lz : LZCodec) (jsonString : String) : Option String :=
  match encodePayload lz jsonString with
  | none => none
  | some tok => some ⟨'#' :: 'd' :: 'a' :: 't' :: 'a' :: '=' :: tok.data⟩

/-- `loadFromHash`: require the `"#data="` marker (`hash.startsWith`), take
the remainder (`hash.slice(6)`), return `null` when it is empty, else
decompress. -/
def loadFromHash (lz : LZCodec) (hash : String) : Option String :=
  match hash.data with
  | '#' :: 'd' :: 'a' :: 't' :: 'a' :: '=' :: enc =>
    match enc with
    | [] => none
    | c :: r => decodePayload lz ⟨c :: r⟩
  | _ => none

/-- A concrete codec satisfying the lz-string contract, for evaluation:
prefix one tag character. -/
def tagCodec : LZCodec where
  comp s := ⟨'A' :: s.data⟩
  decomp s :=
    match s.data with
    | 'A' :: r => some ⟨r⟩
    | _ => none
  round s := rfl
  comp_ne s _ := by
    intro h
    have hd : 'A' :: s.data = [] := congrArg String.data h
    exact absurd hd (by simp)

def c1Sample : String := "[1, 2]"

def c1Val : Json :=
  Json.arr [Json.num ⟨false, 1, none, none⟩, Json.num ⟨false, 2, none, none⟩]

/-! ## Input parsing (App.tsx parseInputs, with adapt.ts, detect.ts,
normalize.ts and merge.ts)

`JSON.parse` is the model parser `jsonParse`; its engine-specific
`SyntaxError.message` is an environment function, as are the TypeError
message of an `in`/property access on `null`/`undefined`, the `Date`-based
`parseEnglishDate`, `getTime`, the blocks `toLocaleString` label, the
ambient `localeCompare` collation, and number↔string conversion through
the ℚ-for-double abstraction (all engine/locale-dependent builtins).

The whole function is embedded, including the dashboard-assembly stage
(`normalizeEntries` / `normalizeTotals` / `mergeNormalizedEntries` /
`computeTotalsFromEntries`) that runs OUTSIDE the try/catch blocks: a
TypeError thrown there (e.g. a missing `totals` object, a block without
`tokenCounts`, a session without `sessionId`, a `null` entry) propagates
to the caller uncaught.  The result type is therefore
`Except String (data? × error?)`: `Except.error` is an uncaught throw,
`Except.ok` a normal return.  That stage runs on the raw parsed values,
so it is embedded over a JS runtime-value domain `JsV` (adding `undefined`
and `NaN` to the parsed JSON data). -/

/-- ECMA `String.prototype.trim` whitespace. -/
def jsWhitespace (c : Char) : Bool :=
  [9, 10, 11, 12, 13, 32, 0xa0, 0x1680, 0x2000, 0x2001, 0x2002, 0x2003,
    0x2004, 0x2005, 0x2006, 0x2007, 0x2008, 0x2009, 0x200a, 0x2028, 0x2029,
    0x202f, 0x205f, 0x3000, 0xfeff].contains c.toNat

def jsTrim (s : String) : String :=
  ⟨((s.data.dropWhile jsWhitespace).reverse.dropWhile jsWhitespace).reverse⟩

/-- A JS runtime value of the dashboard-assembly stage: the data produced
by `JSON.parse` plus `undefined` (missing properties) and `NaN` (failed
numeric coercion).  Numbers are ℚ, as everywhere in this development. -/
inductive JsV where
  | undef
  | nullv
  | boolv (b : Bool)
  | numv (q : ℚ)
  | nanv
  | strv (s : List Char)
  | arrv (vs : List JsV)
  | objv (kvs : List (List Char × JsV))

/-- Engine-dependent behaviour reaching `parseInputs`. -/
structure ParseEnv where
  /-- `SyntaxError.message` of a failed `JSON.parse` of the given text. -/
  perr : String → String
  /-- `TypeError.message` of `in` / property access / a method call
  applied to a non-object receiver. -/
  tyErr : String
  /-- `parseEnglishDate` applied to the raw `entry.date` property
  (`none` = absent/undefined): `new Date` plus formatting. -/
  dateEn : Option Json → Json
  /-- The ambient-locale `String.prototype.localeCompare`. -/
  coll : List Char → List Char → Ordering
  /-- `ToNumber` of a string (`none` = NaN), through the ℚ-for-double
  abstraction. -/
  strNum : List Char → Option ℚ
  /-- `Number::toString`, through the ℚ-for-double abstraction. -/
  numStr : ℚ → List Char
  /-- `new Date(v).getTime()` (`none` = NaN). -/
  dateMs : JsV → Option ℚ
  /-- The blocks label `new Date(v).toLocaleString("en-US", ...)` (always
  a string, "Invalid Date"-style for garbage). -/
  blockLabel : JsV → List Char

structure SourceInput where
  label : String
  content : String

inductive RType where
  | daily
  | weekly
  | monthly
  | session
  | blocks
deriving Repr, DecidableEq

/-- The synthetic `type` field text attached by `detectReportType`. -/
def typeName : RType → String
  | RType.daily => "daily"
  | RType.weekly => "weekly"
  | RType.monthly => "monthly"
  | RType.session => "session"
  | RType.blocks => "blocks"

structure ParsedSource where
  report : RType × Json
  label : String

/-- First value of a key (JS property read on our object model). -/
def jLookup : List (List Char × Json) → List Char → Option Json
  | [], _ => none
  | (k, v) :: rest, key => if k = key then some v else jLookup rest key

def hasKey (kvs : List (List Char × Json)) (k : List Char) : Bool :=
  (jLookup kvs k).isSome

def isArrJ : Option Json → Bool
  | some (Json.arr _) => true
  | _ => false

/-- Property access that may throw: `null` receivers throw a TypeError,
non-object primitives yield `undefined` (`none`). -/
def jPropE (env : ParseEnv) (v : Json) (k : List Char) :
    Except String (Option Json) :=
  match v with
  | Json.null => Except.error env.tyErr
  | Json.obj kvs => Except.ok (jLookup kvs k)
  | _ => Except.ok none

/-- Property access on a receiver known not to be `null`. -/
def jPropSafe (v : Json) (k : List Char) : Option Json :=
  match v with
  | Json.obj kvs => jLookup kvs k
  | _ => none

def jnum0 : Json := Json.num ⟨false, 0, none, none⟩

/-- `x ?? 0`: `undefined` (missing) and `null` fall back to `0`. -/
def orZero : Option Json → Json
  | none => jnum0
  | some Json.null => jnum0
  | some v => v

/-- `detectReportType`: attach the synthetic type from the first matching
top-level key; arrays pass the `typeof === "object"` test but have none of
the keys. -/
def detectReportType (data : Json) : Except String (RType × Json) :=
  match data with
  | Json.obj kvs =>
    if isArrJ (jLookup kvs ("daily".data)) then
      Except.ok (RType.daily,
        Json.obj (objInsert kvs ("type".data) (Json.str ("daily".data))))
    else if isArrJ (jLookup kvs ("weekly".data)) then
      Except.ok (RType.weekly,
        Json.obj (objInsert kvs ("type".data) (Json.str ("weekly".data))))
    else if isArrJ (jLookup kvs ("monthly".data)) then
      Except.ok (RType.monthly,
        Json.obj (objInsert kvs ("type".data) (Json.str ("monthly".data))))
    else if isArrJ (jLookup kvs ("sessions".data)) then
      Except.ok (RType.session,
        Json.obj (objInsert kvs ("type".data) (Json.str ("session".data))))
    else if isArrJ (jLookup kvs ("blocks".data)) then
      Except.ok (RType.blocks,
        Json.obj (objInsert kvs ("type".data) (Json.str ("blocks".data))))
    else
      Except.error
        "Unrecognized report format. Expected one of: daily, weekly, monthly, sessions, blocks"
  | Json.arr _ =>
    Except.error
      "Unrecognized report format. Expected one of: daily, weekly, monthly, sessions, blocks"
  | _ => Except.error "Invalid JSON: expected an object"

/-- `isCodexDaily`: nonempty `daily` array whose first element has a
`costUSD` key and no `totalCost` key; the `in` operator throws on `null`
and on primitives. -/
def isCodexDaily (env : ParseEnv) (kvs : List (List Char × Json)) :
    Except String Bool :=
  match jLookup kvs ("daily".data) with
  | some (Json.arr (first :: _)) =>
    match first with
    | Json.obj fk =>
      Except.ok (hasKey fk ("costUSD".data) && !hasKey fk ("totalCost".data))
    | Json.arr _ => Except.ok false
    | _ => Except.error env.tyErr
  | _ => Except.ok false

def mapExcept {α β : Type} (f : α → Except String β) :
    List α → Except String (List β)
  | [] => Except.ok []
  | x :: rest =>
    match f x with
    | Except.error e => Except.error e
    | Except.ok y =>
      match mapExcept f rest with
      | Except.error e => Except.error e
      | Except.ok ys => Except.ok (y :: ys)

/-- One `modelBreakdowns` record of `adaptCodexEntry` (the property reads
on the per-model record may throw on a `null` record). -/
def adaptCodexModel (env : ParseEnv) (p : List Char × Json) :
    Except String Json :=
  match jPropE env p.2 ("inputTokens".data) with
  | Except.error e => Except.error e
  | Except.ok it =>
    match jPropE env p.2 ("outputTokens".data) with
    | Except.error e => Except.error e
    | Except.ok ot =>
      match jPropE env p.2 ("cachedInputTokens".data) with
      | Except.error e => Except.error e
      | Except.ok ct =>
        Except.ok (Json.obj
          [("modelName".data, Json.str p.1),
           ("inputTokens".data, orZero it),
           ("outputTokens".data, orZero ot),
           ("cacheCreationTokens".data, jnum0),
           ("cacheReadTokens".data, orZero ct),
           ("cost".data, jnum0)])

def adaptCodexEntry (env : ParseEnv) (entry : Json) : Except String Json :=
  match jPropE env entry ("models".data) with
  | Except.error e => Except.error e
  | Except.ok mprop =>
    match mapExcept (adaptCodexModel env)
      (match mprop with | some (Json.obj mk) => mk | _ => []) with
    | Except.error e => Except.error e
    | Except.ok bds =>
      Except.ok (Json.obj
        [("date".data, env.dateEn (jPropSafe entry ("date".data))),
         ("inputTokens".data, orZero (jPropSafe entry ("inputTokens".data))),
         ("outputTokens".data, orZero (jPropSafe entry ("outputTokens".data))),
         ("cacheCreationTokens".data, jnum0),
         ("cacheReadTokens".data,
           orZero (jPropSafe entry ("cachedInputTokens".data))),
         ("totalTokens".data, orZero (jPropSafe entry ("totalTokens".data))),
         ("totalCost".data, orZero (jPropSafe entry ("costUSD".data))),
         ("modelsUsed".data, Json.arr
           ((match mprop with
              | some (Json.obj mk) => mk
              | _ => ([] : List (List Char × Json))).map
             (fun (q : List Char × Json) => Json.str q.1))),
         ("modelBreakdowns".data, Json.arr bds)])

def adaptCodexTotals (tk : List (List Char × Json)) : Json :=
  Json.obj
    [("inputTokens".data, orZero (jLookup tk ("inputTokens".data))),
     ("outputTokens".data, orZero (jLookup tk ("outputTokens".data))),
     ("cacheCreationTokens".data, jnum0),
     ("cacheReadTokens".data, orZero (jLookup tk ("cachedInputTokens".data))),
     ("totalTokens".data, orZero (jLookup tk ("totalTokens".data))),
     ("totalCost".data, orZero (jLookup tk ("costUSD".data)))]

/-- `adaptReport`: codex daily reports are rewritten to the canonical
shape, everything else passes through.  A missing `totals` key still gets
inserted by the spread (its `undefined` value is approximated by `null`;
nothing downstream reads it). -/
def adaptReport (env : ParseEnv) (data : Json) : Except String Json :=
  match data with
  | Json.obj kvs =>
    match isCodexDaily env kvs with
    | Except.error e => Except.error e
    | Except.ok false => Except.ok (Json.obj kvs)
    | Except.ok true =>
      match jLookup kvs ("daily".data) with
      | some (Json.arr entries) =>
        match mapExcept (adaptCodexEntry env) entries with
        | Except.error e => Except.error e
        | Except.ok newDaily =>
          Except.ok (Json.obj (objInsert
            (objInsert kvs ("daily".data) (Json.arr newDaily))
            ("totals".data)
            (match jLookup kvs ("totals".data) with
              | some (Json.obj tk) => adaptCodexTotals tk
              | some v => v
              | none => Json.null)))
      | _ => Except.ok (Json.obj kvs)
  | v => Except.ok v

/-- `detectReportType (adaptReport item)` for one report value. -/
def parseOne (env : ParseEnv) (item : Json) : Except String (RType × Json) :=
  match adaptReport env item with
  | Except.error e => Except.error e
  | Except.ok adapted => detectReportType adapted

/-- `jq -s` style arrays are split into their items; anything else is a
single report. -/
def inputItems : Json → List Json
  | Json.arr items => items
  | v => [v]

/-- The inner loop of `parseInputs` over one input's report values. -/
def collectItems (env : ParseEnv) (label : String) :
    List Json → Except String (List ParsedSource)
  | [] => Except.ok []
  | v :: rest =>
    match parseOne env v with
    | Except.error e => Except.error e
    | Except.ok rt =>
      match collectItems env label rest with
      | Except.error e => Except.error e
      | Except.ok srcs => Except.ok (⟨rt, label⟩ :: srcs)

/-- The main loop of `parseInputs`: trim, skip blanks, `JSON.parse`,
detect every report value; the first failure aborts. -/
def collectSources (env : ParseEnv) :
    List SourceInput → Except String (List ParsedSource)
  | [] => Except.ok []
  | i :: rest =>
    if jsTrim i.content = "" then collectSources env rest
    else
      match jsonParse (jsTrim i.content) with
      | none => Except.error (env.perr (jsTrim i.content))
      | some parsed =>
        match collectItems env i.label (inputItems parsed) with
        | Except.error e => Except.error e
        | Except.ok srcs =>
          match collectSources env rest with
          | Except.error e => Except.error e
          | Except.ok more => Except.ok (srcs ++ more)

/-- Insertion-ordered deduplication (`new Set`, iterated by
`Array.from`). -/
def dedupFirstSeen (l : List RType) : List RType :=
  l.foldl (fun acc t => if t ∈ acc then acc else acc ++ [t]) []

/-- `Array.prototype.join(", ")`. -/
def joinComma : List String → String
  | [] => ""
  | [s] => s
  | s :: t :: rest => s ++ ", " ++ joinComma (t :: rest)

/-! ### The JS runtime-value layer for the dashboard-assembly stage -/

/-- The rational value of a JSON numeral (doubles are ℚ in this model). -/
def jnumVal (m : JNum) : ℚ :=
  let base : ℚ := (m.ip : ℚ) +
    (match m.frac with
      | none => 0
      | some (f, fs) =>
        (digitsVal ((f :: fs).map digitChar) : ℚ) / (10 : ℚ) ^ (fs.length + 1))
  let scaled :=
    match m.exp with
    | none => base
    | some (b, n) => if b then base / (10 : ℚ) ^ n else base * (10 : ℚ) ^ n
  if m.neg then -scaled else scaled

mutual

/-- Injection of parsed JSON data into the runtime-value domain. -/
def jsOfJson : Json → JsV
  | Json.null => JsV.nullv
  | Json.bool b => JsV.boolv b
  | Json.num m => JsV.numv (jnumVal m)
  | Json.str s => JsV.strv s
  | Json.arr xs => JsV.arrv (jsOfJsonList xs)
  | Json.obj kvs => JsV.objv (jsOfJsonKvs kvs)

def jsOfJsonList : List Json → List JsV
  | [] => []
  | v :: rest => jsOfJson v :: jsOfJsonList rest

def jsOfJsonKvs : List (List Char × Json) → List (List Char × JsV)
  | [] => []
  | (k, v) :: rest => (k, jsOfJson v) :: jsOfJsonKvs rest

end

def jvLookup : List (List Char × JsV) → List Char → Option JsV
  | [], _ => none
  | (k, v) :: rest, key => if k = key then some v else jvLookup rest key

/-- JS property write: overwrite in place, else append. -/
def jvSet : List (List Char × JsV) → List Char → JsV → List (List Char × JsV)
  | [], key, v => [(key, v)]
  | (k, w) :: rest, key, v =>
    if k = key then (k, v) :: rest else (k, w) :: jvSet rest key v

/-- JS property read: `null`/`undefined` receivers throw a TypeError,
other primitives autobox to `undefined` for the properties read here
(none of them collide with built-ins). -/
def jsGet (env : ParseEnv) (v : JsV) (k : List Char) : Except String JsV :=
  match v with
  | JsV.undef => Except.error env.tyErr
  | JsV.nullv => Except.error env.tyErr
  | JsV.objv kvs => Except.ok ((jvLookup kvs k).getD JsV.undef)
  | _ => Except.ok JsV.undef

/-- `a.k1.k2` (the second read replayed on the first read's result). -/
def jsGet2 (env : ParseEnv) (v : JsV) (k1 k2 : List Char) :
    Except String JsV := do
  let w ← jsGet env v k1
  jsGet env w k2

/-- `x ?? d`. -/
def jsCoalesce (v d : JsV) : JsV :=
  match v with
  | JsV.undef => d
  | JsV.nullv => d
  | w => w

def jsTruthy : JsV → Bool
  | JsV.undef => false
  | JsV.nullv => false
  | JsV.nanv => false
  | JsV.boolv b => b
  | JsV.numv q => decide (q ≠ 0)
  | JsV.strv s => decide (s ≠ [])
  | JsV.arrv _ => true
  | JsV.objv _ => true

mutual

/-- JS `ToString` on this data (numbers through the env; plain objects
give "[object Object]", arrays `join(",")`). -/
def jsToStr (env : ParseEnv) : JsV → List Char
  | JsV.undef => ("undefined").data
  | JsV.nullv => ("null").data
  | JsV.boolv true => ("true").data
  | JsV.boolv false => ("false").data
  | JsV.numv q => env.numStr q
  | JsV.nanv => ("NaN").data
  | JsV.strv s => s
  | JsV.arrv vs => jsArrStr env vs
  | JsV.objv _ => ("[object Object]").data

/-- `Array.prototype.join(",")`, with `undefined`/`null` elements
printed empty. -/
def jsArrStr (env : ParseEnv) : List JsV → List Char
  | [] => []
  | [v] =>
    match v with
    | JsV.undef => []
    | JsV.nullv => []
    | w => jsToStr env w
  | v :: w :: rest =>
    (match v with
      | JsV.undef => []
      | JsV.nullv => []
      | u => jsToStr env u) ++ ',' :: jsArrStr env (w :: rest)

end

/-- `ToPrimitive` of the values here: plain objects and arrays stringify
(their `valueOf` is not primitive-valued). -/
def jsPrim (env : ParseEnv) (v : JsV) : JsV :=
  match v with
  | JsV.arrv _ => JsV.strv (jsToStr env v)
  | JsV.objv _ => JsV.strv (jsToStr env v)
  | w => w

def isStrV : JsV → Bool
  | JsV.strv _ => true
  | _ => false

/-- JS `ToNumber` (`none` = NaN). -/
def jsToNumber (env : ParseEnv) : JsV → Option ℚ
  | JsV.undef => none
  | JsV.nullv => some 0
  | JsV.boolv b => some (if b then 1 else 0)
  | JsV.numv q => some q
  | JsV.nanv => none
  | JsV.strv s => env.strNum s
  | v => env.strNum (jsToStr env v)

/-- JS `+`: string concatenation when either primitive side is a string,
numeric addition (NaN-propagating) otherwise. -/
def jsAdd (env : ParseEnv) (a b : JsV) : JsV :=
  let pa := jsPrim env a
  let pb := jsPrim env b
  if isStrV pa || isStrV pb then JsV.strv (jsToStr env pa ++ jsToStr env pb)
  else
    match jsToNumber env pa, jsToNumber env pb with
    | some x, some y => JsV.numv (x + y)
    | _, _ => JsV.nanv

/-- SameValueZero, the `Map`/`Set` key equality: NaN equals NaN; objects
and arrays compare by reference, and every parsed node is a distinct
reference, so they are never equal here. -/
def jsSVZ : JsV → JsV → Bool
  | JsV.undef, JsV.undef => true
  | JsV.nullv, JsV.nullv => true
  | JsV.boolv a, JsV.boolv b => a == b
  | JsV.numv a, JsV.numv b => a == b
  | JsV.nanv, JsV.nanv => true
  | JsV.strv a, JsV.strv b => a == b
  | _, _ => false

/-- `for (const x of v)`: arrays yield elements, strings their code
points; everything else is not iterable and throws. -/
def jsIter (env : ParseEnv) : JsV → Except String (List JsV)
  | JsV.arrv vs => Except.ok vs
  | JsV.strv s => Except.ok (s.map (fun c => JsV.strv [c]))
  | _ => Except.error env.tyErr

/-- `v.slice(-20)`: a method on strings and arrays; any other receiver
has no (callable) `slice` and the call throws. -/
def jsSliceNeg20 (env : ParseEnv) : JsV → Except String JsV
  | JsV.strv s => Except.ok (JsV.strv (s.drop (s.length - 20)))
  | JsV.arrv vs => Except.ok (JsV.arrv (vs.drop (vs.length - 20)))
  | _ => Except.error env.tyErr

/-- `a.localeCompare(b)`: only a string receiver has the method (the
argument is `ToString`-coerced). -/
def localeCmpE (env : ParseEnv) (a b : JsV) : Except String Ordering :=
  match a with
  | JsV.strv s => Except.ok (env.coll s (jsToStr env b))
  | _ => Except.error env.tyErr

/-- Error-propagating left fold. -/
def foldE {α β : Type} (f : β → α → Except String β) :
    β → List α → Except String β
  | b, [] => Except.ok b
  | b, x :: rest =>
    match f b x with
    | Except.error e => Except.error e
    | Except.ok b2 => foldE f b2 rest

/-- `toSorted` with an effectful comparator, as the stable insertion sort
used for `toSorted` throughout this development (a comparator result of
NaN counts as 0 per the sort spec; the callers encode that). -/
def insertE {α : Type} (cmp : α → α → Except String Ordering) (x : α) :
    List α → Except String (List α)
  | [] => Except.ok [x]
  | y :: rest =>
    match cmp x y with
    | Except.error e => Except.error e
    | Except.ok o =>
      if o ≠ Ordering.gt then Except.ok (x :: y :: rest)
      else
        match insertE cmp x rest with
        | Except.error e => Except.error e
        | Except.ok r => Except.ok (y :: r)

def sortE {α : Type} (cmp : α → α → Except String Ordering) :
    List α → Except String (List α)
  | [] => Except.ok []
  | x :: rest =>
    match sortE cmp rest with
    | Except.error e => Except.error e
    | Except.ok r => insertE cmp x r

/-! ### normalize.ts on runtime values -/

/-- A `NormalizedEntry` object literal: the fixed shape every branch of
`normalizeEntries` constructs (field values are raw runtime values). -/
structure JEntry where
  label : JsV
  inputTokens : JsV
  outputTokens : JsV
  cacheCreationTokens : JsV
  cacheReadTokens : JsV
  totalTokens : JsV
  cost : JsV
  models : JsV
  modelBreakdowns : JsV

/-- A `NormalizedTotals` object literal. -/
structure JTotals where
  inputTokens : JsV
  outputTokens : JsV
  cacheCreationTokens : JsV
  cacheReadTokens : JsV
  totalTokens : JsV
  totalCost : JsV

/-- The daily/weekly/monthly entry literal (reads in literal order; a
`null` entry throws on the first read). -/
def timeEntryJ (env : ParseEnv) (labelKey : List Char) (e : JsV) :
    Except String JEntry := do
  let d ← jsGet env e labelKey
  let it ← jsGet env e ("inputTokens").data
  let ot ← jsGet env e ("outputTokens").data
  let cc ← jsGet env e ("cacheCreationTokens").data
  let cr ← jsGet env e ("cacheReadTokens").data
  let tt ← jsGet env e ("totalTokens").data
  let tc ← jsGet env e ("totalCost").data
  let mu ← jsGet env e ("modelsUsed").data
  let mb ← jsGet env e ("modelBreakdowns").data
  Except.ok ⟨jsCoalesce d (JsV.strv []), it, ot, cc, cr, tt, tc, mu, mb⟩

def timeEntriesJ (env : ParseEnv) (report : JsV)
    (arrKey labelKey : List Char) : Except String (List JEntry) := do
  let a ← jsGet env report arrKey
  match a with
  | JsV.arrv items => mapExcept (timeEntryJ env labelKey) items
  | _ => Except.error env.tyErr

def isUnknownProject : JsV → Bool
  | JsV.strv s => decide (s = ("Unknown Project").data)
  | _ => false

/-- The session `toSorted` comparator
`new Date(a.lastActivity).getTime() - new Date(b.lastActivity).getTime()`
(a NaN difference sorts as 0). -/
def sessionCmp (env : ParseEnv) (a b : JsV) : Except String Ordering := do
  let la ← jsGet env a ("lastActivity").data
  let lb ← jsGet env b ("lastActivity").data
  match env.dateMs la, env.dateMs lb with
  | some x, some y => Except.ok (compare x y)
  | _, _ => Except.ok Ordering.eq

def sessionEntryJ (env : ParseEnv) (e : JsV) : Except String JEntry := do
  let pp ← jsGet env e ("projectPath").data
  let project := if isUnknownProject pp then JsV.strv [] else pp
  let sid ← jsGet env e ("sessionId").data
  let shortId ← jsSliceNeg20 env sid
  let it ← jsGet env e ("inputTokens").data
  let ot ← jsGet env e ("outputTokens").data
  let cc ← jsGet env e ("cacheCreationTokens").data
  let cr ← jsGet env e ("cacheReadTokens").data
  let tt ← jsGet env e ("totalTokens").data
  let tc ← jsGet env e ("totalCost").data
  let mu ← jsGet env e ("modelsUsed").data
  let mb ← jsGet env e ("modelBreakdowns").data
  Except.ok ⟨if jsTruthy project then project else shortId,
    it, ot, cc, cr, tt, tc, mu, mb⟩

def sessionEntriesJ (env : ParseEnv) (report : JsV) :
    Except String (List JEntry) := do
  let a ← jsGet env report ("sessions").data
  match a with
  | JsV.arrv items => do
    let sorted ← sortE (sessionCmp env) items
    mapExcept (sessionEntryJ env) sorted
  | _ => Except.error env.tyErr

/-- `.filter((e) => !e.isGap)` (the callback's property read can throw). -/
def blocksNonGap (env : ParseEnv) : List JsV → Except String (List JsV)
  | [] => Except.ok []
  | e :: rest => do
    let g ← jsGet env e ("isGap").data
    let r ← blocksNonGap env rest
    Except.ok (if jsTruthy g then r else e :: r)

def blockEntryJ (env : ParseEnv) (e : JsV) : Except String JEntry := do
  let st ← jsGet env e ("startTime").data
  let it ← jsGet2 env e ("tokenCounts").data ("inputTokens").data
  let ot ← jsGet2 env e ("tokenCounts").data ("outputTokens").data
  let cc ← jsGet2 env e ("tokenCounts").data ("cacheCreationInputTokens").data
  let cr ← jsGet2 env e ("tokenCounts").data ("cacheReadInputTokens").data
  let tt ← jsGet env e ("totalTokens").data
  let cu ← jsGet env e ("costUSD").data
  let ms ← jsGet env e ("models").data
  Except.ok ⟨JsV.strv (env.blockLabel st), it, ot, cc, cr, tt, cu, ms,
    JsV.undef⟩

def blockEntriesJ (env : ParseEnv) (report : JsV) :
    Except String (List JEntry) := do
  let a ← jsGet env report ("blocks").data
  match a with
  | JsV.arrv items => do
    let ng ← blocksNonGap env items
    mapExcept (blockEntryJ env) ng
  | _ => Except.error env.tyErr

/-- `normalizeEntries` on the detected report value (the switch on
`report.type`). -/
def normalizeEntriesJ (env : ParseEnv) (rt : RType) (report : JsV) :
    Except String (List JEntry) :=
  match rt with
  | RType.daily => timeEntriesJ env report ("daily").data ("date").data
  | RType.weekly => timeEntriesJ env report ("weekly").data ("week").data
  | RType.monthly => timeEntriesJ env report ("monthly").data ("month").data
  | RType.session => sessionEntriesJ env report
  | RType.blocks => blockEntriesJ env report

/-- `entries.reduce((s, e) => s + f(e), 0)`. -/
def reduceAdd (env : ParseEnv) (f : JsV → Except String JsV)
    (l : List JsV) : Except String JsV :=
  foldE (fun s e =>
    match f e with
    | Except.error err => Except.error err
    | Except.ok v => Except.ok (jsAdd env s v)) (JsV.numv 0) l

/-- `normalizeTotals`: blocks recompute from the non-gap blocks, everyone
else reads `report.totals` — whose fields throw when `totals` is absent
(`undefined`) or `null`. -/
def normalizeTotalsJ (env : ParseEnv) (rt : RType) (report : JsV) :
    Except String JTotals :=
  match rt with
  | RType.blocks => do
    let a ← jsGet env report ("blocks").data
    match a with
    | JsV.arrv items => do
      let entries ← blocksNonGap env items
      let it ← reduceAdd env
        (fun e => jsGet2 env e ("tokenCounts").data ("inputTokens").data)
        entries
      let ot ← reduceAdd env
        (fun e => jsGet2 env e ("tokenCounts").data ("outputTokens").data)
        entries
      let cc ← reduceAdd env
        (fun e => jsGet2 env e ("tokenCounts").data
          ("cacheCreationInputTokens").data) entries
      let cr ← reduceAdd env
        (fun e => jsGet2 env e ("tokenCounts").data
          ("cacheReadInputTokens").data) entries
      let tt ← reduceAdd env (fun e => jsGet env e ("totalTokens").data)
        entries
      let cu ← reduceAdd env (fun e => jsGet env e ("costUSD").data) entries
      Except.ok ⟨it, ot, cc, cr, tt, cu⟩
    | _ => Except.error env.tyErr
  | _ => do
    let t ← jsGet env report ("totals").data
    let it ← jsGet env t ("inputTokens").data
    let ot ← jsGet env t ("outputTokens").data
    let cc ← jsGet env t ("cacheCreationTokens").data
    let cr ← jsGet env t ("cacheReadTokens").data
    let tt ← jsGet env t ("totalTokens").data
    let tc ← jsGet env t ("totalCost").data
    Except.ok ⟨it, ot, cc, cr, tt, tc⟩

/-! ### merge.ts on runtime values -/

/-- One merge bucket (`models` is the `Set` in insertion order,
`modelMap` the `Map` of spread-copied breakdown objects). -/
structure JBucket where
  inputTokens : JsV
  outputTokens : JsV
  cacheCreationTokens : JsV
  cacheReadTokens : JsV
  totalTokens : JsV
  cost : JsV
  models : List JsV
  modelMap : List (JsV × List (List Char × JsV))
  hasBreakdowns : Bool

def jFreshBucket : JBucket :=
  ⟨JsV.numv 0, JsV.numv 0, JsV.numv 0, JsV.numv 0, JsV.numv 0, JsV.numv 0,
    [], [], false⟩

def svzLookup {α : Type} : List (JsV × α) → JsV → Option α
  | [], _ => none
  | (k, v) :: rest, key => if jsSVZ k key then some v else svzLookup rest key

/-- `Map.set`: overwrite in place, else append. -/
def svzSet {α : Type} : List (JsV × α) → JsV → α → List (JsV × α)
  | [], key, v => [(key, v)]
  | (k, w) :: rest, key, v =>
    if jsSVZ k key then (k, v) :: rest else (k, w) :: svzSet rest key v

/-- `Set.add`. -/
def setAddV (acc : List JsV) (m : JsV) : List JsV :=
  if acc.any (fun x => jsSVZ x m) then acc else acc ++ [m]

/-- `{ ...mb }`: own enumerable properties (objects copy, arrays and
strings spread to index properties, primitives to nothing). -/
def idxProps : Nat → List JsV → List (List Char × JsV)
  | _, [] => []
  | n, v :: rest => (natToDigits n, v) :: idxProps (n + 1) rest

def mbSpread : JsV → List (List Char × JsV)
  | JsV.objv kvs => kvs
  | JsV.arrv vs => idxProps 0 vs
  | JsV.strv s => idxProps 0 (s.map (fun c => JsV.strv [c]))
  | _ => []

/-- `existing[k] += mb[k]` for one field. -/
def mbUpd (env : ParseEnv) (k : List Char)
    (ex : List (List Char × JsV)) (mb : JsV) :
    Except String (List (List Char × JsV)) :=
  match jsGet env mb k with
  | Except.error e => Except.error e
  | Except.ok v =>
    Except.ok (jvSet ex k (jsAdd env ((jvLookup ex k).getD JsV.undef) v))

/-- The five in-place updates of an existing breakdown record. -/
def mbAccumV (env : ParseEnv) (ex : List (List Char × JsV)) (mb : JsV) :
    Except String (List (List Char × JsV)) := do
  let e1 ← mbUpd env ("inputTokens").data ex mb
  let e2 ← mbUpd env ("outputTokens").data e1 mb
  let e3 ← mbUpd env ("cacheCreationTokens").data e2 mb
  let e4 ← mbUpd env ("cacheReadTokens").data e3 mb
  mbUpd env ("cost").data e4 mb

/-- One `modelBreakdowns` element: read `mb.modelName` (throws on a
`null` record), then merge into or insert a spread copy. -/
def jMbStep (env : ParseEnv)
    (mm : List (JsV × List (List Char × JsV))) (mb : JsV) :
    Except String (List (JsV × List (List Char × JsV))) := do
  let name ← jsGet env mb ("modelName").data
  match svzLookup mm name with
  | some ex => do
    let ex2 ← mbAccumV env ex mb
    Except.ok (svzSet mm name ex2)
  | none => Except.ok (mm ++ [(name, mbSpread mb)])

/-- The per-entry mutation of a bucket: the six `+=`, the `models` Set
union (`for..of` throws on a non-iterable `models`), and the breakdown
merge when `entry.modelBreakdowns` is truthy. -/
def jBucketAdd (env : ParseEnv) (b : JBucket) (e : JEntry) :
    Except String JBucket := do
  let b1 : JBucket :=
    { b with
      inputTokens := jsAdd env b.inputTokens e.inputTokens
      outputTokens := jsAdd env b.outputTokens e.outputTokens
      cacheCreationTokens := jsAdd env b.cacheCreationTokens
        e.cacheCreationTokens
      cacheReadTokens := jsAdd env b.cacheReadTokens e.cacheReadTokens
      totalTokens := jsAdd env b.totalTokens e.totalTokens
      cost := jsAdd env b.cost e.cost }
  let ms ← jsIter env e.models
  let b2 : JBucket := { b1 with models := ms.foldl setAddV b1.models }
  if jsTruthy e.modelBreakdowns then do
    let mbs ← jsIter env e.modelBreakdowns
    let mm ← foldE (jMbStep env) b2.modelMap mbs
    Except.ok { b2 with hasBreakdowns := true, modelMap := mm }
  else Except.ok b2

/-- One entry of the grouping loop: fetch-or-create the `label` bucket
(`Map` keyed by SameValueZero), then accumulate. -/
def jMergeStep (env : ParseEnv) (st : List (JsV × JBucket)) (e : JEntry) :
    Except String (List (JsV × JBucket)) :=
  match svzLookup st e.label with
  | some b => do
    let b2 ← jBucketAdd env b e
    Except.ok (svzSet st e.label b2)
  | none => do
    let b2 ← jBucketAdd env jFreshBucket e
    Except.ok (st ++ [(e.label, b2)])

def jFinalize (p : JsV × JBucket) : JEntry :=
  ⟨p.1, p.2.inputTokens, p.2.outputTokens, p.2.cacheCreationTokens,
    p.2.cacheReadTokens, p.2.totalTokens, p.2.cost, JsV.arrv p.2.models,
    if p.2.hasBreakdowns then
      JsV.arrv (p.2.modelMap.map (fun q => JsV.objv q.2))
    else JsV.undef⟩

/-- `mergeNormalizedEntries` on runtime values: empty and singleton
identities, then group, sort the `[label, bucket]` pairs by
`a.localeCompare(b)` (throwing on non-string labels when compared), and
rebuild the entry literals. -/
def mergeNormalizedEntriesJ (env : ParseEnv) :
    List (List JEntry) → Except String (List JEntry)
  | [] => Except.ok []
  | [a] => Except.ok a
  | a :: b :: rest => do
    let st ← foldE (jMergeStep env) [] ((a :: b :: rest).flatten)
    let sorted ← sortE (fun p q => localeCmpE env p.1 q.1) st
    Except.ok (sorted.map jFinalize)

/-- `computeTotalsFromEntries` = `sumEntries`: fold the six numeric
fields with JS `+` (never throws; `totalCost` comes from `cost`). -/
def sumEntriesJ (env : ParseEnv) (entries : List JEntry) : JTotals :=
  entries.foldl
    (fun t e =>
      ⟨jsAdd env t.inputTokens e.inputTokens,
       jsAdd env t.outputTokens e.outputTokens,
       jsAdd env t.cacheCreationTokens e.cacheCreationTokens,
       jsAdd env t.cacheReadTokens e.cacheReadTokens,
       jsAdd env t.totalTokens e.totalTokens,
       jsAdd env t.totalCost e.cost⟩)
    ⟨JsV.numv 0, JsV.numv 0, JsV.numv 0, JsV.numv 0, JsV.numv 0, JsV.numv 0⟩

/-- The success payload `DashboardData`. -/
structure DashboardDataM where
  entries : List JEntry
  totals : JTotals
  reportType : RType
  sourceLabels : List String

/-- `parseInputs`.  `Except.error` is an uncaught exception from the
dashboard-assembly stage (it runs outside every try/catch); `Except.ok`
is a normal `{ data, error }` return. -/
def parseInputs (env : ParseEnv) (inputs : List SourceInput) :
    Except String (Option DashboardDataM × Option String) :=
  match collectSources env inputs with
  | Except.error e => Except.ok (none, some e)
  | Except.ok sources =>
    match sources with
    | [] => Except.ok (none, none)
    | s0 :: restS =>
      match dedupFirstSeen ((s0 :: restS).map (fun s => s.report.1)) with
      | [] => Except.ok (none, none)
      | [_] =>
        match restS with
        | [] =>
          match normalizeEntriesJ env s0.report.1 (jsOfJson s0.report.2) with
          | Except.error e => Except.error e
          | Except.ok entries =>
            match normalizeTotalsJ env s0.report.1 (jsOfJson s0.report.2) with
            | Except.error e => Except.error e
            | Except.ok totals =>
              Except.ok (some ⟨entries, totals, s0.report.1,
                ((s0 :: restS).map (fun s => s.label)).filter
                  (fun l => decide (l ≠ ""))⟩, none)
        | _ :: _ =>
          match mapExcept
            (fun s => normalizeEntriesJ env s.report.1 (jsOfJson s.report.2))
            (s0 :: restS) with
          | Except.error e => Except.error e
          | Except.ok arrays =>
            match mergeNormalizedEntriesJ env arrays with
            | Except.error e => Except.error e
            | Except.ok entries =>
              Except.ok (some ⟨entries, sumEntriesJ env entries, s0.report.1,
                ((s0 :: restS).map (fun s => s.label)).filter
                  (fun l => decide (l ≠ ""))⟩, none)
      | t1 :: t2 :: ts =>
        Except.ok (none, some ("Cannot merge different report types: " ++
          joinComma ((t1 :: t2 :: ts).map typeName)))

/-! Specification-side scan, following the claim's wording: the non-blank
inputs are scanned in order and the first JSON-parse or detection failure
is reported; `specSources` lists the successfully detected reports. -/

def specFirstFailureItems (env : ParseEnv) : List Json → Option String
  | [] => none
  | v :: rest =>
    match parseOne env v with
    | Except.error e => some e
    | Except.ok _ => specFirstFailureItems env rest

def specFirstFailure (env : ParseEnv) : List SourceInput → Option String
  | [] => none
  | i :: rest =>
    if jsTrim i.content = "" then specFirstFailure env rest
    else
      match jsonParse (jsTrim i.content) with
      | none => some (env.perr (jsTrim i.content))
      | some parsed =>
        match specFirstFailureItems env (inputItems parsed) with
        | some e => some e
        | none => specFirstFailure env rest

def specItems (env : ParseEnv) (label : String) : List Json → List ParsedSource
  | [] => []
  | v :: rest =>
    match parseOne env v with
    | Except.error _ => specItems env label rest
    | Except.ok rt => ⟨rt, label⟩ :: specItems env label rest

def specSources (env : ParseEnv) : List SourceInput → List ParsedSource
  | [] => []
  | i :: rest =>
    if jsTrim i.content = "" then specSources env rest
    else
      match jsonParse (jsTrim i.content) with
      | none => specSources env rest
      | some parsed =>
        specItems env i.label (inputItems parsed) ++ specSources env rest

def detectedKinds (env : ParseEnv) (inputs : List SourceInput) : List RType :=
  (specSources env inputs).map (fun s => s.report.1)

def c3Env : ParseEnv :=
  ⟨fun _ => "Invalid JSON", "in TypeError", fun _ => Json.null,
   fun _ _ => Ordering.eq, fun _ => none, fun _ => [], fun _ => none,
   fun _ => []⟩

def c3Inputs : List SourceInput :=
  [⟨"", "  "⟩, ⟨"a", "\x7b\"daily\": []\x7d"⟩,
   ⟨"", "\x7b\"sessions\": []\x7d"⟩]

/-! ## Theorems -/

theorem mem_setAdd {s : List String} {m x : String} :
    x ∈ setAdd s m ↔ x ∈ s ∨ x = m := by
  unfold setAdd
  by_cases h : m ∈ s
  · simp only [if_pos h]
    constructor
    · exact fun hx => Or.inl hx
    · rintro (hx | rfl) <;> assumption
  · simp [h]

theorem nodup_setAdd {s : List String} (h : s.Nodup) (m : String) :
    (setAdd s m).Nodup := by
  unfold setAdd
  by_cases hm : m ∈ s <;> simp [hm, List.nodup_append, h]

theorem mem_foldl_setAdd {ls : List String} {ks : List String} {x : String} :
    x ∈ ls.foldl setAdd ks ↔ x ∈ ks ∨ x ∈ ls := by
  induction ls generalizing ks with
  | nil => simp
  | cons a ls ih =>
    simp only [List.foldl_cons, ih, mem_setAdd, List.mem_cons]
    tauto

theorem nodup_foldl_setAdd {ls ks : List String} (h : ks.Nodup) :
    (ls.foldl setAdd ks).Nodup := by
  induction ls generalizing ks with
  | nil => exact h
  | cons a ls ih => exact ih (nodup_setAdd h a)

theorem length_foldl_setAdd_fresh {ls ks : List String} (hls : ls.Nodup)
    (hfresh : ∀ x ∈ ls, x ∉ ks) :
    (ls.foldl setAdd ks).length = ks.length + ls.length := by
  induction ls generalizing ks with
  | nil => simp
  | cons a ls ih =>
    have ha : a ∉ ks := hfresh a (by simp)
    have h1 : setAdd ks a = ks ++ [a] := by simp [setAdd, ha]
    have h2 : ∀ x ∈ ls, x ∉ ks ++ [a] := by
      intro x hx
      simp only [List.mem_append, List.mem_singleton]
      rintro (hk | rfl)
      · exact hfresh x (by simp [hx]) hk
      · exact (List.nodup_cons.mp hls).1 hx
    simp only [List.foldl_cons, h1]
    rw [ih (List.nodup_cons.mp hls).2 h2]
    simp [Nat.add_assoc, Nat.add_comm 1]

theorem findB_bumpKey_self (m : List (String × Bucket)) (k : String)
    (e : NormalizedEntry) :
    findB (bumpKey m k e) k = some (bucketAdd ((findB m k).getD {}) e) := by
  induction m with
  | nil => simp [bumpKey, findB]
  | cons p rest ih =>
    obtain ⟨k', b⟩ := p
    by_cases h : k' = k
    · subst h
      simp [bumpKey, findB]
    · simp [bumpKey, findB, h, ih]

theorem findB_bumpKey_other (m : List (String × Bucket)) (k l : String)
    (e : NormalizedEntry) (hne : l ≠ k) :
    findB (bumpKey m k e) l = findB m l := by
  have hkl : ¬k = l := fun h => hne h.symm
  induction m with
  | nil => simp [bumpKey, findB, hkl]
  | cons p rest ih =>
    obtain ⟨k', b⟩ := p
    by_cases h : k' = k
    · subst h
      simp [bumpKey, findB, hkl]
    · by_cases h2 : k' = l <;> simp [bumpKey, findB, h, h2, hne, ih]

theorem keys_bumpKey (m : List (String × Bucket)) (k : String)
    (e : NormalizedEntry) :
    (bumpKey m k e).map Prod.fst = setAdd (m.map Prod.fst) k := by
  induction m with
  | nil => simp [bumpKey, setAdd]
  | cons p rest ih =>
    obtain ⟨k', b⟩ := p
    by_cases h : k' = k
    · subst h
      simp [bumpKey, setAdd]
    · have h' : ¬k = k' := fun hh => h hh.symm
      simp only [bumpKey, if_neg h, List.map_cons, ih, setAdd]
      by_cases hk : k ∈ rest.map Prod.fst
      · simp [hk, h', List.mem_cons]
      · simp [hk, h', List.mem_cons]

/-- The keys accumulated by the grouping fold are the insertion-ordered
deduplication of the (non-null) keys of the processed entries. -/
theorem keys_foldl_groupStep (keyFn : NormalizedEntry → Option String)
    (es : List NormalizedEntry) (m : List (String × Bucket)) :
    ((es.foldl (groupStep keyFn) m).map Prod.fst) =
      (es.filterMap keyFn).foldl setAdd (m.map Prod.fst) := by
  induction es generalizing m with
  | nil => simp
  | cons e es ih =>
    simp only [List.foldl_cons, List.filterMap_cons]
    cases h : keyFn e with
    | none => simp [groupStep, h, ih]
    | some k => simp [groupStep, h, ih, keys_bumpKey]

/-- Lookup after the grouping fold: the bucket for key `L` accumulates
exactly the entries whose key is `L`, in order, on top of whatever the
initial map already held for `L`. -/
theorem findB_foldl_groupStep (keyFn : NormalizedEntry → Option String)
    (es : List NormalizedEntry) (m : List (String × Bucket)) (L : String) :
    findB (es.foldl (groupStep keyFn) m) L =
      (if (findB m L).isSome ∨ (es.filter (fun e => keyFn e = some L)) ≠ []
        then some ((es.filter (fun e => keyFn e = some L)).foldl bucketAdd
          ((findB m L).getD {}))
        else none) := by
  induction es generalizing m with
  | nil =>
    cases h : findB m L <;> simp [h]
  | cons e es ih =>
    rw [List.foldl_cons]
    cases h : keyFn e with
    | none =>
      have hne : decide (keyFn e = some L) = false := by simp [h]
      simp only [groupStep, h]
      rw [ih, List.filter_cons]
      simp only [hne]
      simp
    | some k =>
      by_cases hkL : k = L
      · subst hkL
        have hpe : decide (keyFn e = some k) = true := by simp [h]
        simp only [groupStep, h]
        rw [ih, List.filter_cons, findB_bumpKey_self]
        simp only [hpe]
        simp
      · have hne : decide (keyFn e = some L) = false := by
          simp [h, hkL]
        simp only [groupStep, h]
        rw [ih, List.filter_cons,
          findB_bumpKey_other _ _ _ _ (Ne.symm hkL)]
        simp only [hne]
        simp

theorem findB_eq_of_mem {m : List (String × Bucket)} {L : String} {b : Bucket}
    (hnd : (m.map Prod.fst).Nodup) (hmem : (L, b) ∈ m) :
    findB m L = some b := by
  induction m with
  | nil => simp at hmem
  | cons p rest ih =>
    obtain ⟨k', b'⟩ := p
    simp only [List.map_cons, List.nodup_cons] at hnd
    rcases List.mem_cons.mp hmem with heq | hmem'
    · injection heq with h1 h2
      subst h1; subst h2
      simp [findB]
    · have hLne : k' ≠ L := by
        rintro rfl
        exact hnd.1 (List.mem_map.mpr ⟨(k', b), hmem', rfl⟩)
      simp [findB, hLne, ih hnd.2 hmem']

/-! Numeric-field behaviour of the bucket fold. -/

theorem foldl_bucketAdd_inputTokens (fl : List NormalizedEntry) (b : Bucket) :
    (fl.foldl bucketAdd b).inputTokens =
      b.inputTokens + (fl.map (·.inputTokens)).sum := by
  induction fl generalizing b with
  | nil => simp
  | cons e fl ih => simp [ih, bucketAdd, add_assoc]

theorem foldl_bucketAdd_outputTokens (fl : List NormalizedEntry) (b : Bucket) :
    (fl.foldl bucketAdd b).outputTokens =
      b.outputTokens + (fl.map (·.outputTokens)).sum := by
  induction fl generalizing b with
  | nil => simp
  | cons e fl ih => simp [ih, bucketAdd, add_assoc]

theorem foldl_bucketAdd_cacheCreationTokens (fl : List NormalizedEntry)
    (b : Bucket) :
    (fl.foldl bucketAdd b).cacheCreationTokens =
      b.cacheCreationTokens + (fl.map (·.cacheCreationTokens)).sum := by
  induction fl generalizing b with
  | nil => simp
  | cons e fl ih => simp [ih, bucketAdd, add_assoc]

theorem foldl_bucketAdd_cacheReadTokens (fl : List NormalizedEntry)
    (b : Bucket) :
    (fl.foldl bucketAdd b).cacheReadTokens =
      b.cacheReadTokens + (fl.map (·.cacheReadTokens)).sum := by
  induction fl generalizing b with
  | nil => simp
  | cons e fl ih => simp [ih, bucketAdd, add_assoc]

theorem foldl_bucketAdd_totalTokens (fl : List NormalizedEntry) (b : Bucket) :
    (fl.foldl bucketAdd b).totalTokens =
      b.totalTokens + (fl.map (·.totalTokens)).sum := by
  induction fl generalizing b with
  | nil => simp
  | cons e fl ih => simp [ih, bucketAdd, add_assoc]

theorem foldl_bucketAdd_cost (fl : List NormalizedEntry) (b : Bucket) :
    (fl.foldl bucketAdd b).cost = b.cost + (fl.map (·.cost)).sum := by
  induction fl generalizing b with
  | nil => simp
  | cons e fl ih => simp [ih, bucketAdd, add_assoc]

theorem foldl_bucketAdd_models (fl : List NormalizedEntry) (b : Bucket) :
    (fl.foldl bucketAdd b).models =
      ((fl.map (·.models)).flatten).foldl setAdd b.models := by
  induction fl generalizing b with
  | nil => simp
  | cons e fl ih => simp [ih, bucketAdd, List.foldl_append]

theorem mem_of_findB {m : List (String × Bucket)} {L : String} {b : Bucket}
    (h : findB m L = some b) : (L, b) ∈ m := by
  induction m with
  | nil => simp [findB] at h
  | cons p rest ih =>
    obtain ⟨k', b'⟩ := p
    by_cases hk : k' = L
    · subst hk
      have h' : b' = b := by simpa [findB] using h
      subst h'
      exact List.mem_cons_self _ _
    · simp only [findB, if_neg hk] at h
      exact List.mem_cons_of_mem _ (ih h)

theorem keys_nodup (keyFn : NormalizedEntry → Option String)
    (es : List NormalizedEntry) :
    ((es.foldl (groupStep keyFn) []).map Prod.fst).Nodup := by
  rw [keys_foldl_groupStep]
  exact nodup_foldl_setAdd (by simp)

/-- Membership in a grouped result: exactly the nonempty key groups appear,
each materialised from the fold of its members over the zero bucket. -/
theorem groupEntries_mem_iff (cmp : String → String → Ordering)
    (keyFn : NormalizedEntry → Option String) (es : List NormalizedEntry)
    (p : NormalizedEntry) :
    p ∈ groupEntries cmp keyFn es ↔
      ∃ L, (es.filter (fun e => keyFn e = some L)) ≠ [] ∧
        p = finalizePair
          (L, (es.filter (fun e => keyFn e = some L)).foldl bucketAdd {}) := by
  unfold groupEntries
  rw [List.mem_map]
  constructor
  · rintro ⟨⟨L, b⟩, hq, rfl⟩
    have hq' : (L, b) ∈ es.foldl (groupStep keyFn) [] :=
      (List.perm_insertionSort (keyLE cmp) _).mem_iff.mp hq
    have hfind := findB_eq_of_mem (keys_nodup keyFn es) hq'
    rw [findB_foldl_groupStep] at hfind
    simp only [findB] at hfind
    by_cases hfl : (es.filter (fun e => keyFn e = some L)) = []
    · simp [hfl] at hfind
    · refine ⟨L, hfl, ?_⟩
      simp only [hfl, Option.isSome_none, Bool.false_eq_true, false_or,
        ne_eq, not_false_eq_true, if_pos, Option.getD_none] at hfind
      cases hfind
      rfl
  · rintro ⟨L, hfl, rfl⟩
    refine ⟨(L, (es.filter (fun e => keyFn e = some L)).foldl bucketAdd {}),
      ?_, rfl⟩
    rw [(List.perm_insertionSort (keyLE cmp) _).mem_iff]
    apply mem_of_findB
    rw [findB_foldl_groupStep]
    simp [findB, hfl]

/-- Length of a grouped result: one output entry per distinct non-null key. -/
theorem groupEntries_length (cmp : String → String → Ordering)
    (keyFn : NormalizedEntry → Option String) (es : List NormalizedEntry) :
    (groupEntries cmp keyFn es).length =
      ((es.filterMap keyFn).foldl setAdd []).length := by
  unfold groupEntries
  rw [List.length_map, (List.perm_insertionSort (keyLE cmp) _).length_eq,
    ← List.length_map _ Prod.fst, keys_foldl_groupStep]
  rfl

/-- The grouped result is sorted (pairwise nondecreasing labels) whenever the
ambient comparison is total and transitive, as a real collation is. -/
theorem groupEntries_sorted (cmp : String → String → Ordering)
    (htot : ∀ a b, cmp a b ≠ Ordering.gt ∨ cmp b a ≠ Ordering.gt)
    (htrans : ∀ a b c, cmp a b ≠ Ordering.gt → cmp b c ≠ Ordering.gt →
      cmp a c ≠ Ordering.gt)
    (keyFn : NormalizedEntry → Option String) (es : List NormalizedEntry) :
    (groupEntries cmp keyFn es).Pairwise (entryLE cmp) := by
  haveI : IsTotal (String × Bucket) (keyLE cmp) := ⟨fun a b => htot a.1 b.1⟩
  haveI : IsTrans (String × Bucket) (keyLE cmp) :=
    ⟨fun a b c => htrans a.1 b.1 c.1⟩
  have hs := List.sorted_insertionSort (keyLE cmp)
    (es.foldl (groupStep keyFn) [])
  exact List.Pairwise.map _ (fun a b h => h) hs

theorem charCmp_lt_iff {a b : Char} :
    charCmp a b = Ordering.lt ↔ a.toNat < b.toNat := by
  unfold charCmp
  by_cases h1 : a.toNat < b.toNat
  · simp [h1]
  · by_cases h2 : b.toNat < a.toNat <;> simp [h1, h2]

theorem charCmp_gt_iff {a b : Char} :
    charCmp a b = Ordering.gt ↔ b.toNat < a.toNat := by
  unfold charCmp
  by_cases h1 : a.toNat < b.toNat
  · simp [h1]
    omega
  · by_cases h2 : b.toNat < a.toNat <;> simp [h1, h2]

theorem charCmp_eq_iff {a b : Char} :
    charCmp a b = Ordering.eq ↔ a.toNat = b.toNat := by
  unfold charCmp
  by_cases h1 : a.toNat < b.toNat
  · simp [h1]
    omega
  · by_cases h2 : b.toNat < a.toNat <;> simp [h1, h2] <;> omega

theorem strCmpList_ne_gt_trans :
    ∀ a b c : List Char, strCmpList a b ≠ Ordering.gt →
      strCmpList b c ≠ Ordering.gt → strCmpList a c ≠ Ordering.gt := by
  intro a
  induction a with
  | nil =>
    intro b c _ _
    cases c <;> simp [strCmpList]
  | cons x s ih =>
    intro b c hab hbc
    cases b with
    | nil => simp [strCmpList] at hab
    | cons y t =>
      cases c with
      | nil => simp [strCmpList] at hbc
      | cons z u =>
        simp only [strCmpList] at hab hbc ⊢
        rcases hxy : charCmp x y with h | h | h <;> rw [hxy] at hab
        · -- x < y
          rcases hyz : charCmp y z with h' | h' | h' <;> rw [hyz] at hbc
          · have : x.toNat < z.toNat :=
              lt_trans (charCmp_lt_iff.mp hxy) (charCmp_lt_iff.mp hyz)
            rw [charCmp_lt_iff.mpr this]
            simp
          · have : x.toNat < z.toNat := by
              have := charCmp_lt_iff.mp hxy
              have := charCmp_eq_iff.mp hyz
              omega
            rw [charCmp_lt_iff.mpr this]
            simp
          · simp at hbc
        · -- x = y
          rcases hyz : charCmp y z with h' | h' | h' <;> rw [hyz] at hbc
          · have : x.toNat < z.toNat := by
              have := charCmp_eq_iff.mp hxy
              have := charCmp_lt_iff.mp hyz
              omega
            rw [charCmp_lt_iff.mpr this]
            simp
          · have : charCmp x z = Ordering.eq := by
              rw [charCmp_eq_iff]
              have := charCmp_eq_iff.mp hxy
              have := charCmp_eq_iff.mp hyz
              omega
            rw [this]
            exact ih t u hab hbc
          · simp at hbc
        · simp at hab

theorem strCmpList_total :
    ∀ a b : List Char, strCmpList a b ≠ Ordering.gt ∨
      strCmpList b a ≠ Ordering.gt := by
  intro a
  induction a with
  | nil =>
    intro b
    cases b <;> simp [strCmpList]
  | cons x s ih =>
    intro b
    cases b with
    | nil => simp [strCmpList]
    | cons y t =>
      simp only [strCmpList]
      rcases hxy : charCmp x y with h | h | h
      · left; simp
      · have hyx : charCmp y x = Ordering.eq := by
          rw [charCmp_eq_iff]
          exact (charCmp_eq_iff.mp hxy).symm
        rw [hyx]
        exact ih t
      · have hyx : charCmp y x = Ordering.lt := by
          rw [charCmp_lt_iff]
          exact charCmp_gt_iff.mp hxy
        rw [hyx]
        right; simp

theorem cmpCode_total :
    ∀ a b, cmpCode a b ≠ Ordering.gt ∨ cmpCode b a ≠ Ordering.gt :=
  fun a b => strCmpList_total a.data b.data

theorem cmpCode_trans :
    ∀ a b c, cmpCode a b ≠ Ordering.gt → cmpCode b c ≠ Ordering.gt →
      cmpCode a c ≠ Ordering.gt :=
  fun a b c => strCmpList_ne_gt_trans a.data b.data c.data

theorem filter_some_label (es : List NormalizedEntry) (L : String) :
    es.filter (fun e => (fun e : NormalizedEntry => some e.label) e = some L) =
      es.filter (fun e => e.label = L) := by
  apply List.filter_congr
  intro a _
  simp

theorem merge_eq_group (cmp : String → String → Ordering)
    {arrays : List (List NormalizedEntry)} (h2 : 2 ≤ arrays.length) :
    mergeNormalizedEntries cmp arrays =
      groupEntries cmp (fun e => some e.label) arrays.flatten := by
  match arrays with
  | [] => simp at h2
  | [a] => simp at h2
  | a :: b :: t => rfl

/-- **C2.** `mergeNormalizedEntries` returns `[]` for zero input arrays and
the single array unchanged for exactly one; for two or more arrays the
entries are merged by exact label equality: the output is sorted by label
(under the ambient collation, assumed total and transitive), each output
entry's six numeric fields are the arithmetic sums over the input entries
carrying its label, its `models` is the duplicate-free union of their model
lists, every input label occurs in the output, and with pairwise-disjoint
labels the length is the sum of the input lengths. -/
theorem C2_mergeNormalizedEntries
    (cmp : String → String → Ordering)
    (htot : ∀ a b, cmp a b ≠ Ordering.gt ∨ cmp b a ≠ Ordering.gt)
    (htrans : ∀ a b c, cmp a b ≠ Ordering.gt → cmp b c ≠ Ordering.gt →
      cmp a c ≠ Ordering.gt) :
    mergeNormalizedEntries cmp [] = [] ∧
    (∀ a, mergeNormalizedEntries cmp [a] = a) ∧
    (∀ arrays, 2 ≤ arrays.length →
      ((mergeNormalizedEntries cmp arrays).Pairwise (entryLE cmp)) ∧
      (∀ p ∈ mergeNormalizedEntries cmp arrays,
        p.inputTokens = sumOf (·.inputTokens) p.label arrays.flatten ∧
        p.outputTokens = sumOf (·.outputTokens) p.label arrays.flatten ∧
        p.cacheCreationTokens =
          sumOf (·.cacheCreationTokens) p.label arrays.flatten ∧
        p.cacheReadTokens = sumOf (·.cacheReadTokens) p.label arrays.flatten ∧
        p.totalTokens = sumOf (·.totalTokens) p.label arrays.flatten ∧
        p.cost = sumOf (·.cost) p.label arrays.flatten ∧
        p.models.Nodup ∧
        (∀ m, m ∈ p.models ↔
          ∃ e ∈ arrays.flatten, e.label = p.label ∧ m ∈ e.models)) ∧
      (∀ e ∈ arrays.flatten,
        ∃ p ∈ mergeNormalizedEntries cmp arrays, p.label = e.label) ∧
      ((arrays.flatten.map (·.label)).Nodup →
        (mergeNormalizedEntries cmp arrays).length =
          (arrays.map List.length).sum)) := by
  refine ⟨rfl, fun a => rfl, fun arrays h2 => ⟨?_, ?_, ?_, ?_⟩⟩
  · rw [merge_eq_group cmp h2]
    exact groupEntries_sorted cmp htot htrans _ _
  · intro p hp
    rw [merge_eq_group cmp h2, groupEntries_mem_iff] at hp
    obtain ⟨L, hfl, rfl⟩ := hp
    rw [filter_some_label] at hfl ⊢
    set fl := arrays.flatten.filter (fun e => e.label = L) with hfldef
    have hlab : (finalizePair (L, fl.foldl bucketAdd {})).label = L := rfl
    rw [hlab]
    have hmemfl : ∀ e, e ∈ fl ↔ e ∈ arrays.flatten ∧ e.label = L := by
      intro e
      rw [hfldef, List.mem_filter]
      simp
    refine ⟨?_, ?_, ?_, ?_, ?_, ?_, ?_, ?_⟩
    · show (fl.foldl bucketAdd {}).inputTokens = _
      rw [foldl_bucketAdd_inputTokens, hfldef]
      show (0 : ℚ) + _ = _
      rw [zero_add]
      rfl
    · show (fl.foldl bucketAdd {}).outputTokens = _
      rw [foldl_bucketAdd_outputTokens, hfldef]
      show (0 : ℚ) + _ = _
      rw [zero_add]
      rfl
    · show (fl.foldl bucketAdd {}).cacheCreationTokens = _
      rw [foldl_bucketAdd_cacheCreationTokens, hfldef]
      show (0 : ℚ) + _ = _
      rw [zero_add]
      rfl
    · show (fl.foldl bucketAdd {}).cacheReadTokens = _
      rw [foldl_bucketAdd_cacheReadTokens, hfldef]
      show (0 : ℚ) + _ = _
      rw [zero_add]
      rfl
    · show (fl.foldl bucketAdd {}).totalTokens = _
      rw [foldl_bucketAdd_totalTokens, hfldef]
      show (0 : ℚ) + _ = _
      rw [zero_add]
      rfl
    · show (fl.foldl bucketAdd {}).cost = _
      rw [foldl_bucketAdd_cost, hfldef]
      show (0 : ℚ) + _ = _
      rw [zero_add]
      rfl
    · show (fl.foldl bucketAdd {}).models.Nodup
      rw [foldl_bucketAdd_models]
      exact nodup_foldl_setAdd (by simp [Bucket])
    · intro m
      show m ∈ (fl.foldl bucketAdd {}).models ↔ _
      rw [foldl_bucketAdd_models, mem_foldl_setAdd]
      constructor
      · rintro (hm | hm)
        · simp [Bucket] at hm
        · rw [List.mem_flatten] at hm
          obtain ⟨ms, hms, hmm⟩ := hm
          rw [List.mem_map] at hms
          obtain ⟨e, he, rfl⟩ := hms
          exact ⟨e, (hmemfl e).mp he |>.1, (hmemfl e).mp he |>.2, hmm⟩
      · rintro ⟨e, he, hlab, hmm⟩
        right
        rw [List.mem_flatten]
        exact ⟨e.models, List.mem_map.mpr ⟨e, (hmemfl e).mpr ⟨he, hlab⟩, rfl⟩, hmm⟩
  · intro e he
    rw [merge_eq_group cmp h2]
    have hfl : arrays.flatten.filter
        (fun x => (fun x : NormalizedEntry => some x.label) x = some e.label) ≠
        [] := by
      rw [filter_some_label]
      intro hnil
      have : e ∈ arrays.flatten.filter (fun x => x.label = e.label) :=
        List.mem_filter.mpr ⟨he, by simp⟩
      rw [hnil] at this
      simp at this
    refine ⟨finalizePair (e.label,
      (arrays.flatten.filter
        (fun x => (fun x : NormalizedEntry => some x.label) x =
          some e.label)).foldl bucketAdd {}), ?_, rfl⟩
    rw [groupEntries_mem_iff]
    exact ⟨e.label, hfl, rfl⟩
  · intro hnd
    rw [merge_eq_group cmp h2, groupEntries_length]
    have hmap : ∀ l : List NormalizedEntry,
        l.filterMap (fun e => some e.label) = l.map (·.label) := by
      intro l
      induction l with
      | nil => rfl
      | cons a t ih => simp [List.filterMap_cons, ih]
    rw [hmap, length_foldl_setAdd_fresh hnd (by simp)]
    simp [List.length_flatten, Function.comp_def, List.length_map]

/-! ## Skip-invariance of grouping (entries with a `null` key) -/

theorem foldl_groupStep_filter (k : NormalizedEntry → Option String)
    (es : List NormalizedEntry) (m : List (String × Bucket)) :
    es.foldl (groupStep k) m =
      (es.filter (fun e => (k e).isSome)).foldl (groupStep k) m := by
  induction es generalizing m with
  | nil => rfl
  | cons e es ih =>
    rw [List.foldl_cons, List.filter_cons]
    cases h : k e with
    | none =>
      simp only [h, Option.isSome_none, Bool.false_eq_true, if_neg,
        groupStep]
      exact ih m
    | some v =>
      simp only [h, Option.isSome_some, if_pos, List.foldl_cons, groupStep]
      exact ih (bumpKey m v e)

theorem filter_isSome_idem (k : NormalizedEntry → Option String)
    (es : List NormalizedEntry) :
    (es.filter (fun e => (k e).isSome)).filter (fun e => (k e).isSome) =
      es.filter (fun e => (k e).isSome) := by
  induction es with
  | nil => rfl
  | cons e es ih =>
    rw [List.filter_cons]
    cases h : ((k e).isSome : Bool)
    · rw [if_neg (by simp [h]), ih]
    · rw [if_pos (by simp [h]), List.filter_cons, if_pos (by simp [h]), ih]

theorem groupEntries_filter_isSome (cmp : String → String → Ordering)
    (k : NormalizedEntry → Option String) (es : List NormalizedEntry) :
    groupEntries cmp k es =
      groupEntries cmp k (es.filter (fun e => (k e).isSome)) := by
  unfold groupEntries
  rw [foldl_groupStep_filter k es, foldl_groupStep_filter k (es.filter _),
    filter_isSome_idem]

/-- **C2 witness.** The merge semantics at a concrete two-array input with
disjoint labels. -/
theorem C2_mergeNormalizedEntries_witness :
    (mergeNormalizedEntries cmpCode [[sampleA], [sampleB]]).length =
      ([[sampleA], [sampleB]].map List.length).sum :=
  ((C2_mergeNormalizedEntries cmpCode cmpCode_total cmpCode_trans).2.2
    [[sampleA], [sampleB]] (by decide)).2.2.2 (by decide)

/-- **C4 counterexample.** The claim says `aggregateToMonthly` includes
exactly the entries whose label matches `^\d{4}-\d{2}-\d{2}$` and silently
excludes every other entry.  The code only tests the first seven characters:
the entry labelled `"2025-07x"` matches no `YYYY-MM-DD` pattern yet is
included (its tokens appear in the `"2025-07"` group). -/
theorem C4_counterexample :
    specDayLabel sampleOddLabel.label = false ∧
    (aggregateToMonthly cmpCode [sampleOddLabel]).map (·.label) =
      ["2025-07"] := by
  decide

/-- **C4 (amended).** `aggregateToMonthly` includes exactly those entries
whose first seven label characters match `^\d{4}-\d{2}$`, grouping them by
that seven-character month prefix and silently excluding every other entry
(dropping them changes nothing); the result is sorted ascending by month
label under the ambient collation. -/
theorem C4_aggregateToMonthly (cmp : String → String → Ordering)
    (htot : ∀ a b, cmp a b ≠ Ordering.gt ∨ cmp b a ≠ Ordering.gt)
    (htrans : ∀ a b c, cmp a b ≠ Ordering.gt → cmp b c ≠ Ordering.gt →
      cmp a c ≠ Ordering.gt)
    (es : List NormalizedEntry) :
    aggregateToMonthly cmp es =
      aggregateToMonthly cmp
        (es.filter (fun e => isYearMonth (strTake e.label 7))) ∧
    (∀ p ∈ aggregateToMonthly cmp es,
      isYearMonth p.label = true ∧
      ∃ e ∈ es, strTake e.label 7 = p.label) ∧
    (∀ e ∈ es, isYearMonth (strTake e.label 7) = true →
      ∃ p ∈ aggregateToMonthly cmp es, p.label = strTake e.label 7) ∧
    (aggregateToMonthly cmp es).Pairwise (entryLE cmp) := by
  refine ⟨?_, ?_, ?_, groupEntries_sorted cmp htot htrans _ _⟩
  · rw [aggregateToMonthly, groupEntries_filter_isSome]
    unfold aggregateToMonthly
    congr 1
    apply List.filter_congr
    intro e _
    unfold monthKeyFn
    by_cases h : isYearMonth (strTake e.label 7) <;> simp [h]
  · intro p hp
    rw [aggregateToMonthly, groupEntries_mem_iff] at hp
    obtain ⟨L, hfl, rfl⟩ := hp
    obtain ⟨e, he⟩ := List.exists_mem_of_ne_nil _ hfl
    rw [List.mem_filter] at he
    have hkey : monthKeyFn e = some L := by
      have := he.2
      simpa using this
    unfold monthKeyFn at hkey
    by_cases h : isYearMonth (strTake e.label 7)
    · rw [if_pos h] at hkey
      cases hkey
      exact ⟨h, e, he.1, rfl⟩
    · rw [if_neg h] at hkey
      cases hkey
  · intro e he hym
    have hfl : es.filter (fun x => monthKeyFn x = some (strTake e.label 7)) ≠ [] := by
      intro hnil
      have hmem : e ∈ es.filter (fun x => monthKeyFn x = some (strTake e.label 7)) := by
        rw [List.mem_filter]
        exact ⟨he, by simp [monthKeyFn, hym]⟩
      rw [hnil] at hmem
      simp at hmem
    exact ⟨finalizePair (strTake e.label 7,
        (es.filter (fun x => monthKeyFn x = some (strTake e.label 7))).foldl
          bucketAdd {}),
      (groupEntries_mem_iff cmp monthKeyFn es _).mpr
        ⟨strTake e.label 7, hfl, rfl⟩, rfl⟩

/-- **C4 witness.** The amended inclusion at a concrete input. -/
theorem C4_aggregateToMonthly_witness :
    ∃ p ∈ aggregateToMonthly cmpCode [sampleA], p.label = strTake sampleA.label 7 :=
  (C4_aggregateToMonthly cmpCode cmpCode_total cmpCode_trans
    [sampleA]).2.2.1 sampleA (by simp) (by decide)

/-- **C5 counterexample.** The claim says the output order is fixed by a
locale-independent comparison.  The same input, merged under the two
collations above, produces two different orders, so the output order does
depend on the locale behind `localeCompare`. -/
theorem C5_counterexample :
    (mergeNormalizedEntries cmpEn [[sampleZed], [sampleUmlaut]]).map (·.label) =
        ["ä", "z"] ∧
    (mergeNormalizedEntries cmpSv [[sampleZed], [sampleUmlaut]]).map (·.label) =
        ["z", "ä"] := by
  decide

/-- **C5 (amended).** The outputs of `groupEntries` and (for two or more
arrays) `mergeNormalizedEntries` are sorted ascending by group key under the
ambient `localeCompare` collation — locale-sensitively: adjacent output
entries' keys compare not-greater under whatever total, transitive comparison
the runtime locale provides. -/
theorem C5_sorted_by_ambient_collation (cmp : String → String → Ordering)
    (htot : ∀ a b, cmp a b ≠ Ordering.gt ∨ cmp b a ≠ Ordering.gt)
    (htrans : ∀ a b c, cmp a b ≠ Ordering.gt → cmp b c ≠ Ordering.gt →
      cmp a c ≠ Ordering.gt) :
    (∀ keyFn es, (groupEntries cmp keyFn es).Pairwise (entryLE cmp)) ∧
    (∀ arrays, 2 ≤ arrays.length →
      (mergeNormalizedEntries cmp arrays).Pairwise (entryLE cmp)) := by
  refine ⟨fun keyFn es => groupEntries_sorted cmp htot htrans keyFn es,
    fun arrays h2 => ?_⟩
  rw [merge_eq_group cmp h2]
  exact groupEntries_sorted cmp htot htrans _ _

/-- **C5 witness.** Sortedness at a concrete collation and input. -/
theorem C5_sorted_witness :
    (groupEntries cmpCode (fun e => some e.label)
      [sampleB, sampleA]).Pairwise (entryLE cmpCode) :=
  (C5_sorted_by_ambient_collation cmpCode cmpCode_total cmpCode_trans).1
    (fun e => some e.label) [sampleB, sampleA]

theorem sorted_le_getLast {α : Type} [Preorder α] :
    ∀ (l : List α) (h : l ≠ []), l.Pairwise (· ≤ ·) →
      ∀ x ∈ l, x ≤ l.getLast h
  | [], h => absurd rfl h
  | [a], _ => by
    intro hs x hx
    simp at hx
    subst hx
    simp [List.getLast]
  | a :: b :: u, _ => by
    intro hs x hx
    rw [List.getLast_cons (by simp : (b :: u) ≠ [])]
    rcases List.mem_cons.mp hx with rfl | hxt
    · exact (List.pairwise_cons.mp hs).1 _ (List.getLast_mem _)
    · exact sorted_le_getLast (b :: u) (by simp)
        (List.pairwise_cons.mp hs).2 x hxt

/-- **C7.** `percentile` returns `0` on the empty list and the unique
element on a singleton; for `n ≥ 2` and `p ∈ [0,1]` it interpolates at rank
`p·(n−1)` between the elements at `⌊rank⌋` and `⌈rank⌉` (both indices are
in range); on a nonempty ascending-sorted list, `percentile _ 0` is the
minimum and `percentile _ 1` the maximum. -/
theorem C7_percentile {α : Type} [LinearOrderedField α] [FloorRing α] :
    (∀ p : α, percentile ([] : List α) p = 0) ∧
    (∀ (x : α) (p : α), percentile [x] p = x) ∧
    (∀ (l : List α) (p : α), 2 ≤ l.length → 0 ≤ p → p ≤ 1 →
      ∃ (h1 : (⌊p * ((l.length : α) - 1)⌋).toNat < l.length)
        (h2 : (⌈p * ((l.length : α) - 1)⌉).toNat < l.length),
        percentile l p =
          l.get ⟨(⌊p * ((l.length : α) - 1)⌋).toNat, h1⟩ +
            (p * ((l.length : α) - 1) - (⌊p * ((l.length : α) - 1)⌋ : α)) *
              (l.get ⟨(⌈p * ((l.length : α) - 1)⌉).toNat, h2⟩ -
                l.get ⟨(⌊p * ((l.length : α) - 1)⌋).toNat, h1⟩)) ∧
    (∀ (l : List α) (hl : l ≠ []), l.Pairwise (· ≤ ·) →
      (percentile l 0 ∈ l ∧ ∀ x ∈ l, percentile l 0 ≤ x) ∧
      (percentile l 1 ∈ l ∧ ∀ x ∈ l, x ≤ percentile l 1)) := by
  have hmain : ∀ (l : List α) (p : α), 2 ≤ l.length → 0 ≤ p → p ≤ 1 →
      ∃ (h1 : (⌊p * ((l.length : α) - 1)⌋).toNat < l.length)
        (h2 : (⌈p * ((l.length : α) - 1)⌉).toNat < l.length),
        percentile l p =
          l.get ⟨(⌊p * ((l.length : α) - 1)⌋).toNat, h1⟩ +
            (p * ((l.length : α) - 1) - (⌊p * ((l.length : α) - 1)⌋ : α)) *
              (l.get ⟨(⌈p * ((l.length : α) - 1)⌉).toNat, h2⟩ -
                l.get ⟨(⌊p * ((l.length : α) - 1)⌋).toNat, h1⟩) := by
    intro l p hn hp0 hp1
    have hn0 : l.length ≠ 0 := by omega
    have hn1 : l.length ≠ 1 := by omega
    have hcast : (1 : α) ≤ (l.length : α) := by
      exact_mod_cast Nat.one_le_iff_ne_zero.mpr hn0
    have hrank0 : 0 ≤ p * ((l.length : α) - 1) := by
      apply mul_nonneg hp0
      linarith
    have hrank1 : p * ((l.length : α) - 1) ≤ (l.length : α) - 1 := by
      have hb : (0 : α) ≤ (l.length : α) - 1 := by linarith
      calc p * ((l.length : α) - 1) ≤ 1 * ((l.length : α) - 1) :=
            mul_le_mul_of_nonneg_right hp1 hb
        _ = (l.length : α) - 1 := one_mul _
    have hfl0 : (0 : ℤ) ≤ ⌊p * ((l.length : α) - 1)⌋ :=
      Int.floor_nonneg.mpr hrank0
    have hclt : ⌈p * ((l.length : α) - 1)⌉ ≤ (l.length : ℤ) - 1 := by
      apply Int.ceil_le.mpr
      push_cast
      exact hrank1
    have hflc : ⌊p * ((l.length : α) - 1)⌋ ≤ ⌈p * ((l.length : α) - 1)⌉ :=
      Int.floor_le_ceil _
    have h2 : (⌈p * ((l.length : α) - 1)⌉).toNat < l.length := by omega
    have h1 : (⌊p * ((l.length : α) - 1)⌋).toNat < l.length := by omega
    refine ⟨h1, h2, ?_⟩
    unfold percentile
    rw [if_neg hn0, if_neg hn1,
      List.getD_eq_getElem l 0 h1, List.getD_eq_getElem l 0 h2]
    simp [List.get_eq_getElem]
  refine ⟨fun p => by simp [percentile], fun x p => by simp [percentile],
    hmain, ?_⟩
  intro l hl hs
  have hhead : percentile l 0 = l.headD 0 := by
    match l, hl with
    | [x], _ => simp [percentile]
    | x :: y :: t, _ =>
      obtain ⟨h1, h2, heq⟩ :=
        hmain (x :: y :: t) 0 (by simp) le_rfl zero_le_one
      rw [heq]
      simp
  have hlast : percentile l 1 = l.getLast hl := by
    match l, hl with
    | [x], _ => simp [percentile, List.getLast]
    | x :: y :: t, _ =>
      have hn : 2 ≤ (x :: y :: t).length := by simp
      obtain ⟨h1, h2, heq⟩ :=
        hmain (x :: y :: t) 1 hn zero_le_one le_rfl
      have h1le : 1 ≤ (x :: y :: t).length := by omega
      have hc : (1 : α) * (((x :: y :: t).length : α) - 1) =
          (((x :: y :: t).length - 1 : ℕ) : α) := by
        rw [one_mul, Nat.cast_sub h1le]
        norm_num
      have hfl : ⌊(1 : α) * (((x :: y :: t).length : α) - 1)⌋ =
          ((x :: y :: t).length - 1 : ℕ) := by
        rw [hc, Int.floor_natCast]
      have hfr : (1 : α) * (((x :: y :: t).length : α) - 1) -
          ((⌊(1 : α) * (((x :: y :: t).length : α) - 1)⌋ : ℤ) : α) = 0 := by
        rw [hfl, hc]
        simp
      rw [heq, hfr, zero_mul, add_zero, List.getLast_eq_getElem]
      simp only [List.get_eq_getElem]
      congr 1
      rw [hfl]
      simp
  constructor
  · constructor
    · rw [hhead]
      cases l with
      | nil => exact absurd rfl hl
      | cons a t => simp
    · intro x hx
      rw [hhead]
      cases l with
      | nil => exact absurd rfl hl
      | cons a t =>
        simp only [List.headD_cons]
        rcases List.mem_cons.mp hx with rfl | hxt
        · exact le_refl _
        · exact (List.pairwise_cons.mp hs).1 _ hxt
  · constructor
    · rw [hlast]
      exact List.getLast_mem hl
    · intro x hx
      rw [hlast]
      exact sorted_le_getLast l hl hs x hx

theorem foldl_add_eq_sum {α : Type} [AddCommMonoid α] (l : List α) (a : α) :
    l.foldl (· + ·) a = a + l.sum := by
  induction l generalizing a with
  | nil => simp
  | cons x t ih => simp [ih, add_assoc]

theorem foldl_add_map_eq_sum {α β : Type} [AddCommMonoid β] (f : α → β)
    (l : List α) (a : β) :
    l.foldl (fun s v => s + f v) a = a + (l.map f).sum := by
  induction l generalizing a with
  | nil => simp
  | cons x t ih => simp [ih, add_assoc]

-- (facts about the statistics section)

section Stats

variable {α : Type} [LinearOrderedField α] [FloorRing α] [DecidableEq α]
variable [DecidableRel ((· ≤ ·) : α → α → Prop)]

theorem jsSorted_perm (values : List α) :
    List.Perm (jsSorted values) values :=
  List.perm_insertionSort _ _

theorem statSum_eq (values : List α) : statSum values = values.sum := by
  rw [statSum, foldl_add_eq_sum, zero_add]
  exact (jsSorted_perm values).sum_eq

theorem statMean_eq (values : List α) : statMean values = listMean values := by
  rw [statMean, statSum_eq, listMean]

theorem statSumSq_eq (values : List α) :
    statSumSq values =
      (values.map (fun v => (v - listMean values) ^ 2)).sum := by
  rw [statSumSq, foldl_add_map_eq_sum, zero_add]
  have hperm := (jsSorted_perm values).map
    (fun v => (v - statMean values) * (v - statMean values))
  rw [hperm.sum_eq]
  congr 1
  apply List.map_congr_left
  intro v _
  rw [statMean_eq]
  ring

/-- **C6.** `computeStats` on the empty list returns all-zero fields except
`coefficientOfVariation` and `skewness`, which are NaN (`none`); on nonempty
input the variance under the square root uses the sample `n−1` denominator
and is `0` for `n ≤ 1`; `coefficientOfVariation = stddev/mean`, NaN exactly
when the mean is `0`; `skewness` is NaN exactly when `n < 3` or the standard
deviation is `0`, and otherwise equals the bias-corrected Fisher–Pearson
estimator `(n²/((n−1)(n−2))) · m₃ / s³` with `m₃ = Σ(v−mean)³/n`. -/
theorem C6_computeStats (sqrt : α → α) (hs0 : sqrt 0 = 0) :
    computeStatsWith sqrt ([] : List α) =
      { count := 0, min := 0, max := 0, sum := 0, mean := 0, median := 0
        standardDeviation := 0, coefficientOfVariation := none
        skewness := none, p25 := 0, p75 := 0, p90 := 0, p95 := 0, p99 := 0
        iqr := 0 } ∧
    (∀ values : List α, values ≠ [] →
      (1 < values.length →
        (computeStatsWith sqrt values).standardDeviation =
          sqrt ((values.map (fun v => (v - listMean values) ^ 2)).sum /
            ((values.length : α) - 1))) ∧
      (values.length = 1 →
        (computeStatsWith sqrt values).standardDeviation = 0) ∧
      ((computeStatsWith sqrt values).coefficientOfVariation = none ↔
        listMean values = 0) ∧
      (listMean values ≠ 0 →
        (computeStatsWith sqrt values).coefficientOfVariation =
          some ((computeStatsWith sqrt values).standardDeviation /
            listMean values)) ∧
      ((computeStatsWith sqrt values).skewness = none ↔
        values.length < 3 ∨
          (computeStatsWith sqrt values).standardDeviation = 0) ∧
      (3 ≤ values.length →
        (computeStatsWith sqrt values).standardDeviation ≠ 0 →
        (computeStatsWith sqrt values).skewness =
          some (((values.length : α) ^ 2 /
              (((values.length : α) - 1) * ((values.length : α) - 2))) *
            ((values.map (fun v => (v - listMean values) ^ 3)).sum /
              (values.length : α)) /
            (computeStatsWith sqrt values).standardDeviation ^ 3))) := by
  constructor
  · rfl
  intro values hne
  have hlen0 : ¬(values.length = 0) := by
    have := List.length_pos.mpr hne
    omega
  have hsd : (computeStatsWith sqrt values).standardDeviation =
      statSD sqrt values := by
    simp [computeStatsWith, hlen0]
  have hcv : (computeStatsWith sqrt values).coefficientOfVariation =
      (if statMean values ≠ 0 then
        some (statSD sqrt values / statMean values)
      else none) := by
    simp only [computeStatsWith, if_neg hlen0]
  have hsk : (computeStatsWith sqrt values).skewness =
      (if values.length < 3 ∨ statSD sqrt values = 0 then none
        else some (statSkew sqrt values)) := by
    simp only [computeStatsWith, if_neg hlen0]
  refine ⟨?_, ?_, ?_, ?_, ?_, ?_⟩
  · intro h1
    rw [hsd, statSD, statVariance, if_pos h1, statSumSq_eq]
  · intro h1
    rw [hsd, statSD, statVariance, if_neg (by omega), hs0]
  · rw [hcv, ← statMean_eq]
    by_cases hm : statMean values = 0 <;> simp [hm]
  · intro hm
    rw [← statMean_eq] at hm
    rw [hcv, if_pos hm, hsd, statMean_eq]
  · rw [hsk, hsd]
    by_cases hc : values.length < 3 ∨ statSD sqrt values = 0 <;> simp [hc]
  · intro h3 hsd0
    rw [hsd] at hsd0
    rw [hsk, if_neg (by push_neg; exact ⟨by omega, hsd0⟩), hsd]
    congr 1
    rw [statSkew]
    have hfold : (jsSorted values).foldl
        (fun s v =>
          s + ((v - statMean values) / statSD sqrt values) *
              ((v - statMean values) / statSD sqrt values) *
              ((v - statMean values) / statSD sqrt values)) 0 =
        ((values.map (fun v => (v - listMean values) ^ 3)).sum /
          statSD sqrt values ^ 3) := by
      rw [foldl_add_map_eq_sum, zero_add]
      have hperm := (jsSorted_perm values).map
        (fun v =>
          ((v - statMean values) / statSD sqrt values) *
            ((v - statMean values) / statSD sqrt values) *
            ((v - statMean values) / statSD sqrt values))
      rw [hperm.sum_eq]
      have hpt : ∀ v : α,
          ((v - statMean values) / statSD sqrt values) *
            ((v - statMean values) / statSD sqrt values) *
            ((v - statMean values) / statSD sqrt values) =
          (v - listMean values) ^ 3 * (statSD sqrt values ^ 3)⁻¹ := by
        intro v
        rw [statMean_eq, div_eq_mul_inv]
        rw [show ((statSD sqrt values) ^ 3)⁻¹ =
          (statSD sqrt values)⁻¹ * (statSD sqrt values)⁻¹ *
            (statSD sqrt values)⁻¹ by
            rw [pow_succ, pow_succ, pow_one, mul_inv, mul_inv]]
        ring
      rw [List.map_congr_left (fun v _ => hpt v)]
      rw [div_eq_mul_inv, ← List.sum_map_mul_right]
    rw [hfold]
    have hn0 : (values.length : α) ≠ 0 := by
      exact_mod_cast hlen0
    by_cases hD : ((values.length : α) - 1) * ((values.length : α) - 2) = 0
    · rw [hD]
      simp
    · field_simp
      ring

end Stats

/-- **C6 witness.** The sample-variance denominator at a concrete input. -/
theorem C6_computeStats_witness :
    (computeStatsWith wSqrt ([0, 2, 4] : List ℚ)).standardDeviation =
      wSqrt ((([0, 2, 4] : List ℚ).map
          (fun v => (v - listMean [0, 2, 4]) ^ 2)).sum /
        ((([0, 2, 4] : List ℚ).length : ℚ) - 1)) :=
  ((C6_computeStats wSqrt (by simp [wSqrt])).2 [0, 2, 4]
    (by simp)).1 (by simp)

/-- **C7 witness.** Boundary percentiles at a concrete sorted list. -/
theorem C7_percentile_witness :
    (percentile ([1, 3] : List ℚ) 0 ∈ [1, 3] ∧
      ∀ x ∈ ([1, 3] : List ℚ), percentile ([1, 3] : List ℚ) 0 ≤ x) ∧
    (percentile ([1, 3] : List ℚ) 1 ∈ [1, 3] ∧
      ∀ x ∈ ([1, 3] : List ℚ), x ≤ percentile ([1, 3] : List ℚ) 1) :=
  C7_percentile.2.2.2 [1, 3] (by simp)
    (by norm_num [List.pairwise_cons])

theorem breakdown_foldl (bds : List ModelBreakdown)
    (a : CostByTokenType × Bool) :
    bds.foldl breakdownStep a =
      ({ inputCost := a.1.inputCost +
            (bds.map (mbContribution (·.input) (·.inputTokens))).sum
         outputCost := a.1.outputCost +
            (bds.map (mbContribution (·.output) (·.outputTokens))).sum
         cacheWriteCost := a.1.cacheWriteCost +
            (bds.map (mbContribution (·.cacheWrite) (·.cacheCreationTokens))).sum
         cacheReadCost := a.1.cacheReadCost +
            (bds.map (mbContribution (·.cacheRead) (·.cacheReadTokens))).sum },
       a.2 || bds.any (fun mb => (getTokenPricing mb.modelName).isSome)) := by
  induction bds generalizing a with
  | nil => simp
  | cons mb rest ih =>
    rw [List.foldl_cons, ih]
    simp only [List.map_cons, List.sum_cons, List.any_cons]
    cases h : getTokenPricing mb.modelName with
    | none =>
      simp [breakdownStep, mbContribution, h]
    | some pricing =>
      simp only [breakdownStep, mbContribution, h, Option.isSome_some,
        Bool.true_or, Bool.or_true]
      refine Prod.ext_iff.mpr ⟨?_, rfl⟩
      simp only [CostByTokenType.mk.injEq]
      refine ⟨by ring, by ring, by ring, by ring⟩

theorem breakdownCost_eq (bds : List ModelBreakdown) :
    breakdownCost bds =
      if bds.any (fun mb => (getTokenPricing mb.modelName).isSome) then
        some
          { inputCost :=
              (bds.map (mbContribution (·.input) (·.inputTokens))).sum
            outputCost :=
              (bds.map (mbContribution (·.output) (·.outputTokens))).sum
            cacheWriteCost :=
              (bds.map (mbContribution (·.cacheWrite) (·.cacheCreationTokens))).sum
            cacheReadCost :=
              (bds.map (mbContribution (·.cacheRead) (·.cacheReadTokens))).sum }
      else none := by
  rw [breakdownCost, breakdown_foldl]
  cases h : bds.any (fun mb => (getTokenPricing mb.modelName).isSome) <;>
    simp [h]

/-- **C9.** `calculateCostByTokenType` returns `null` exactly when either the
entry has a nonempty breakdown list none of whose models has known pricing,
or it has no (or an empty) breakdown list and its models list is not exactly
one model with known pricing; otherwise each cost category is the sum over
the priced breakdown models (respectively the single priced model) of
`tokens × price / 1,000,000`, unpriced models contributing zero. -/
theorem C9_calculateCostByTokenType (entry : NormalizedEntry) :
    (calculateCostByTokenType entry = none ↔
      ((∃ bds, entry.modelBreakdowns = some bds ∧ 0 < bds.length ∧
          ∀ mb ∈ bds, getTokenPricing mb.modelName = none) ∨
        ((entry.modelBreakdowns = none ∨ entry.modelBreakdowns = some []) ∧
          ¬∃ m p, entry.models = [m] ∧ getTokenPricing m = some p))) ∧
    (∀ bds, entry.modelBreakdowns = some bds → 0 < bds.length →
      (∃ mb ∈ bds, getTokenPricing mb.modelName ≠ none) →
      calculateCostByTokenType entry = some
        { inputCost := (bds.map (mbContribution (·.input) (·.inputTokens))).sum
          outputCost :=
            (bds.map (mbContribution (·.output) (·.outputTokens))).sum
          cacheWriteCost :=
            (bds.map (mbContribution (·.cacheWrite) (·.cacheCreationTokens))).sum
          cacheReadCost :=
            (bds.map (mbContribution (·.cacheRead) (·.cacheReadTokens))).sum }) ∧
    (∀ m p, (entry.modelBreakdowns = none ∨ entry.modelBreakdowns = some []) →
      entry.models = [m] → getTokenPricing m = some p →
      calculateCostByTokenType entry = some
        { inputCost := entry.inputTokens * p.input / 1000000
          outputCost := entry.outputTokens * p.output / 1000000
          cacheWriteCost := entry.cacheCreationTokens * p.cacheWrite / 1000000
          cacheReadCost := entry.cacheReadTokens * p.cacheRead / 1000000 }) := by
  have hfm : costFromModels entry = none ↔
      ¬∃ m p, entry.models = [m] ∧ getTokenPricing m = some p := by
    rw [costFromModels]
    match hm : entry.models with
    | [] => simp
    | [m] =>
      cases hp : getTokenPricing m with
      | none => simp [hp]
      | some pricing => simp [hp]
    | m :: m2 :: rest => simp
  refine ⟨?_, ?_, ?_⟩
  · rw [calculateCostByTokenType]
    cases hbd : entry.modelBreakdowns with
    | none =>
      simp only [hbd]
      rw [hfm]
      constructor
      · intro h
        exact Or.inr ⟨by simp, h⟩
      · rintro (⟨bds, hb, _⟩ | ⟨_, h⟩)
        · exact absurd hb (by simp)
        · exact h
    | some bds =>
      simp only [hbd]
      by_cases hlen : 0 < bds.length
      · rw [if_pos hlen, breakdownCost_eq]
        constructor
        · intro h
          left
          refine ⟨bds, rfl, hlen, ?_⟩
          by_contra hc
          push_neg at hc
          obtain ⟨mb, hmb, hp⟩ := hc
          have : bds.any (fun mb => (getTokenPricing mb.modelName).isSome) =
              true := by
            rw [List.any_eq_true]
            exact ⟨mb, hmb, by simp [Option.isSome_iff_ne_none, hp]⟩
          rw [if_pos this] at h
          exact Option.some_ne_none _ h
        · rintro (⟨bds', hb, _, hall⟩ | ⟨hc, _⟩)
          · cases hb
            have hnone : bds.any
                (fun mb => (getTokenPricing mb.modelName).isSome) = false := by
              rw [List.any_eq_false]
              intro mb hmb
              simp [hall mb hmb]
            rw [if_neg (by simp [hnone])]
          · rcases hc with hc | hc
            · exact absurd hc (by simp)
            · rw [Option.some.injEq] at hc
              subst hc
              simp at hlen
      · have hbds : bds = [] := by
          cases bds with
          | nil => rfl
          | cons x t => simp at hlen
        subst hbds
        rw [if_neg hlen, hfm]
        constructor
        · intro h
          exact Or.inr ⟨by simp, h⟩
        · rintro (⟨bds', hb, hlen', _⟩ | ⟨_, h⟩)
          · rw [Option.some.injEq] at hb
            subst hb
            simp at hlen'
          · exact h
  · intro bds hbd hlen hpriced
    simp only [calculateCostByTokenType, hbd]
    rw [if_pos hlen, breakdownCost_eq, if_pos]
    rw [List.any_eq_true]
    obtain ⟨mb, hmb, hp⟩ := hpriced
    exact ⟨mb, hmb, by simpa [Option.isSome_iff_ne_none] using hp⟩
  · intro m p hbd hm hp
    have hfm2 : costFromModels entry = some
        { inputCost := entry.inputTokens * p.input / 1000000
          outputCost := entry.outputTokens * p.output / 1000000
          cacheWriteCost := entry.cacheCreationTokens * p.cacheWrite / 1000000
          cacheReadCost := entry.cacheReadTokens * p.cacheRead / 1000000 } := by
      simp only [costFromModels, hm]
      rw [hp]
      rfl
    rcases hbd with hbd | hbd
    · simp only [calculateCostByTokenType, hbd]
      exact hfm2
    · simp only [calculateCostByTokenType, hbd]
      rw [if_neg (by simp)]
      exact hfm2

/-- **C9 witness.** The breakdown branch prices a concrete entry. -/
theorem C9_calculateCostByTokenType_witness :
    calculateCostByTokenType samplePricedEntry = some
      { inputCost :=
          ([sampleMB].map (mbContribution (·.input) (·.inputTokens))).sum
        outputCost :=
          ([sampleMB].map (mbContribution (·.output) (·.outputTokens))).sum
        cacheWriteCost :=
          ([sampleMB].map
            (mbContribution (·.cacheWrite) (·.cacheCreationTokens))).sum
        cacheReadCost :=
          ([sampleMB].map
            (mbContribution (·.cacheRead) (·.cacheReadTokens))).sum } :=
  (C9_calculateCostByTokenType samplePricedEntry).2.1 [sampleMB] rfl
    (by simp) ⟨sampleMB, by simp, by decide⟩

/-- **C8.** For every blocks report: `normalizeEntries` keeps exactly the
non-gap blocks (dropping gap blocks changes nothing, and the output is the
image of the non-gap blocks); `normalizeTotals` never reads the report's
own totals object and equals the per-field sums over the non-gap blocks;
and the concrete three-block report with one gap block yields exactly two
entries. -/
theorem C8_blocks_normalization (env : NormEnv) (bs : List BlockEntry)
    (t1 t2 : List (String × String)) :
    (normalizeEntries env (ReportData.blocks bs t1)).length =
      (bs.filter (fun e => !e.isGap)).length ∧
    normalizeEntries env (ReportData.blocks bs t1) =
      normalizeEntries env
        (ReportData.blocks (bs.filter (fun e => !e.isGap)) t1) ∧
    (∀ p ∈ normalizeEntries env (ReportData.blocks bs t1),
      ∃ b ∈ bs, b.isGap = false ∧ p = blockToNormalized env b) ∧
    normalizeTotals (ReportData.blocks bs t1) =
      normalizeTotals (ReportData.blocks bs t2) ∧
    normalizeTotals (ReportData.blocks bs t1) =
      { inputTokens :=
          ((bs.filter (fun e => !e.isGap)).map
            (·.tokenCounts.inputTokens)).sum
        outputTokens :=
          ((bs.filter (fun e => !e.isGap)).map
            (·.tokenCounts.outputTokens)).sum
        cacheCreationTokens :=
          ((bs.filter (fun e => !e.isGap)).map
            (·.tokenCounts.cacheCreationInputTokens)).sum
        cacheReadTokens :=
          ((bs.filter (fun e => !e.isGap)).map
            (·.tokenCounts.cacheReadInputTokens)).sum
        totalTokens :=
          ((bs.filter (fun e => !e.isGap)).map (·.totalTokens)).sum
        totalCost :=
          ((bs.filter (fun e => !e.isGap)).map (·.costUSD)).sum } ∧
    (normalizeEntries sampleEnv (ReportData.blocks
      [sampleBlock "a" false 1, sampleBlock "b" true 2,
        sampleBlock "c" false 3] [])).length = 2 := by
  refine ⟨by simp [normalizeEntries], ?_, ?_, rfl, ?_, by decide⟩
  · simp only [normalizeEntries]
    congr 1
    rw [List.filter_filter]
    apply List.filter_congr
    intro b _
    cases b.isGap <;> simp
  · intro p hp
    simp only [normalizeEntries, List.mem_map] at hp
    obtain ⟨b, hb, rfl⟩ := hp
    rw [List.mem_filter] at hb
    refine ⟨b, hb.1, ?_, rfl⟩
    have := hb.2
    cases h : b.isGap
    · rfl
    · rw [h] at this
      simp at this
  · simp only [normalizeTotals]
    congr 1 <;>
      rw [foldl_add_map_eq_sum, zero_add]

theorem lookupIdx_mem :
    ∀ {mm : List (String × Nat)} {key : String} {v : Nat},
      lookupIdx mm key = some v → (key, v) ∈ mm
  | [], _, _, hl => by simp [lookupIdx] at hl
  | (k, w) :: rest, key, v, hl => by
    by_cases hk : k = key
    · subst hk
      have hw : w = v := by simpa [lookupIdx] using hl
      subst hw
      exact List.mem_cons_self _ _
    · simp only [lookupIdx, if_neg hk] at hl
      exact List.mem_cons_of_mem _ (lookupIdx_mem hl)

theorem hMergeStep_frame {n : Nat}
    {st : List ModelBreakdown × List (String × Nat)} {r : Nat}
    (hmm : MMFresh n st.2) (hlen : n ≤ st.1.length) :
    MMFresh n (hMergeStep st r).2 ∧ n ≤ (hMergeStep st r).1.length ∧
      ∀ i < n, (hMergeStep st r).1.get? i = st.1.get? i := by
  unfold hMergeStep
  split
  case _ e hl =>
    have he : n ≤ e := hmm _ (lookupIdx_mem hl)
    refine ⟨hmm, by simpa using hlen, ?_⟩
    intro i hi
    apply List.get?_set_ne
    omega
  case _ hl =>
    refine ⟨?_, ?_, ?_⟩
    · intro p hp
      rcases List.mem_append.mp hp with hp | hp
      · exact hmm p hp
      · simp at hp
        subst hp
        simpa using hlen
    · simp
      omega
    · intro i hi
      rw [List.get?_append]
      omega

theorem hMergeFold_frame {n : Nat} (rs : List Nat)
    (st : List ModelBreakdown × List (String × Nat))
    (hmm : MMFresh n st.2) (hlen : n ≤ st.1.length) :
    MMFresh n (rs.foldl hMergeStep st).2 ∧
      n ≤ (rs.foldl hMergeStep st).1.length ∧
      ∀ i < n, (rs.foldl hMergeStep st).1.get? i = st.1.get? i := by
  induction rs generalizing st with
  | nil => exact ⟨hmm, hlen, fun _ _ => rfl⟩
  | cons r rs ih =>
    obtain ⟨h1, h2, h3⟩ := hMergeStep_frame (r := r) hmm hlen
    obtain ⟨g1, g2, g3⟩ := ih (hMergeStep st r) h1 h2
    exact ⟨g1, g2, fun i hi => (g3 i hi).trans (h3 i hi)⟩

theorem hMergeBreakdowns_frame {n : Nat} (h : List ModelBreakdown)
    (mm : List (String × Nat)) (refs : Option (List Nat))
    (hmm : MMFresh n mm) (hlen : n ≤ h.length) :
    MMFresh n (hMergeBreakdowns h mm refs).2 ∧
      n ≤ (hMergeBreakdowns h mm refs).1.length ∧
      ∀ i < n, (hMergeBreakdowns h mm refs).1.get? i = h.get? i := by
  cases refs with
  | none => exact ⟨hmm, hlen, fun _ _ => rfl⟩
  | some rs => exact hMergeFold_frame rs (h, mm) hmm hlen

theorem lookupMM_fresh {n : Nat} {m : List (String × List (String × Nat))}
    {k : String} (hm : MFresh n m) :
    MMFresh n ((lookupMM m k).getD []) := by
  induction m with
  | nil => simp [lookupMM, MMFresh]
  | cons p rest ih =>
    obtain ⟨k', v⟩ := p
    by_cases hk : k' = k
    · subst hk
      simpa [lookupMM] using hm _ (List.mem_cons_self _ _)
    · simp only [lookupMM, if_neg hk]
      exact ih fun q hq => hm q (List.mem_cons_of_mem _ hq)

theorem setMM_fresh {n : Nat} {m : List (String × List (String × Nat))}
    {k : String} {v : List (String × Nat)} (hm : MFresh n m)
    (hv : MMFresh n v) : MFresh n (setMM m k v) := by
  induction m with
  | nil =>
    intro p hp
    simp [setMM] at hp
    subst hp
    exact hv
  | cons q rest ih =>
    obtain ⟨k', v'⟩ := q
    by_cases hk : k' = k
    · subst hk
      intro p hp
      simp only [setMM, if_pos rfl] at hp
      rcases List.mem_cons.mp hp with rfl | hp
      · exact hv
      · exact hm p (List.mem_cons_of_mem _ hp)
    · intro p hp
      simp only [setMM, if_neg hk] at hp
      rcases List.mem_cons.mp hp with rfl | hp
      · exact hm _ (List.mem_cons_self _ _)
      · exact ih (fun q hq => hm q (List.mem_cons_of_mem _ hq)) p hp

theorem hGroupFold_frame {n : Nat} (keyFn : HEntry → Option String)
    (es : List HEntry)
    (st : List ModelBreakdown × List (String × List (String × Nat)))
    (hm : MFresh n st.2) (hlen : n ≤ st.1.length) :
    MFresh n (es.foldl (hGroupStep keyFn) st).2 ∧
      n ≤ (es.foldl (hGroupStep keyFn) st).1.length ∧
      ∀ i < n, (es.foldl (hGroupStep keyFn) st).1.get? i = st.1.get? i := by
  induction es generalizing st with
  | nil => exact ⟨hm, hlen, fun _ _ => rfl⟩
  | cons e es ih =>
    rw [List.foldl_cons]
    have hstep : MFresh n (hGroupStep keyFn st e).2 ∧
        n ≤ (hGroupStep keyFn st e).1.length ∧
        ∀ i < n, (hGroupStep keyFn st e).1.get? i = st.1.get? i := by
      unfold hGroupStep
      cases hk : keyFn e with
      | none => exact ⟨hm, hlen, fun _ _ => rfl⟩
      | some k =>
        obtain ⟨m1, m2, m3⟩ := hMergeBreakdowns_frame st.1
          ((lookupMM st.2 k).getD []) e.modelBreakdowns
          (lookupMM_fresh hm) hlen
        exact ⟨setMM_fresh hm m1, m2, m3⟩
    obtain ⟨h1, h2, h3⟩ := hstep
    obtain ⟨g1, g2, g3⟩ := ih (hGroupStep keyFn st e) h1 h2
    exact ⟨g1, g2, fun i hi => (g3 i hi).trans (h3 i hi)⟩

/-- **C10.** The grouping/merging primitives never mutate their inputs: in
the heap model, after `groupEntries`, `mergeNormalizedEntries` or
`aggregateModelBreakdowns`, every heap cell that existed before the call —
in particular every `ModelBreakdown` record referenced by the input entries
— still holds its original value (only fresh spread-copies are ever
updated), and `computeStats` returns its heap untouched. -/
theorem C10_no_mutation :
    (∀ (keyFn : HEntry → Option String) (h : List ModelBreakdown)
      (es : List HEntry) (i : Nat), i < h.length →
      (hGroupEntries keyFn h es).1.get? i = h.get? i) ∧
    (∀ (h : List ModelBreakdown) (arrays : List (List HEntry)) (i : Nat),
      i < h.length →
      (hMergeNormalizedEntries h arrays).1.get? i = h.get? i) ∧
    (∀ (h : List ModelBreakdown) (es : List HEntry) (i : Nat),
      i < h.length →
      (hAggregateModelBreakdowns h es).1.get? i = h.get? i) ∧
    (∀ (sqrt : ℚ → ℚ) (heap : List (List ℚ)) (r : Nat),
      (computeStatsHeap sqrt heap r).1 = heap) := by
  have hgrp : ∀ (keyFn : HEntry → Option String) (h : List ModelBreakdown)
      (es : List HEntry) (i : Nat), i < h.length →
      (hGroupEntries keyFn h es).1.get? i = h.get? i := by
    intro keyFn h es i hi
    exact (hGroupFold_frame keyFn es (h, []) (by simp [MFresh]) le_rfl).2.2 i hi
  refine ⟨hgrp, ?_, ?_, fun _ _ _ => rfl⟩
  · intro h arrays i hi
    match arrays with
    | [] => rfl
    | [a] => rfl
    | a :: b :: t => exact hgrp _ h _ i hi
  · intro h es i hi
    have hagg : ∀ (n : Nat) (es : List HEntry)
        (st : List ModelBreakdown × List (String × Nat)),
        MMFresh n st.2 → n ≤ st.1.length →
        MMFresh n (es.foldl
          (fun st e => hMergeBreakdowns st.1 st.2 e.modelBreakdowns) st).2 ∧
        n ≤ (es.foldl
          (fun st e => hMergeBreakdowns st.1 st.2 e.modelBreakdowns) st).1.length ∧
        ∀ i < n, (es.foldl
          (fun st e => hMergeBreakdowns st.1 st.2 e.modelBreakdowns) st).1.get? i =
            st.1.get? i := by
      intro n es
      induction es with
      | nil => exact fun st hmm hlen => ⟨hmm, hlen, fun _ _ => rfl⟩
      | cons e es ih =>
        intro st hmm hlen
        rw [List.foldl_cons]
        obtain ⟨m1, m2, m3⟩ :=
          hMergeBreakdowns_frame st.1 st.2 e.modelBreakdowns hmm hlen
        obtain ⟨g1, g2, g3⟩ := ih _ m1 m2
        exact ⟨g1, g2, fun i hi => (g3 i hi).trans (m3 i hi)⟩
    exact (hagg h.length es (h, []) (by simp [MMFresh]) le_rfl).2.2 i hi

/-- **C10 witness.** A grouped entry referencing heap cell 0 leaves that
cell untouched. -/
theorem C10_no_mutation_witness :
    (hGroupEntries (fun e => some e.label) [sampleMB]
      [⟨"a", [], some [0]⟩]).1.get? 0 = [sampleMB].get? 0 :=
  C10_no_mutation.1 (fun e => some e.label) [sampleMB]
    [⟨"a", [], some [0]⟩] 0 (by decide)

/-! ### Digit and numeral lemmas -/

theorem charOfNat_toNat {n : Nat} (h : n.isValidChar) :
    (Char.ofNat n).toNat = n := by
  rw [Char.ofNat, dif_pos h]
  simp only [Char.ofNatAux, Char.toNat, UInt32.toNat]
  exact BitVec.toNat_ofNatLt _ _

theorem digitCharNat_toNat {n : Nat} (h : n < 10) :
    (Char.ofNat (48 + n)).toNat = 48 + n :=
  charOfNat_toNat (Or.inl (by omega))

theorem digitCharNat_isDigit {n : Nat} (h : n < 10) :
    (Char.ofNat (48 + n)).isDigit = true := by
  have ht : (Char.ofNat (48 + n)).toNat = 48 + n := digitCharNat_toNat h
  simp only [Char.isDigit, Bool.and_eq_true, decide_eq_true_eq, ge_iff_le]
  rw [UInt32.le_def, UInt32.le_def]
  show (48 : UInt32).toNat ≤ (Char.ofNat (48 + n)).val.toNat ∧
    (Char.ofNat (48 + n)).val.toNat ≤ (57 : UInt32).toNat
  have hv : (Char.ofNat (48 + n)).val.toNat = 48 + n := ht
  rw [hv, show (48 : UInt32).toNat = 48 from rfl,
    show (57 : UInt32).toNat = 57 from rfl]
  omega

theorem dfin_digitChar (d : Fin 10) : dfin (digitChar d) = d := by
  revert d; decide

theorem digitChar_isDigit (d : Fin 10) : (digitChar d).isDigit = true := by
  revert d; decide

theorem map_dfin_digitChar (ds : List (Fin 10)) :
    (ds.map digitChar).map dfin = ds := by
  induction ds with
  | nil => rfl
  | cons d ds ih => simp [ih, dfin_digitChar]

theorem digitsVal_append_single (xs : List Char) (c : Char) :
    digitsVal (xs ++ [c]) = digitsVal xs * 10 + (c.toNat - 48) := by
  simp [digitsVal, List.foldl_append]

theorem natToDigitsAux_spec :
    ∀ fuel n, n + 1 ≤ fuel →
      natToDigitsAux fuel n ≠ [] ∧
      (∀ c ∈ natToDigitsAux fuel n, c.isDigit = true) ∧
      digitsVal (natToDigitsAux fuel n).reverse = n ∧
      (1 ≤ n → (natToDigitsAux fuel n).getLast? ≠ some '0') := by
  intro fuel
  induction fuel with
  | zero => omega
  | succ f ih =>
    intro n hn
    by_cases h10 : n < 10
    · rw [natToDigitsAux, if_pos h10]
      refine ⟨by simp, ?_, ?_, ?_⟩
      · intro c hc
        simp at hc
        subst hc
        exact digitCharNat_isDigit h10
      · simp [digitsVal, digitCharNat_toNat h10]
      · intro h1
        simp only [List.getLast?_singleton, ne_eq, Option.some.injEq]
        intro hc
        have hct := congrArg Char.toNat hc
        rw [digitCharNat_toNat h10] at hct
        have : ('0' : Char).toNat = 48 := rfl
        omega
    · rw [natToDigitsAux, if_neg h10]
      have hd : n / 10 + 1 ≤ f := by
        have := Nat.div_lt_self (by omega : 0 < n) (by omega : 1 < 10)
        omega
      obtain ⟨ine, idig, ival, ilast⟩ := ih (n / 10) hd
      have hmod : n % 10 < 10 := Nat.mod_lt _ (by omega)
      refine ⟨by simp, ?_, ?_, ?_⟩
      · intro c hc
        rcases List.mem_cons.mp hc with rfl | hc
        · exact digitCharNat_isDigit hmod
        · exact idig c hc
      · rw [List.reverse_cons, digitsVal_append_single, ival,
          digitCharNat_toNat hmod]
        omega
      · intro _
        obtain ⟨x, xs, hx⟩ := List.exists_cons_of_ne_nil ine
        rw [hx, List.getLast?_cons_cons, ← hx]
        refine ilast ?_
        rw [Nat.one_le_div_iff (by omega : 0 < 10)]
        omega

theorem natToDigits_spec (n : Nat) :
    natToDigits n ≠ [] ∧
    (∀ c ∈ natToDigits n, c.isDigit = true) ∧
    digitsVal (natToDigits n) = n ∧
    (10 ≤ n → (natToDigits n).head? ≠ some '0') := by
  obtain ⟨hne, hdig, hval, hlast⟩ := natToDigitsAux_spec (n + 1) n le_rfl
  rw [natToDigits, natToDigitsRev]
  refine ⟨by simpa using hne, ?_, hval, ?_⟩
  · intro c hc
    exact hdig c (List.mem_reverse.mp hc)
  · intro h10
    rw [List.head?_reverse]
    exact hlast (by omega)

/-! ### Scanning helpers for the round-trip proofs -/

theorem takeWhile_append_all (p : Char → Bool) (xs ys : List Char)
    (h : ∀ x ∈ xs, p x = true) :
    (xs ++ ys).takeWhile p = xs ++ ys.takeWhile p := by
  induction xs with
  | nil => simp
  | cons a l ih =>
    simp only [List.cons_append, List.takeWhile_cons, h a (by simp)]
    simp [ih (fun x hx => h x (by simp [hx]))]

theorem dropWhile_append_all (p : Char → Bool) (xs ys : List Char)
    (h : ∀ x ∈ xs, p x = true) :
    (xs ++ ys).dropWhile p = ys.dropWhile p := by
  induction xs with
  | nil => simp
  | cons a l ih =>
    simp only [List.cons_append, List.dropWhile_cons, h a (by simp)]
    simp [ih (fun x hx => h x (by simp [hx]))]

theorem takeWhile_nil_of_head (p : Char → Bool) (a : Char) (l : List Char)
    (h : p a = false) : (a :: l).takeWhile p = [] := by
  simp [List.takeWhile_cons, h]

theorem dropWhile_cons_of_head (p : Char → Bool) (a : Char) (l : List Char)
    (h : p a = false) : (a :: l).dropWhile p = a :: l := by
  simp [List.dropWhile_cons, h]

theorem isDigit_bounds {c : Char} (h : c.isDigit = true) :
    48 ≤ c.toNat ∧ c.toNat ≤ 57 := by
  simp only [Char.isDigit, Bool.and_eq_true, decide_eq_true_eq, ge_iff_le] at h
  rw [UInt32.le_def, UInt32.le_def] at h
  exact h

theorem ne_of_toNat_ne {c d : Char} (h : c.toNat ≠ d.toNat) : c ≠ d :=
  fun he => h (congrArg Char.toNat he)

theorem jsonWS_eq_false_of_ge {c : Char} (h : 33 ≤ c.toNat) :
    jsonWS c = false := by
  simp only [jsonWS, Bool.or_eq_false_iff, beq_eq_false_iff_ne]
  refine ⟨⟨⟨?_, ?_⟩, ?_⟩, ?_⟩ <;>
    (intro he; subst he; exact absurd h (by decide))

theorem skipWS_cons_of_not_ws {c : Char} (h : jsonWS c = false)
    (l : List Char) : skipWS (c :: l) = c :: l := by
  simp [skipWS, List.dropWhile_cons, h]

theorem delimHead_cases {cs : List Char} (h : delimHead cs = true) :
    cs = [] ∨ ∃ r, cs = ',' :: r ∨ cs = ']' :: r ∨ cs = '\x7d' :: r := by
  cases cs with
  | nil => exact Or.inl rfl
  | cons c r =>
    refine Or.inr ⟨r, ?_⟩
    simp only [delimHead, Bool.or_eq_true, beq_iff_eq] at h
    rcases h with (h | h) | h <;> simp [h]

theorem takeWhile_isDigit_delim {cs : List Char} (h : delimHead cs = true) :
    cs.takeWhile Char.isDigit = [] := by
  rcases delimHead_cases h with rfl | ⟨r, rfl | rfl | rfl⟩
  · rfl
  all_goals exact takeWhile_nil_of_head _ _ _ (by decide)

theorem dropWhile_isDigit_delim {cs : List Char} (h : delimHead cs = true) :
    cs.dropWhile Char.isDigit = cs := by
  rcases delimHead_cases h with rfl | ⟨r, rfl | rfl | rfl⟩
  · rfl
  all_goals exact dropWhile_cons_of_head _ _ _ (by decide)

/-! ### Round trip of the numeral grammar -/

theorem parseNumTail_no_exp (neg : Bool) (ip : Nat)
    (frac : Option (Fin 10 × List (Fin 10))) {cs : List Char}
    (h : delimHead cs = true) :
    parseNumTail neg ip frac cs = some (⟨neg, ip, frac, none⟩, cs) := by
  rcases delimHead_cases h with rfl | ⟨r, rfl | rfl | rfl⟩
  · rfl
  all_goals
    simp only [parseNumTail]
    rw [if_neg (by decide)]

theorem parseNumTail_exp (neg : Bool) (ip : Nat)
    (frac : Option (Fin 10 × List (Fin 10))) (b : Bool) (n : Nat)
    {rest : List Char} (h : delimHead rest = true) :
    parseNumTail neg ip frac
      ('e' :: ((if b then ['-'] else []) ++ (natToDigits n ++ rest))) =
      some (⟨neg, ip, frac, some (b, n)⟩, rest) := by
  obtain ⟨hne, hdig, hval, _⟩ := natToDigits_spec n
  obtain ⟨d, ds, hd⟩ := List.exists_cons_of_ne_nil hne
  have hsp : splitExpSign ((if b then ['-'] else []) ++ (natToDigits n ++ rest))
      = (b, natToDigits n ++ rest) := by
    cases b
    · have hdd : d.isDigit = true :=
        hdig d (by rw [hd]; exact List.mem_cons_self d ds)
      have hdb := isDigit_bounds hdd
      rw [if_neg (by simp), List.nil_append, hd, List.cons_append, splitExpSign,
        if_neg (ne_of_toNat_ne (by have h43 : ('+' : Char).toNat = 43 := rfl; omega)),
        if_neg (ne_of_toNat_ne (by have h45 : ('-' : Char).toNat = 45 := rfl; omega)),
        ← List.cons_append, ← hd]
    · rw [if_pos rfl]
      rfl
  have hsp2 : (splitExpSign ((if b then ['-'] else []) ++
      (natToDigits n ++ rest))).2 = natToDigits n ++ rest := by rw [hsp]
  have hsp1 : (splitExpSign ((if b then ['-'] else []) ++
      (natToDigits n ++ rest))).1 = b := by rw [hsp]
  have htk : (natToDigits n ++ rest).takeWhile Char.isDigit = d :: ds := by
    rw [takeWhile_append_all _ _ _ hdig, takeWhile_isDigit_delim h,
      List.append_nil, hd]
  have hdp : (natToDigits n ++ rest).dropWhile Char.isDigit = rest := by
    rw [dropWhile_append_all _ _ _ hdig, dropWhile_isDigit_delim h]
  have hdv : digitsVal (d :: ds) = n := by rw [← hd, hval]
  simp only [parseNumTail]
  rw [if_pos (Or.inl trivial)]
  simp only [hsp2, hsp1, htk, hdp, hdv]

theorem parseNumber_print (m : JNum) {rest : List Char}
    (hrest : delimHead rest = true) :
    parseNumber (printNum m ++ rest) = some (m, rest) := by
  obtain ⟨neg, ip, frac, exp⟩ := m
  obtain ⟨hne, hdig, hval, hhd⟩ := natToDigits_spec ip
  obtain ⟨d, ds, hd⟩ := List.exists_cons_of_ne_nil hne
  have hdd : d.isDigit = true :=
    hdig d (by rw [hd]; exact List.mem_cons_self d ds)
  have hdb := isDigit_bounds hdd
  have hlead : ¬(d = '0' ∧ ds ≠ []) := by
    by_cases hip : ip < 10
    · have hsingle : natToDigits ip = [Char.ofNat (48 + ip)] := by
        rw [natToDigits, natToDigitsRev, natToDigitsAux, if_pos hip]
        rfl
      rw [hsingle] at hd
      rintro ⟨_, hds⟩
      exact hds (by injection hd with h1 h2; exact h2.symm)
    · have h0 := hhd (by omega)
      rw [hd] at h0
      rintro ⟨h1, _⟩
      exact h0 (by rw [h1]; rfl)
  have hdv : digitsVal (d :: ds) = ip := by rw [← hd, hval]
  have hsign : ∀ tail : List Char,
      splitSign ((if neg then ['-'] else []) ++ (natToDigits ip ++ tail)) =
        (neg, natToDigits ip ++ tail) := by
    intro tail
    cases neg
    · rw [if_neg (by simp), List.nil_append, hd, List.cons_append, splitSign,
        if_neg (ne_of_toNat_ne (by have h45 : ('-' : Char).toNat = 45 := rfl; omega)),
        ← List.cons_append, ← hd]
    · rw [if_pos rfl]
      rfl
  have hs2 : ∀ tail : List Char,
      (splitSign ((if neg then ['-'] else []) ++ (natToDigits ip ++ tail))).2 =
        natToDigits ip ++ tail := fun tail => by rw [hsign tail]
  have hs1 : ∀ tail : List Char,
      (splitSign ((if neg then ['-'] else []) ++ (natToDigits ip ++ tail))).1 =
        neg := fun tail => by rw [hsign tail]
  rcases frac with _ | ⟨f, fs⟩ <;> rcases exp with _ | ⟨b, n⟩
  · have htkT : rest.takeWhile Char.isDigit = [] := takeWhile_isDigit_delim hrest
    have hdpT : rest.dropWhile Char.isDigit = rest := dropWhile_isDigit_delim hrest
    have htkA : (natToDigits ip ++ rest).takeWhile Char.isDigit = d :: ds := by
      rw [takeWhile_append_all _ _ _ hdig, htkT, List.append_nil, hd]
    have hdpA : (natToDigits ip ++ rest).dropWhile Char.isDigit = rest := by
      rw [dropWhile_append_all _ _ _ hdig, hdpT]
    have hpr : printNum ⟨neg, ip, none, none⟩ ++ rest =
        (if neg then ['-'] else []) ++ (natToDigits ip ++ rest) := by
      simp only [printNum, List.append_assoc, List.cons_append, List.nil_append,
        List.append_nil]
    rw [hpr]
    simp only [parseNumber, hs2 rest, hs1 rest, htkA, hdpA, hdv]
    rw [if_neg hlead]
    rcases delimHead_cases hrest with rfl | ⟨r, rfl | rfl | rfl⟩ <;>
      exact parseNumTail_no_exp _ _ _ hrest
  · have htkT : ('e' :: ((if b then ['-'] else []) ++
        (natToDigits n ++ rest))).takeWhile Char.isDigit = [] :=
      takeWhile_nil_of_head _ _ _ (by decide)
    have hdpT : ('e' :: ((if b then ['-'] else []) ++
        (natToDigits n ++ rest))).dropWhile Char.isDigit =
        'e' :: ((if b then ['-'] else []) ++ (natToDigits n ++ rest)) :=
      dropWhile_cons_of_head _ _ _ (by decide)
    have htkA : (natToDigits ip ++ ('e' :: ((if b then ['-'] else []) ++
        (natToDigits n ++ rest)))).takeWhile Char.isDigit = d :: ds := by
      rw [takeWhile_append_all _ _ _ hdig, htkT, List.append_nil, hd]
    have hdpA : (natToDigits ip ++ ('e' :: ((if b then ['-'] else []) ++
        (natToDigits n ++ rest)))).dropWhile Char.isDigit =
        'e' :: ((if b then ['-'] else []) ++ (natToDigits n ++ rest)) := by
      rw [dropWhile_append_all _ _ _ hdig, hdpT]
    have hpr : printNum ⟨neg, ip, none, some (b, n)⟩ ++ rest =
        (if neg then ['-'] else []) ++ (natToDigits ip ++
          ('e' :: ((if b then ['-'] else []) ++ (natToDigits n ++ rest)))) := by
      simp only [printNum, List.append_assoc, List.cons_append, List.nil_append,
        List.append_nil]
    rw [hpr]
    simp only [parseNumber, hs2 ('e' :: ((if b then ['-'] else []) ++
      (natToDigits n ++ rest))), hs1 ('e' :: ((if b then ['-'] else []) ++
      (natToDigits n ++ rest))), htkA, hdpA, hdv]
    rw [if_neg hlead]
    exact parseNumTail_exp _ _ _ b n hrest
  · have hfdig : ∀ x ∈ (f :: fs).map digitChar, x.isDigit = true := by
      intro x hx
      obtain ⟨g, _, rfl⟩ := List.mem_map.mp hx
      exact digitChar_isDigit g
    have htkT : ('.' :: ((f :: fs).map digitChar ++ rest)).takeWhile
        Char.isDigit = [] := takeWhile_nil_of_head _ _ _ (by decide)
    have hdpT : ('.' :: ((f :: fs).map digitChar ++ rest)).dropWhile
        Char.isDigit = '.' :: ((f :: fs).map digitChar ++ rest) :=
      dropWhile_cons_of_head _ _ _ (by decide)
    have htkA : (natToDigits ip ++ ('.' :: ((f :: fs).map digitChar ++
        rest))).takeWhile Char.isDigit = d :: ds := by
      rw [takeWhile_append_all _ _ _ hdig, htkT, List.append_nil, hd]
    have hdpA : (natToDigits ip ++ ('.' :: ((f :: fs).map digitChar ++
        rest))).dropWhile Char.isDigit =
        '.' :: ((f :: fs).map digitChar ++ rest) := by
      rw [dropWhile_append_all _ _ _ hdig, hdpT]
    have hMtk : ((f :: fs).map digitChar ++ rest).takeWhile Char.isDigit =
        digitChar f :: fs.map digitChar := by
      rw [takeWhile_append_all _ _ _ hfdig, takeWhile_isDigit_delim hrest,
        List.append_nil, List.map_cons]
    have hMdp : ((f :: fs).map digitChar ++ rest).dropWhile Char.isDigit =
        rest := by
      rw [dropWhile_append_all _ _ _ hfdig, dropWhile_isDigit_delim hrest]
    have hpr : printNum ⟨neg, ip, some (f, fs), none⟩ ++ rest =
        (if neg then ['-'] else []) ++ (natToDigits ip ++
          ('.' :: ((f :: fs).map digitChar ++ rest))) := by
      simp only [printNum, List.append_assoc, List.cons_append, List.nil_append,
        List.append_nil]
    rw [hpr]
    simp only [parseNumber, hs2 ('.' :: ((f :: fs).map digitChar ++ rest)),
      hs1 ('.' :: ((f :: fs).map digitChar ++ rest)), htkA, hdpA, hdv]
    rw [if_neg hlead]
    simp only [hMtk, hMdp, dfin_digitChar, map_dfin_digitChar]
    exact parseNumTail_no_exp _ _ _ hrest
  · have hfdig : ∀ x ∈ (f :: fs).map digitChar, x.isDigit = true := by
      intro x hx
      obtain ⟨g, _, rfl⟩ := List.mem_map.mp hx
      exact digitChar_isDigit g
    have htkE : ('e' :: ((if b then ['-'] else []) ++
        (natToDigits n ++ rest))).takeWhile Char.isDigit = [] :=
      takeWhile_nil_of_head _ _ _ (by decide)
    have hdpE : ('e' :: ((if b then ['-'] else []) ++
        (natToDigits n ++ rest))).dropWhile Char.isDigit =
        'e' :: ((if b then ['-'] else []) ++ (natToDigits n ++ rest)) :=
      dropWhile_cons_of_head _ _ _ (by decide)
    have htkT : ('.' :: ((f :: fs).map digitChar ++ ('e' :: ((if b then ['-']
        else []) ++ (natToDigits n ++ rest))))).takeWhile Char.isDigit = [] :=
      takeWhile_nil_of_head _ _ _ (by decide)
    have hdpT : ('.' :: ((f :: fs).map digitChar ++ ('e' :: ((if b then ['-']
        else []) ++ (natToDigits n ++ rest))))).dropWhile Char.isDigit =
        '.' :: ((f :: fs).map digitChar ++ ('e' :: ((if b then ['-'] else []) ++
          (natToDigits n ++ rest)))) := dropWhile_cons_of_head _ _ _ (by decide)
    have htkA : (natToDigits ip ++ ('.' :: ((f :: fs).map digitChar ++
        ('e' :: ((if b then ['-'] else []) ++
          (natToDigits n ++ rest)))))).takeWhile Char.isDigit = d :: ds := by
      rw [takeWhile_append_all _ _ _ hdig, htkT, List.append_nil, hd]
    have hdpA : (natToDigits ip ++ ('.' :: ((f :: fs).map digitChar ++
        ('e' :: ((if b then ['-'] else []) ++
          (natToDigits n ++ rest)))))).dropWhile Char.isDigit =
        '.' :: ((f :: fs).map digitChar ++ ('e' :: ((if b then ['-'] else []) ++
          (natToDigits n ++ rest)))) := by
      rw [dropWhile_append_all _ _ _ hdig, hdpT]
    have hMtk : ((f :: fs).map digitChar ++ ('e' :: ((if b then ['-'] else [])
        ++ (natToDigits n ++ rest)))).takeWhile Char.isDigit =
        digitChar f :: fs.map digitChar := by
      rw [takeWhile_append_all _ _ _ hfdig, htkE, List.append_nil, List.map_cons]
    have hMdp : ((f :: fs).map digitChar ++ ('e' :: ((if b then ['-'] else [])
        ++ (natToDigits n ++ rest)))).dropWhile Char.isDigit =
        'e' :: ((if b then ['-'] else []) ++ (natToDigits n ++ rest)) := by
      rw [dropWhile_append_all _ _ _ hfdig, hdpE]
    have hpr : printNum ⟨neg, ip, some (f, fs), some (b, n)⟩ ++ rest =
        (if neg then ['-'] else []) ++ (natToDigits ip ++
          ('.' :: ((f :: fs).map digitChar ++ ('e' :: ((if b then ['-'] else [])
            ++ (natToDigits n ++ rest)))))) := by
      simp only [printNum, List.append_assoc, List.cons_append, List.nil_append,
        List.append_nil]
    rw [hpr]
    simp only [parseNumber,
      hs2 ('.' :: ((f :: fs).map digitChar ++ ('e' :: ((if b then ['-'] else [])
        ++ (natToDigits n ++ rest))))),
      hs1 ('.' :: ((f :: fs).map digitChar ++ ('e' :: ((if b then ['-'] else [])
        ++ (natToDigits n ++ rest))))), htkA, hdpA, hdv]
    rw [if_neg hlead]
    simp only [hMtk, hMdp, dfin_digitChar, map_dfin_digitChar]
    exact parseNumTail_exp _ _ _ b n hrest

/-! ### Round trip of the string grammar -/

theorem hexVal_hexDigit {k : Nat} (h : k < 16) :
    hexVal (hexDigit k) = some k := by
  by_cases h10 : k < 10
  · have ht : (Char.ofNat (48 + k)).toNat = 48 + k := digitCharNat_toNat h10
    rw [hexDigit, if_pos h10, hexVal, ht]
    rw [if_pos (by omega)]
    simp only [Option.some.injEq]
    omega
  · have ht : (Char.ofNat (87 + k)).toNat = 87 + k :=
      charOfNat_toNat (Or.inl (by omega))
    rw [hexDigit, if_neg h10, hexVal, ht]
    rw [if_neg (by omega), if_pos (by omega)]
    simp only [Option.some.injEq]
    omega

theorem parseStringBody_print (s : List Char) :
    ∀ (fuel : Nat) (rest : List Char), 2 * s.length + 1 ≤ fuel →
      parseStringBody fuel (escString s ++ '"' :: rest) = some (s, rest) := by
  induction s with
  | nil =>
    intro fuel rest h
    obtain ⟨f, rfl⟩ : ∃ f, fuel = f + 1 := ⟨fuel - 1, by omega⟩
    show parseStringBody (f + 1) ('"' :: rest) = some ([], rest)
    simp only [parseStringBody]
    rw [if_pos trivial]
  | cons c cs ih =>
    intro fuel rest h
    obtain ⟨f, rfl⟩ : ∃ f, fuel = f + 1 := ⟨fuel - 1, by omega⟩
    have hlen : 2 * (c :: cs).length + 1 = 2 * cs.length + 3 := by
      simp [List.length_cons]
      omega
    rw [hlen] at h
    have hesc : escString (c :: cs) ++ '"' :: rest =
        escChar c ++ (escString cs ++ '"' :: rest) := by
      simp [escString, List.append_assoc]
    rw [hesc]
    by_cases h1 : c = '"'
    · subst h1
      show parseStringBody (f + 1)
        ('\\' :: '"' :: (escString cs ++ '"' :: rest)) = _
      simp only [parseStringBody]
      rw [if_neg (by decide), if_pos trivial]
      obtain ⟨g, rfl⟩ : ∃ g, f = g + 1 := ⟨f - 1, by omega⟩
      simp only [parseEsc]
      rw [if_pos trivial, ih g rest (by omega)]
      rfl
    · by_cases h2 : c = '\\'
      · subst h2
        show parseStringBody (f + 1)
          ('\\' :: '\\' :: (escString cs ++ '"' :: rest)) = _
        simp only [parseStringBody]
        rw [if_neg (by decide), if_pos trivial]
        obtain ⟨g, rfl⟩ : ∃ g, f = g + 1 := ⟨f - 1, by omega⟩
        simp only [parseEsc]
        rw [if_neg (by decide), if_pos trivial, ih g rest (by omega)]
        rfl
      · by_cases h3 : c = '\x08'
        · subst h3
          show parseStringBody (f + 1)
            ('\\' :: 'b' :: (escString cs ++ '"' :: rest)) = _
          simp only [parseStringBody]
          rw [if_neg (by decide), if_pos trivial]
          obtain ⟨g, rfl⟩ : ∃ g, f = g + 1 := ⟨f - 1, by omega⟩
          simp only [parseEsc]
          rw [if_neg (by decide), if_neg (by decide), if_neg (by decide),
            if_pos trivial, ih g rest (by omega)]
          rfl
        · by_cases h4 : c = '\x0c'
          · subst h4
            show parseStringBody (f + 1)
              ('\\' :: 'f' :: (escString cs ++ '"' :: rest)) = _
            simp only [parseStringBody]
            rw [if_neg (by decide), if_pos trivial]
            obtain ⟨g, rfl⟩ : ∃ g, f = g + 1 := ⟨f - 1, by omega⟩
            simp only [parseEsc]
            rw [if_neg (by decide), if_neg (by decide), if_neg (by decide),
              if_neg (by decide), if_pos trivial, ih g rest (by omega)]
            rfl
          · by_cases h5 : c = '\n'
            · subst h5
              show parseStringBody (f + 1)
                ('\\' :: 'n' :: (escString cs ++ '"' :: rest)) = _
              simp only [parseStringBody]
              rw [if_neg (by decide), if_pos trivial]
              obtain ⟨g, rfl⟩ : ∃ g, f = g + 1 := ⟨f - 1, by omega⟩
              simp only [parseEsc]
              rw [if_neg (by decide), if_neg (by decide), if_neg (by decide),
                if_neg (by decide), if_neg (by decide), if_pos trivial,
                ih g rest (by omega)]
              rfl
            · by_cases h6 : c = '\r'
              · subst h6
                show parseStringBody (f + 1)
                  ('\\' :: 'r' :: (escString cs ++ '"' :: rest)) = _
                simp only [parseStringBody]
                rw [if_neg (by decide), if_pos trivial]
                obtain ⟨g, rfl⟩ : ∃ g, f = g + 1 := ⟨f - 1, by omega⟩
                simp only [parseEsc]
                rw [if_neg (by decide), if_neg (by decide), if_neg (by decide),
                  if_neg (by decide), if_neg (by decide), if_neg (by decide),
                  if_pos trivial, ih g rest (by omega)]
                rfl
              · by_cases h7 : c = '\t'
                · subst h7
                  show parseStringBody (f + 1)
                    ('\\' :: 't' :: (escString cs ++ '"' :: rest)) = _
                  simp only [parseStringBody]
                  rw [if_neg (by decide), if_pos trivial]
                  obtain ⟨g, rfl⟩ : ∃ g, f = g + 1 := ⟨f - 1, by omega⟩
                  simp only [parseEsc]
                  rw [if_neg (by decide), if_neg (by decide), if_neg (by decide),
                    if_neg (by decide), if_neg (by decide), if_neg (by decide),
                    if_neg (by decide), if_pos trivial, ih g rest (by omega)]
                  rfl
                · by_cases h8 : c.toNat < 32
                  · -- generic control character: printed as a unicode escape
                    have hec : escChar c = ['\\', 'u', '0', '0',
                        hexDigit (c.toNat / 16), hexDigit (c.toNat % 16)] := by
                      rw [escChar, if_neg h1, if_neg h2, if_neg h3, if_neg h4,
                        if_neg h5, if_neg h6, if_neg h7, if_pos h8]
                    rw [hec]
                    show parseStringBody (f + 1) ('\\' :: 'u' :: '0' :: '0' ::
                      hexDigit (c.toNat / 16) :: hexDigit (c.toNat % 16) ::
                      (escString cs ++ '"' :: rest)) = _
                    simp only [parseStringBody]
                    rw [if_neg (by decide), if_pos trivial]
                    obtain ⟨g, rfl⟩ : ∃ g, f = g + 1 := ⟨f - 1, by omega⟩
                    simp only [parseEsc]
                    rw [if_neg (by decide), if_neg (by decide),
                      if_neg (by decide), if_neg (by decide),
                      if_neg (by decide), if_neg (by decide),
                      if_neg (by decide), if_neg (by decide), if_pos trivial]
                    have hx1 : hexVal (hexDigit (c.toNat / 16)) =
                        some (c.toNat / 16) := hexVal_hexDigit (by omega)
                    have hx2 : hexVal (hexDigit (c.toNat % 16)) =
                        some (c.toNat % 16) := hexVal_hexDigit (by omega)
                    have hx0 : hexVal '0' = some 0 := rfl
                    simp only [hx0, hx1, hx2]
                    rw [if_neg (by omega), if_neg (by omega),
                      ih g rest (by omega)]
                    have hval : ((0 * 16 + 0) * 16 + c.toNat / 16) * 16 +
                        c.toNat % 16 = c.toNat := by omega
                    rw [hval, Char.ofNat_toNat]
                    rfl
                  · -- ordinary character: printed verbatim
                    have hec : escChar c = [c] := by
                      rw [escChar, if_neg h1, if_neg h2, if_neg h3, if_neg h4,
                        if_neg h5, if_neg h6, if_neg h7, if_neg h8]
                    rw [hec]
                    show parseStringBody (f + 1)
                      (c :: (escString cs ++ '"' :: rest)) = _
                    simp only [parseStringBody]
                    rw [if_neg h1, if_neg h2, if_neg h8, ih f rest (by omega)]
                    rfl

theorem nodupKeysB_iff (ks : List (List Char)) :
    nodupKeysB ks = true ↔ ks.Nodup := by
  induction ks with
  | nil => simp [nodupKeysB]
  | cons k ks ih => simp [nodupKeysB, ih, List.nodup_cons]

theorem jwfList_append (xs ys : List Json) :
    jwfList (xs ++ ys) = (jwfList xs && jwfList ys) := by
  induction xs with
  | nil => simp [jwfList]
  | cons v vs ih => simp [jwfList, ih, Bool.and_assoc]

theorem jwfMembers_append (xs ys : List (List Char × Json)) :
    jwfMembers (xs ++ ys) = (jwfMembers xs && jwfMembers ys) := by
  induction xs with
  | nil => simp [jwfMembers]
  | cons p ps ih =>
    obtain ⟨k, v⟩ := p
    simp [jwfMembers, ih, Bool.and_assoc]

/-! ### Heads of printed values -/

theorem printNum_head (m : JNum) :
    ∃ c t, printNum m = c :: t ∧ (c = '-' ∨ c.isDigit = true) := by
  obtain ⟨neg, ip, frac, exp⟩ := m
  obtain ⟨hne, hdig, _, _⟩ := natToDigits_spec ip
  obtain ⟨d, ds, hd⟩ := List.exists_cons_of_ne_nil hne
  have hdd : d.isDigit = true :=
    hdig d (by rw [hd]; exact List.mem_cons_self d ds)
  cases neg
  · refine ⟨d, ds ++ ((match frac with
      | none => []
      | some (f, fs) => '.' :: (f :: fs).map digitChar) ++ (match exp with
      | none => []
      | some (b, n) => 'e' :: ((if b then ['-'] else []) ++ natToDigits n))),
      ?_, Or.inr hdd⟩
    simp [printNum, hd, List.append_assoc]
  · refine ⟨'-', natToDigits ip ++ ((match frac with
      | none => []
      | some (f, fs) => '.' :: (f :: fs).map digitChar) ++ (match exp with
      | none => []
      | some (b, n) => 'e' :: ((if b then ['-'] else []) ++ natToDigits n))),
      ?_, Or.inl rfl⟩
    simp [printNum, List.append_assoc]

theorem printJson_head (v : Json) :
    ∃ c t, printJson v = c :: t ∧ jsonWS c = false ∧ c ≠ ']' ∧ c ≠ '\x7d' := by
  cases v with
  | null => exact ⟨'n', _, rfl, by decide, by decide, by decide⟩
  | bool b =>
    cases b
    · exact ⟨'f', _, rfl, by decide, by decide, by decide⟩
    · exact ⟨'t', _, rfl, by decide, by decide, by decide⟩
  | str s => exact ⟨'"', _, rfl, by decide, by decide, by decide⟩
  | arr xs => exact ⟨'[', _, rfl, by decide, by decide, by decide⟩
  | obj kvs => exact ⟨'\x7b', _, rfl, by decide, by decide, by decide⟩
  | num m =>
    obtain ⟨c, t, hct, hc⟩ := printNum_head m
    refine ⟨c, t, hct, ?_, ?_, ?_⟩
    · rcases hc with rfl | hdig
      · decide
      · exact jsonWS_eq_false_of_ge (by have := (isDigit_bounds hdig).1; omega)
    · rcases hc with rfl | hdig
      · decide
      · have hb := isDigit_bounds hdig
        exact ne_of_toNat_ne (by have h93 : (']' : Char).toNat = 93 := rfl; omega)
    · rcases hc with rfl | hdig
      · decide
      · have hb := isDigit_bounds hdig
        exact ne_of_toNat_ne
          (by have h125 : ('\x7d' : Char).toNat = 125 := rfl; omega)

theorem printItems_head (x : Json) (xs : List Json) :
    ∃ c t, printItems (x :: xs) = c :: t ∧ jsonWS c = false ∧ c ≠ ']' ∧
      c ≠ '\x7d' := by
  obtain ⟨c, t, hct, h1, h2, h3⟩ := printJson_head x
  cases xs with
  | nil => exact ⟨c, t, by simp [printItems, hct], h1, h2, h3⟩
  | cons y ys =>
    exact ⟨c, t ++ ',' :: printItems (y :: ys),
      by simp [printItems, hct], h1, h2, h3⟩

theorem printMembers_head (p : List Char × Json)
    (rest : List (List Char × Json)) :
    ∃ t, printMembers (p :: rest) = '"' :: t := by
  obtain ⟨k, v⟩ := p
  cases rest with
  | nil => exact ⟨_, rfl⟩
  | cons q qs => exact ⟨_, rfl⟩

/-! ### Object insertion -/

theorem objInsert_of_not_mem {kvs : List (List Char × Json)} {k : List Char}
    {v : Json} (h : k ∉ kvs.map Prod.fst) :
    objInsert kvs k v = kvs ++ [(k, v)] := by
  induction kvs with
  | nil => rfl
  | cons p rest ih =>
    obtain ⟨k1, v1⟩ := p
    simp only [List.map_cons, List.mem_cons, not_or] at h
    simp only [objInsert]
    rw [if_neg (fun he => h.1 he.symm), ih h.2]
    rfl

theorem keys_objInsert_mem {kvs : List (List Char × Json)} {k : List Char}
    {v : Json} (h : k ∈ kvs.map Prod.fst) :
    (objInsert kvs k v).map Prod.fst = kvs.map Prod.fst := by
  induction kvs with
  | nil => simp at h
  | cons p rest ih =>
    obtain ⟨k1, v1⟩ := p
    simp only [objInsert]
    by_cases he : k1 = k
    · rw [if_pos he]
      rfl
    · rw [if_neg he]
      simp only [List.map_cons, List.mem_cons] at h
      rcases h with h | h
      · exact absurd h.symm he
      · simp [ih h]

theorem objInsert_keys_nodup {kvs : List (List Char × Json)} {k : List Char}
    {v : Json} (h : (kvs.map Prod.fst).Nodup) :
    ((objInsert kvs k v).map Prod.fst).Nodup := by
  by_cases hm : k ∈ kvs.map Prod.fst
  · rw [keys_objInsert_mem hm]
    exact h
  · rw [objInsert_of_not_mem hm, List.map_append]
    simp [List.nodup_append, h, hm]

theorem jwfMembers_objInsert {kvs : List (List Char × Json)} {k : List Char}
    {v : Json} (h1 : jwfMembers kvs = true) (h2 : jwf v = true) :
    jwfMembers (objInsert kvs k v) = true := by
  induction kvs with
  | nil => simp [objInsert, jwfMembers, h2]
  | cons p rest ih =>
    obtain ⟨k1, v1⟩ := p
    simp only [jwfMembers, Bool.and_eq_true] at h1
    simp only [objInsert]
    by_cases he : k1 = k
    · rw [if_pos he]
      simp [jwfMembers, h2, h1.2]
    · rw [if_neg he]
      simp [jwfMembers, h1.1, ih h1.2]

/-! ### Printed length bounds -/

theorem length_escChar (c : Char) : 1 ≤ (escChar c).length := by
  rw [escChar]
  split_ifs <;> simp

theorem length_escString (s : List Char) :
    s.length ≤ (escString s).length := by
  induction s with
  | nil => simp [escString]
  | cons c cs ih =>
    have h1 := length_escChar c
    simp only [escString, List.map_cons, List.flatten_cons, List.length_append,
      List.length_cons]
    simp only [escString] at ih
    omega

mutual

theorem jsize_le : (v : Json) → jsize v ≤ 2 * (printJson v).length
  | Json.null => by simp [jsize, printJson]
  | Json.bool b => by cases b <;> simp [jsize, printJson]
  | Json.num m => by
    obtain ⟨c, t, hct, _⟩ := printNum_head m
    simp [jsize, printJson, hct]
    omega
  | Json.str s => by
    have := length_escString s
    simp [jsize, printJson]
    omega
  | Json.arr xs => by
    have := isize_le xs
    simp only [jsize, printJson, List.length_cons, List.length_append,
      List.length_singleton]
    omega
  | Json.obj kvs => by
    have := msize_le kvs
    simp only [jsize, printJson, List.length_cons, List.length_append,
      List.length_singleton]
    omega

theorem isize_le : (xs : List Json) → isize xs ≤ 2 * (printItems xs).length + 1
  | [] => by simp [isize, printItems]
  | [x] => by
    have := jsize_le x
    simp only [isize, printItems]
    omega
  | x :: y :: ys => by
    have h1 := jsize_le x
    have h2 := isize_le (y :: ys)
    have e1 : isize (x :: y :: ys) = jsize x + isize (y :: ys) + 1 := rfl
    have e2 : printItems (x :: y :: ys) =
        printJson x ++ ',' :: printItems (y :: ys) := rfl
    rw [e1, e2]
    simp only [List.length_append, List.length_cons]
    omega

theorem msize_le : (kvs : List (List Char × Json)) →
    msize kvs ≤ 2 * (printMembers kvs).length + 1
  | [] => by simp [msize, printMembers]
  | [(k, v)] => by
    have h1 := jsize_le v
    have h2 := length_escString k
    simp only [msize, printMembers, List.length_cons, List.length_append]
    omega
  | (k, v) :: q :: rest => by
    have h1 := jsize_le v
    have h2 := length_escString k
    have h3 := msize_le (q :: rest)
    have e1 : msize ((k, v) :: q :: rest) =
        2 * k.length + jsize v + msize (q :: rest) + 2 := rfl
    have e2 : printMembers ((k, v) :: q :: rest) =
        ('"' :: (escString k ++ '"' :: ':' :: printJson v)) ++
          ',' :: printMembers (q :: rest) := rfl
    rw [e1, e2]
    simp only [List.length_append, List.length_cons]
    omega

end

/-! ### The printer/parser round trip -/

theorem roundTripAux (fuel : Nat) :
    (∀ v rest, jsize v ≤ fuel → jwf v = true → delimHead rest = true →
      parseValue fuel (printJson v ++ rest) = some (v, rest)) ∧
    (∀ xs acc rest, isize xs ≤ fuel → xs ≠ [] → jwfList xs = true →
      parseItems fuel (printItems xs ++ ']' :: rest) acc =
        some (Json.arr (acc ++ xs), rest)) ∧
    (∀ kvs acc rest, msize kvs ≤ fuel → kvs ≠ [] → jwfMembers kvs = true →
      ((acc ++ kvs).map Prod.fst).Nodup →
      parseMembers fuel (printMembers kvs ++ '\x7d' :: rest) acc =
        some (Json.obj (acc ++ kvs), rest)) := by
  induction fuel using Nat.strong_induction_on with
  | _ fuel ih =>
  refine ⟨?_, ?_, ?_⟩
  · -- parseValue
    intro v rest hsz hwf hdel
    have hpos : 1 ≤ jsize v := by
      cases v <;> simp only [jsize] <;> omega
    obtain ⟨f, rfl⟩ : ∃ f, fuel = f + 1 := ⟨fuel - 1, by omega⟩
    cases v with
    | null => rfl
    | bool b => cases b <;> rfl
    | num m =>
      obtain ⟨c, t, hct, hc⟩ := printNum_head m
      have hneq : c ≠ 'n' ∧ c ≠ 't' ∧ c ≠ 'f' ∧ c ≠ '"' ∧ c ≠ '[' ∧
          c ≠ '\x7b' := by
        rcases hc with rfl | hdig
        · exact ⟨by decide, by decide, by decide, by decide, by decide,
            by decide⟩
        · have hb := isDigit_bounds hdig
          have e1 : ('n' : Char).toNat = 110 := rfl
          have e2 : ('t' : Char).toNat = 116 := rfl
          have e3 : ('f' : Char).toNat = 102 := rfl
          have e4 : ('"' : Char).toNat = 34 := rfl
          have e5 : ('[' : Char).toNat = 91 := rfl
          have e6 : ('\x7b' : Char).toNat = 123 := rfl
          exact ⟨ne_of_toNat_ne (by omega), ne_of_toNat_ne (by omega),
            ne_of_toNat_ne (by omega), ne_of_toNat_ne (by omega),
            ne_of_toNat_ne (by omega), ne_of_toNat_ne (by omega)⟩
      obtain ⟨hn1, hn2, hn3, hn4, hn5, hn6⟩ := hneq
      have hpr : printJson (Json.num m) ++ rest = c :: (t ++ rest) := by
        show printNum m ++ rest = c :: (t ++ rest)
        rw [hct, List.cons_append]
      rw [hpr]
      simp only [parseValue]
      rw [if_neg hn1, if_neg hn2, if_neg hn3, if_neg hn4, if_neg hn5,
        if_neg hn6, ← List.cons_append, ← hct, parseNumber_print m hdel]
      rfl
    | str s =>
      have hf : 2 * s.length + 1 ≤ f := by
        simp only [jsize] at hsz
        omega
      have hpr : printJson (Json.str s) ++ rest =
          '"' :: (escString s ++ '"' :: rest) := by
        show ('"' :: (escString s ++ ['"'])) ++ rest = _
        simp [List.append_assoc]
      rw [hpr]
      simp only [parseValue]
      rw [if_neg (by decide), if_neg (by decide), if_neg (by decide),
        if_pos trivial, parseStringBody_print s f rest hf]
      rfl
    | arr xs =>
      have hf : isize xs + 1 ≤ f := by
        simp only [jsize] at hsz
        omega
      obtain ⟨g, rfl⟩ : ∃ g, f = g + 1 := ⟨f - 1, by omega⟩
      have hpr : printJson (Json.arr xs) ++ rest =
          '[' :: (printItems xs ++ ']' :: rest) := by
        show ('[' :: (printItems xs ++ [']'])) ++ rest = _
        simp [List.append_assoc]
      rw [hpr]
      simp only [parseValue]
      rw [if_neg (by decide), if_neg (by decide), if_neg (by decide),
        if_neg (by decide), if_pos trivial]
      cases xs with
      | nil => rfl
      | cons x xs2 =>
        obtain ⟨c, t, hct, hcw, hcr, _⟩ := printItems_head x xs2
        have hsk : skipWS (printItems (x :: xs2) ++ ']' :: rest) =
            printItems (x :: xs2) ++ ']' :: rest := by
          rw [hct, List.cons_append]
          exact skipWS_cons_of_not_ws hcw _
        rw [hsk, hct, List.cons_append]
        simp only [parseArrBody]
        rw [if_neg hcr, ← List.cons_append, ← hct]
        have hrec := (ih g (by omega)).2.1 (x :: xs2) [] rest
          (by simp only [jsize] at hsz; omega) (by simp)
          (show jwfList (x :: xs2) = true from hwf)
        simpa using hrec
    | obj kvs =>
      have hf : msize kvs + 1 ≤ f := by
        simp only [jsize] at hsz
        omega
      obtain ⟨g, rfl⟩ : ∃ g, f = g + 1 := ⟨f - 1, by omega⟩
      have hwf2 : nodupKeysB (kvs.map Prod.fst) = true ∧
          jwfMembers kvs = true := by
        have h := hwf
        rw [show jwf (Json.obj kvs) =
          (nodupKeysB (kvs.map Prod.fst) && jwfMembers kvs) from rfl,
          Bool.and_eq_true] at h
        exact h
      have hpr : printJson (Json.obj kvs) ++ rest =
          '\x7b' :: (printMembers kvs ++ '\x7d' :: rest) := by
        show ('\x7b' :: (printMembers kvs ++ ['\x7d'])) ++ rest = _
        simp [List.append_assoc]
      rw [hpr]
      simp only [parseValue]
      rw [if_neg (by decide), if_neg (by decide), if_neg (by decide),
        if_neg (by decide), if_neg (by decide), if_pos trivial]
      cases kvs with
      | nil => rfl
      | cons p rest2 =>
        obtain ⟨t, hct⟩ := printMembers_head p rest2
        have hsk : skipWS (printMembers (p :: rest2) ++ '\x7d' :: rest) =
            printMembers (p :: rest2) ++ '\x7d' :: rest := by
          rw [hct, List.cons_append]
          exact skipWS_cons_of_not_ws (by decide) _
        rw [hsk, hct, List.cons_append]
        simp only [parseObjBody]
        rw [if_neg (by decide), ← List.cons_append, ← hct]
        have hrec := (ih g (by omega)).2.2 (p :: rest2) [] rest
          (by simp only [jsize] at hsz; omega) (by simp) hwf2.2
          (by rw [List.nil_append]
              exact (nodupKeysB_iff ((p :: rest2).map Prod.fst)).mp hwf2.1)
        simpa using hrec
  · -- parseItems
    intro xs acc rest hsz hne hwf
    cases xs with
    | nil => exact absurd rfl hne
    | cons x xs2 =>
      have hx : jwf x = true ∧ jwfList xs2 = true := by
        have h := hwf
        rw [show jwfList (x :: xs2) = (jwf x && jwfList xs2) from rfl,
          Bool.and_eq_true] at h
        exact h
      have hie : isize (x :: xs2) = jsize x + isize xs2 + 1 := rfl
      obtain ⟨f, rfl⟩ : ∃ f, fuel = f + 1 := ⟨fuel - 1, by omega⟩
      have hszf : jsize x + isize xs2 ≤ f := by omega
      cases xs2 with
      | nil =>
        have hpr : printItems [x] ++ ']' :: rest =
            printJson x ++ ']' :: rest := by
          simp [printItems]
        rw [hpr]
        simp only [parseItems]
        rw [(ih f (by omega)).1 x (']' :: rest) (by omega) hx.1 rfl]
        rfl
      | cons y ys =>
        have hpr : printItems (x :: y :: ys) ++ ']' :: rest =
            printJson x ++ (',' :: (printItems (y :: ys) ++ ']' :: rest)) := by
          show (printJson x ++ ',' :: printItems (y :: ys)) ++ ']' :: rest = _
          simp [List.append_assoc]
        rw [hpr]
        simp only [parseItems]
        rw [(ih f (by omega)).1 x (',' :: (printItems (y :: ys) ++ ']' :: rest))
          (by omega) hx.1 rfl]
        show parseItems f (skipWS (printItems (y :: ys) ++ ']' :: rest))
          (acc ++ [x]) = some (Json.arr (acc ++ x :: y :: ys), rest)
        obtain ⟨c, t, hct, hcw, _, _⟩ := printItems_head y ys
        have hsk : skipWS (printItems (y :: ys) ++ ']' :: rest) =
            printItems (y :: ys) ++ ']' :: rest := by
          rw [hct, List.cons_append]
          exact skipWS_cons_of_not_ws hcw _
        have hie2 : isize (y :: ys) ≤ f := by
          have : 0 ≤ jsize x := Nat.zero_le _
          omega
        rw [hsk, (ih f (by omega)).2.1 (y :: ys) (acc ++ [x]) rest hie2
          (by simp) hx.2]
        simp [List.append_assoc]
  · -- parseMembers
    intro kvs acc rest hsz hne hwf hnd
    cases kvs with
    | nil => exact absurd rfl hne
    | cons p rest2 =>
      obtain ⟨k, v⟩ := p
      have hkv : jwf v = true ∧ jwfMembers rest2 = true := by
        have h := hwf
        rw [show jwfMembers ((k, v) :: rest2) =
          (jwf v && jwfMembers rest2) from rfl, Bool.and_eq_true] at h
        exact h
      have hme : msize ((k, v) :: rest2) =
          2 * k.length + jsize v + msize rest2 + 2 := rfl
      obtain ⟨f, rfl⟩ : ∃ f, fuel = f + 1 := ⟨fuel - 1, by omega⟩
      have hkf : 2 * k.length + 1 ≤ f := by omega
      have hvf : jsize v ≤ f := by omega
      have hknotin : k ∉ acc.map Prod.fst := by
        have h := hnd
        rw [List.map_append, List.nodup_append] at h
        intro hk
        exact h.2.2 hk (by rw [List.map_cons]; exact List.mem_cons_self _ _)
      have hoi : objInsert acc k v = acc ++ [(k, v)] :=
        objInsert_of_not_mem hknotin
      obtain ⟨cv, tv, hctv, hcwv, _, _⟩ := printJson_head v
      cases rest2 with
      | nil =>
        have hpr : printMembers [(k, v)] ++ '\x7d' :: rest =
            '"' :: (escString k ++ '"' ::
              (':' :: (printJson v ++ '\x7d' :: rest))) := by
          show ('"' :: (escString k ++ '"' :: ':' :: printJson v)) ++
            '\x7d' :: rest = _
          simp [List.append_assoc]
        rw [hpr]
        have hskv : skipWS (printJson v ++ '\x7d' :: rest) =
            printJson v ++ '\x7d' :: rest := by
          rw [hctv, List.cons_append]
          exact skipWS_cons_of_not_ws hcwv _
        simp only [parseMembers,
          parseStringBody_print k f (':' :: (printJson v ++ '\x7d' :: rest))
            hkf,
          skipWS_cons_of_not_ws (show jsonWS ':' = false from by decide),
          hskv,
          (ih f (by omega)).1 v ('\x7d' :: rest) hvf hkv.1 rfl,
          skipWS_cons_of_not_ws (show jsonWS '\x7d' = false from by decide)]
        rw [hoi]
      | cons q qs =>
        have hpr : printMembers ((k, v) :: q :: qs) ++ '\x7d' :: rest =
            '"' :: (escString k ++ '"' :: (':' :: (printJson v ++
              (',' :: (printMembers (q :: qs) ++ '\x7d' :: rest))))) := by
          show (('"' :: (escString k ++ '"' :: ':' :: printJson v)) ++
            ',' :: printMembers (q :: qs)) ++ '\x7d' :: rest = _
          simp [List.append_assoc]
        rw [hpr]
        obtain ⟨tm, hctm⟩ := printMembers_head q qs
        have hskm : skipWS (printMembers (q :: qs) ++ '\x7d' :: rest) =
            printMembers (q :: qs) ++ '\x7d' :: rest := by
          rw [hctm, List.cons_append]
          exact skipWS_cons_of_not_ws (by decide) _
        have hskv2 : skipWS (printJson v ++
            ',' :: (printMembers (q :: qs) ++ '\x7d' :: rest)) =
            printJson v ++ ',' :: (printMembers (q :: qs) ++ '\x7d' :: rest) := by
          rw [hctv, List.cons_append]
          exact skipWS_cons_of_not_ws hcwv _
        have hmsz : msize (q :: qs) ≤ f := by omega
        have hnd2 : (((acc ++ [(k, v)]) ++ q :: qs).map Prod.fst).Nodup := by
          have h := hnd
          rw [show acc ++ (k, v) :: q :: qs = (acc ++ [(k, v)]) ++ q :: qs
            from by simp [List.append_assoc]] at h
          exact h
        simp only [parseMembers,
          parseStringBody_print k f
            (':' :: (printJson v ++
              (',' :: (printMembers (q :: qs) ++ '\x7d' :: rest)))) hkf,
          skipWS_cons_of_not_ws (show jsonWS ':' = false from by decide),
          hskv2,
          (ih f (by omega)).1 v
            (',' :: (printMembers (q :: qs) ++ '\x7d' :: rest)) hvf hkv.1 rfl,
          skipWS_cons_of_not_ws (show jsonWS ',' = false from by decide),
          hskm, hoi,
          (ih f (by omega)).2.2 (q :: qs) (acc ++ [(k, v)]) rest hmsz
            (by simp) hkv.2 hnd2]
        simp [List.append_assoc]

theorem jsonParse_stringify {v : Json} (hwf : jwf v = true) :
    jsonParse (jsonStringify v) = some v := by
  have hb := jsize_le v
  have h1 : parseValue (2 * (printJson v).length + 4) (printJson v) =
      some (v, []) := by
    have h := (roundTripAux (2 * (printJson v).length + 4)).1 v []
      (by omega) hwf rfl
    rwa [List.append_nil] at h
  obtain ⟨c, t, hct, hcw, _, _⟩ := printJson_head v
  have hsk : skipWS (printJson v) = printJson v := by
    rw [hct]
    exact skipWS_cons_of_not_ws hcw t
  show (match parseValue (2 * (printJson v).length + 4) (skipWS (printJson v))
    with
    | some (w, rest) => if skipWS rest = [] then some w else none
    | none => none) = some v
  rw [hsk, h1]
  rfl

/-! ### Everything `JSON.parse` produces is well-formed -/

theorem wfParseAux (fuel : Nat) :
    (∀ cs v rest, parseValue fuel cs = some (v, rest) → jwf v = true) ∧
    (∀ cs acc v rest, parseItems fuel cs acc = some (v, rest) →
      jwfList acc = true → jwf v = true) ∧
    (∀ cs acc v rest, parseMembers fuel cs acc = some (v, rest) →
      jwfMembers acc = true → (acc.map Prod.fst).Nodup → jwf v = true) := by
  induction fuel using Nat.strong_induction_on with
  | _ fuel ih =>
  refine ⟨?_, ?_, ?_⟩
  · intro cs v rest h
    match fuel, cs with
    | 0, _ => exact absurd h (by simp [parseValue])
    | f + 1, [] => exact absurd h (by simp [parseValue])
    | f + 1, c :: cs1 =>
      simp only [parseValue] at h
      split_ifs at h
      · -- 'n'
        split at h
        · injection h with h1
          injection h1 with h2 _
          rw [← h2]
          rfl
        · exact absurd h (by simp)
      · -- 't'
        split at h
        · injection h with h1
          injection h1 with h2 _
          rw [← h2]
          rfl
        · exact absurd h (by simp)
      · -- 'f'
        split at h
        · injection h with h1
          injection h1 with h2 _
          rw [← h2]
          rfl
        · exact absurd h (by simp)
      · -- string
        rcases hps : parseStringBody f cs1 with _ | p
        · rw [hps] at h
          exact absurd h (by simp)
        · rw [hps] at h
          simp only [Option.map_some'] at h
          injection h with h1
          injection h1 with h2 _
          rw [← h2]
          rfl
      · -- array
        match f, hab : skipWS cs1 with
        | 0, _ => exact absurd h (by rw [hab] at h ⊢; simp [parseArrBody] at h)
        | g + 1, [] => exact absurd h (by rw [hab] at h; simp [parseArrBody] at h)
        | g + 1, c2 :: r2 =>
          rw [hab] at h
          simp only [parseArrBody] at h
          split_ifs at h
          · injection h with h1
            injection h1 with h2 _
            rw [← h2]
            rfl
          · exact (ih g (by omega)).2.1 (c2 :: r2) [] v rest h rfl
      · -- object
        match f, hab : skipWS cs1 with
        | 0, _ => exact absurd h (by rw [hab] at h; simp [parseObjBody] at h)
        | g + 1, [] => exact absurd h (by rw [hab] at h; simp [parseObjBody] at h)
        | g + 1, c2 :: r2 =>
          rw [hab] at h
          simp only [parseObjBody] at h
          split_ifs at h
          · injection h with h1
            injection h1 with h2 _
            rw [← h2]
            rfl
          · exact (ih g (by omega)).2.2 (c2 :: r2) [] v rest h rfl
              List.nodup_nil
      · -- number
        rcases hpn : parseNumber (c :: cs1) with _ | p
        · rw [hpn] at h
          exact absurd h (by simp)
        · rw [hpn] at h
          simp only [Option.map_some'] at h
          injection h with h1
          injection h1 with h2 _
          rw [← h2]
          rfl
  · intro cs acc v rest h hacc
    match fuel with
    | 0 => exact absurd h (by simp [parseItems])
    | f + 1 =>
      simp only [parseItems] at h
      split at h
      · exact absurd h (by simp)
      · rename_i w rest1 hpv
        have hw : jwf w = true := (ih f (by omega)).1 cs w rest1 hpv
        have hl : jwfList (acc ++ [w]) = true := by
          rw [jwfList_append, hacc, Bool.and_eq_true]
          exact ⟨rfl, by simp [jwfList, hw]⟩
        split at h
        · exact (ih f (by omega)).2.1 _ (acc ++ [w]) v rest h hl
        · injection h with h1
          injection h1 with h2 _
          rw [← h2]
          exact hl
        · exact absurd h (by simp)
  · intro cs acc v rest h hacc hnd
    match fuel with
    | 0 => exact absurd h (by simp [parseMembers])
    | f + 1 =>
      simp only [parseMembers] at h
      split at h
      · rename_i cs1
        split at h
        · exact absurd h (by simp)
        · rename_i k rest1 hps
          split at h
          · rename_i rest2 heq2
            split at h
            · exact absurd h (by simp)
            · rename_i w rest3 hpv
              have hw : jwf w = true :=
                (ih f (by omega)).1 (skipWS rest2) w rest3 hpv
              have hacc2 : jwfMembers (objInsert acc k w) = true :=
                jwfMembers_objInsert hacc hw
              have hnd2 : ((objInsert acc k w).map Prod.fst).Nodup :=
                objInsert_keys_nodup hnd
              split at h
              · exact (ih f (by omega)).2.2 _ (objInsert acc k w) v rest h
                  hacc2 hnd2
              · injection h with h1
                injection h1 with h2 _
                rw [← h2]
                show (nodupKeysB ((objInsert acc k w).map Prod.fst) &&
                  jwfMembers (objInsert acc k w)) = true
                rw [Bool.and_eq_true, nodupKeysB_iff]
                exact ⟨hnd2, hacc2⟩
              · exact absurd h (by simp)
          · exact absurd h (by simp)
      · exact absurd h (by simp)

theorem jsonParse_wf {s : String} {v : Json} (h : jsonParse s = some v) :
    jwf v = true := by
  simp only [jsonParse] at h
  split at h
  · rename_i w rest hpv
    split_ifs at h
    injection h with h1
    rw [← h1]
    exact (wfParseAux _).1 _ w rest hpv
  · exact absurd h (by simp)

theorem jsonStringify_ne_empty (v : Json) : jsonStringify v ≠ "" := by
  obtain ⟨c, t, hct, _⟩ := printJson_head v
  intro he
  have hd : printJson v = [] := congrArg String.data he
  rw [hct] at hd
  exact absurd hd (by simp)

/-- C1: for every string `J` that parses as valid JSON (to `v`),
`decodePayload (encodePayload J)` is a string — the minified serialization
— that parses back to a value deep-equal to `JSON.parse J`;
`loadFromHash (buildHash J)` returns exactly that minified serialization;
any two renderings of the same value (pretty-printed or minified) encode to
the identical token; and `encodePayload` fails on invalid JSON. -/
theorem C1_codec (lz : LZCodec) (J : String) (v : Json)
    (hJ : jsonParse J = some v) :
    (∃ t, encodePayload lz J = some t ∧
        decodePayload lz t = some (jsonStringify v) ∧
        jsonParse (jsonStringify v) = some v) ∧
    (∃ h, buildHash lz J = some h ∧
        loadFromHash lz h = some (jsonStringify v)) ∧
    (∀ J2, jsonParse J2 = some v →
        encodePayload lz J2 = encodePayload lz J) ∧
    (∀ K, jsonParse K = none → encodePayload lz K = none) := by
  have hwf : jwf v = true := jsonParse_wf hJ
  have henc : encodePayload lz J = some (lz.comp (jsonStringify v)) := by
    simp only [encodePayload, hJ]
  refine ⟨⟨lz.comp (jsonStringify v), henc, lz.round _,
    jsonParse_stringify hwf⟩, ?_, ?_, ?_⟩
  · refine ⟨⟨'#' :: 'd' :: 'a' :: 't' :: 'a' :: '=' ::
      (lz.comp (jsonStringify v)).data⟩, ?_, ?_⟩
    · simp only [buildHash, henc]
    · have hne : lz.comp (jsonStringify v) ≠ "" :=
        lz.comp_ne _ (jsonStringify_ne_empty v)
      have hdne : (lz.comp (jsonStringify v)).data ≠ [] := by
        intro h0
        refine absurd ?_ hne
        have heta : lz.comp (jsonStringify v) =
            String.mk (lz.comp (jsonStringify v)).data := rfl
        rw [heta, h0]
      obtain ⟨c, r, htd⟩ := List.exists_cons_of_ne_nil hdne
      have hred : loadFromHash lz ⟨'#' :: 'd' :: 'a' :: 't' :: 'a' :: '=' ::
          (lz.comp (jsonStringify v)).data⟩ =
          (match (lz.comp (jsonStringify v)).data with
            | [] => none
            | c :: r => decodePayload lz ⟨c :: r⟩) := rfl
      rw [hred, htd]
      show decodePayload lz ⟨c :: r⟩ = some (jsonStringify v)
      rw [← htd]
      show lz.decomp (String.mk (lz.comp (jsonStringify v)).data) =
        some (jsonStringify v)
      rw [show String.mk (lz.comp (jsonStringify v)).data =
        lz.comp (jsonStringify v) from rfl]
      exact lz.round _
  · intro J2 h2
    simp only [encodePayload, h2, hJ]
  · intro K hK
    simp only [encodePayload, hK]

/-- Witness for C1 at a concrete pretty-printed input. -/
theorem C1_codec_witness :
    jsonParse c1Sample = some c1Val ∧
    ((∃ t, encodePayload tagCodec c1Sample = some t ∧
        decodePayload tagCodec t = some (jsonStringify c1Val) ∧
        jsonParse (jsonStringify c1Val) = some c1Val) ∧
      (∃ h, buildHash tagCodec c1Sample = some h ∧
        loadFromHash tagCodec h = some (jsonStringify c1Val)) ∧
      (∀ J2, jsonParse J2 = some c1Val →
        encodePayload tagCodec J2 = encodePayload tagCodec c1Sample) ∧
      (∀ K, jsonParse K = none → encodePayload tagCodec K = none)) :=
  ⟨rfl, C1_codec tagCodec c1Sample c1Val rfl⟩

theorem collectItems_eq (env : ParseEnv) (label : String) (items : List Json) :
    collectItems env label items =
      match specFirstFailureItems env items with
      | some e => Except.error e
      | none => Except.ok (specItems env label items) := by
  induction items with
  | nil => rfl
  | cons v rest ih =>
    cases hp : parseOne env v with
    | error e => simp [collectItems, specFirstFailureItems, hp]
    | ok rt =>
      cases hf : specFirstFailureItems env rest with
      | none => simp [collectItems, specFirstFailureItems, specItems, hp, ih, hf]
      | some e => simp [collectItems, specFirstFailureItems, specItems, hp, ih, hf]

theorem collectSources_eq (env : ParseEnv) (inputs : List SourceInput) :
    collectSources env inputs =
      match specFirstFailure env inputs with
      | some e => Except.error e
      | none => Except.ok (specSources env inputs) := by
  induction inputs with
  | nil => rfl
  | cons i rest ih =>
    by_cases hb : jsTrim i.content = ""
    · cases hf : specFirstFailure env rest with
      | none => simp [collectSources, specFirstFailure, specSources, hb, ih, hf]
      | some e => simp [collectSources, specFirstFailure, specSources, hb, ih, hf]
    · cases hp : jsonParse (jsTrim i.content) with
      | none => simp [collectSources, specFirstFailure, hb, hp]
      | some parsed =>
        cases hfi : specFirstFailureItems env (inputItems parsed) with
        | some e =>
          simp [collectSources, specFirstFailure, hb, hp, collectItems_eq, hfi]
        | none =>
          cases hf : specFirstFailure env rest with
          | none =>
            simp [collectSources, specFirstFailure, specSources, hb, hp,
              collectItems_eq, hfi, hf, ih]
          | some e =>
            simp [collectSources, specFirstFailure, specSources, hb, hp,
              collectItems_eq, hfi, hf, ih]

theorem collectSources_skip (env : ParseEnv) (inp : SourceInput)
    (h : jsTrim inp.content = "") (pre post : List SourceInput) :
    collectSources env (pre ++ inp :: post) =
      collectSources env (pre ++ post) := by
  induction pre with
  | nil => simp [collectSources, h]
  | cons i pre ih =>
    by_cases hb : jsTrim i.content = ""
    · simp [collectSources, hb, ih]
    · cases hp : jsonParse (jsTrim i.content) with
      | none => simp [collectSources, hb, hp]
      | some parsed =>
        cases hci : collectItems env i.label (inputItems parsed) with
        | error e => simp [collectSources, hb, hp, hci]
        | ok srcs => simp [collectSources, hb, hp, hci, ih]

theorem collectSources_blank (env : ParseEnv) (inputs : List SourceInput)
    (h : ∀ i ∈ inputs, jsTrim i.content = "") :
    collectSources env inputs = Except.ok [] := by
  induction inputs with
  | nil => rfl
  | cons i rest ih =>
    simp [collectSources, h i (by simp),
      ih (fun j hj => h j (by simp [hj]))]

theorem foldl_dedup_ne_nil (l : List RType) :
    ∀ acc : List RType, acc ≠ [] →
      l.foldl (fun acc t => if t ∈ acc then acc else acc ++ [t]) acc ≠ [] := by
  induction l with
  | nil => intro acc h; exact h
  | cons t rest ih =>
    intro acc h
    simp only [List.foldl_cons]
    apply ih
    split
    · exact h
    · simp

theorem dedupFirstSeen_ne_nil (t : RType) (rest : List RType) :
    dedupFirstSeen (t :: rest) ≠ [] := by
  rw [dedupFirstSeen]
  simp only [List.foldl_cons]
  rw [if_neg (by simp)]
  exact foldl_dedup_ne_nil rest ([] ++ [t]) (by simp)

/-- C3: `parseInputs` skips blank (whitespace-only) inputs entirely; an
all-blank input set returns `(null, null)`; the first JSON-parse or
detection failure among the non-blank inputs, in input order, is returned
as the error; with no such failure, two or more distinct detected kinds
return the error "Cannot merge different report types: " followed by the
distinct kinds comma-joined in first-seen order, while a single detected
kind never returns an error: it either returns data, or the uncaught
normalize/merge stage throws (`Except.error`). -/
theorem C3_parseInputs (env : ParseEnv) (inputs : List SourceInput) :
    (∀ pre post inp, jsTrim inp.content = "" →
        parseInputs env (pre ++ inp :: post) = parseInputs env (pre ++ post)) ∧
    ((∀ i ∈ inputs, jsTrim i.content = "") →
        parseInputs env inputs = Except.ok (none, none)) ∧
    (∀ e, specFirstFailure env inputs = some e →
        parseInputs env inputs = Except.ok (none, some e)) ∧
    (specFirstFailure env inputs = none →
      (detectedKinds env inputs = [] →
        parseInputs env inputs = Except.ok (none, none)) ∧
      (∀ t, dedupFirstSeen (detectedKinds env inputs) = [t] →
        (∃ d, parseInputs env inputs = Except.ok (some d, none)) ∨
        (∃ e, parseInputs env inputs = Except.error e)) ∧
      (∀ t1 t2 ts, dedupFirstSeen (detectedKinds env inputs) = t1 :: t2 :: ts →
        parseInputs env inputs = Except.ok (none, some
          ("Cannot merge different report types: " ++
            joinComma ((t1 :: t2 :: ts).map typeName))))) := by
  refine ⟨?_, ?_, ?_, ?_⟩
  · intro pre post inp h
    simp only [parseInputs, collectSources_skip env inp h pre post]
  · intro hall
    have hc := collectSources_blank env inputs hall
    simp only [parseInputs, hc]
  · intro e he
    have hc := collectSources_eq env inputs
    rw [he] at hc
    simp only [parseInputs, hc]
  · intro hnone
    have hc := collectSources_eq env inputs
    rw [hnone] at hc
    refine ⟨?_, ?_, ?_⟩
    · intro hk
      have hs : specSources env inputs = [] := by
        cases hss : specSources env inputs with
        | nil => rfl
        | cons s0 restS =>
          rw [detectedKinds, hss] at hk
          simp at hk
      simp only [parseInputs, hc, hs]
    · intro t ht
      cases hss : specSources env inputs with
      | nil =>
        rw [detectedKinds, hss] at ht
        simp [dedupFirstSeen] at ht
      | cons s0 restS =>
        have hmap : (s0 :: restS).map
            (fun s : ParsedSource => s.report.1) = detectedKinds env inputs := by
          rw [detectedKinds, hss]
        cases restS with
        | nil =>
          cases hne : normalizeEntriesJ env s0.report.1 (jsOfJson s0.report.2)
            with
          | error e =>
            exact Or.inr ⟨e, by simp only [parseInputs, hc, hss, hmap, ht, hne]⟩
          | ok entries =>
            cases hnt : normalizeTotalsJ env s0.report.1 (jsOfJson s0.report.2)
              with
            | error e =>
              exact Or.inr ⟨e,
                by simp only [parseInputs, hc, hss, hmap, ht, hne, hnt]⟩
            | ok totals =>
              exact Or.inl ⟨⟨entries, totals, s0.report.1,
                (([s0] : List ParsedSource).map (fun s => s.label)).filter
                  (fun l => decide (l ≠ ""))⟩,
                by simp only [parseInputs, hc, hss, hmap, ht, hne, hnt]⟩
        | cons s1 rest2 =>
          cases hma : mapExcept
            (fun s : ParsedSource =>
              normalizeEntriesJ env s.report.1 (jsOfJson s.report.2))
            (s0 :: s1 :: rest2) with
          | error e =>
            exact Or.inr ⟨e, by simp only [parseInputs, hc, hss, hmap, ht, hma]⟩
          | ok arrays =>
            cases hmg : mergeNormalizedEntriesJ env arrays with
            | error e =>
              exact Or.inr ⟨e,
                by simp only [parseInputs, hc, hss, hmap, ht, hma, hmg]⟩
            | ok entries =>
              exact Or.inl ⟨⟨entries, sumEntriesJ env entries, s0.report.1,
                ((s0 :: s1 :: rest2).map (fun s => s.label)).filter
                  (fun l => decide (l ≠ ""))⟩,
                by simp only [parseInputs, hc, hss, hmap, ht, hma, hmg]⟩
    · intro t1 t2 ts ht
      cases hss : specSources env inputs with
      | nil =>
        rw [detectedKinds, hss] at ht
        simp [dedupFirstSeen] at ht
      | cons s0 restS =>
        have hmap : (s0 :: restS).map
            (fun s : ParsedSource => s.report.1) = detectedKinds env inputs := by
          rw [detectedKinds, hss]
        simp only [parseInputs, hc, hss, hmap, ht]

/-- Witness for C3: a blank input plus a daily and a sessions report give
the mismatch error with both kinds in first-seen order. -/
theorem C3_parseInputs_witness :
    specFirstFailure c3Env c3Inputs = none ∧
    dedupFirstSeen (detectedKinds c3Env c3Inputs) =
      [RType.daily, RType.session] ∧
    parseInputs c3Env c3Inputs = Except.ok (none, some
      ("Cannot merge different report types: " ++
        joinComma ([RType.daily, RType.session].map typeName))) :=
  ⟨rfl, rfl,
    ((C3_parseInputs c3Env c3Inputs).2.2.2 rfl).2.2 RType.daily RType.session
      [] rfl⟩

end CCV
